import Mathlib

/-!
# Verification of the CutOut background-removal core

Shallow embedding of the image-processing core of the CutOut repository
(`ImageProcessor` and `AIBackgroundRemover`) together with theorems that
settle the specification claims.

Conventions used throughout:
* JavaScript numbers are modelled by exact arithmetic: integer-valued
  quantities by `ℕ`/`ℤ`, fractional quantities by `ℚ`, and quantities
  involving `Math.sqrt`/`Math.exp` by `ℝ` (with executable integer-square-root
  reformulations proved equivalent where needed).
* An out-of-range or fractional `Buffer` index read yields `undefined` in JS;
  any arithmetic on it yields `NaN`, and all comparisons with `NaN` are false.
  This is modelled by `Option`-valued reads, with `none` propagating to a
  failed comparison.
* `Buffer.alloc` zero-fills, so a freshly allocated mask is the constant
  function `0` (or `255` when allocated with fill `255`).
-/

namespace CutOut

/-- A pixel color: three byte channels (r, g, b). -/
structure Color where
  r : ℕ
  g : ℕ
  b : ℕ
deriving DecidableEq, Repr

/-! ## MorphologyEngine (src part_001: `erode`, `dilate`,
`applyMorphologicalOperations`)

Masks in this file are total functions `ℕ → ℕ` from pixel index to byte
value; the code only ever reads indices inside the buffer. -/

/-- The nine pixel indices of the 3×3 neighborhood of interior pixel (x, y),
listed in the loop order of the source (ky = -1..1 outer, kx = -1..1 inner).
Only used when `1 ≤ x` and `1 ≤ y`, so the `ℕ` subtractions are exact. -/
def nbhd9 (width x y : ℕ) : List ℕ :=
  [(y - 1) * width + (x - 1), (y - 1) * width + x, (y - 1) * width + (x + 1),
   y * width + (x - 1), y * width + x, y * width + (x + 1),
   (y + 1) * width + (x - 1), (y + 1) * width + x, (y + 1) * width + (x + 1)]

/-- `erode` (src part_001 lines 361-380): 3×3 min filter over the
8-neighborhood.  `Buffer.alloc` zero-fills and the loops run only over
`1 ≤ y ≤ height-2`, `1 ≤ x ≤ width-2`, so every border pixel of the result
is 0.  `minValue` starts at 255. -/
def erode (mask : ℕ → ℕ) (width height : ℕ) : ℕ → ℕ := fun i =>
  let x := i % width
  let y := i / width
  if 1 ≤ x ∧ x + 2 ≤ width ∧ 1 ≤ y ∧ y + 2 ≤ height then
    (nbhd9 width x y).foldl (fun acc j => min acc (mask j)) 255
  else 0

/-- `dilate` (src part_001 lines 382-401): 3×3 max filter over the
8-neighborhood; border pixels of the result are 0 (`Buffer.alloc`).
`maxValue` starts at 0. -/
def dilate (mask : ℕ → ℕ) (width height : ℕ) : ℕ → ℕ := fun i =>
  let x := i % width
  let y := i / width
  if 1 ≤ x ∧ x + 2 ≤ width ∧ 1 ≤ y ∧ y + 2 ≤ height then
    (nbhd9 width x y).foldl (fun acc j => max acc (mask j)) 0
  else 0

/-- Morphological opening: erosion followed by dilation (src part_001
lines 352-354). -/
def opening (mask : ℕ → ℕ) (width height : ℕ) : ℕ → ℕ :=
  dilate (erode mask width height) width height

/-- Morphological closing: dilation followed by erosion (src part_001
lines 356-358). -/
def closing (mask : ℕ → ℕ) (width height : ℕ) : ℕ → ℕ :=
  erode (dilate mask width height) width height

/-- `applyMorphologicalOperations` (src part_001 lines 351-359): opening
followed by closing. -/
def applyMorphologicalOperations (mask : ℕ → ℕ) (width height : ℕ) : ℕ → ℕ :=
  closing (opening mask width height) width height

lemma foldlMin_le_init (m : ℕ → ℕ) (l : List ℕ) (a : ℕ) :
    l.foldl (fun acc j => min acc (m j)) a ≤ a := by
  induction l generalizing a with
  | nil => simp
  | cons x xs ih => exact le_trans (ih _) (min_le_left _ _)

lemma foldlMin_le_mem (m : ℕ → ℕ) (l : List ℕ) :
    ∀ (a v : ℕ), v ∈ l → l.foldl (fun acc j => min acc (m j)) a ≤ m v := by
  induction l with
  | nil => intro a v hv; cases hv
  | cons x xs ih =>
    intro a v hv
    rcases List.mem_cons.mp hv with h | h
    · subst h
      exact le_trans (foldlMin_le_init m xs _) (min_le_right _ _)
    · exact ih _ v h

lemma le_foldlMin (m : ℕ → ℕ) (l : List ℕ) :
    ∀ (a c : ℕ), c ≤ a → (∀ v ∈ l, c ≤ m v) →
      c ≤ l.foldl (fun acc j => min acc (m j)) a := by
  induction l with
  | nil => intro a c ha _; simpa using ha
  | cons x xs ih =>
    intro a c ha h
    exact ih (min a (m x)) c (le_min ha (h x (List.mem_cons_self _ _)))
      (fun v hv => h v (List.mem_cons_of_mem _ hv))

lemma init_le_foldlMax (m : ℕ → ℕ) (l : List ℕ) (a : ℕ) :
    a ≤ l.foldl (fun acc j => max acc (m j)) a := by
  induction l generalizing a with
  | nil => simp
  | cons x xs ih => exact le_trans (le_max_left _ _) (ih _)

lemma mem_le_foldlMax (m : ℕ → ℕ) (l : List ℕ) :
    ∀ (a v : ℕ), v ∈ l → m v ≤ l.foldl (fun acc j => max acc (m j)) a := by
  induction l with
  | nil => intro a v hv; cases hv
  | cons x xs ih =>
    intro a v hv
    rcases List.mem_cons.mp hv with h | h
    · subst h
      exact le_trans (le_max_right _ _) (init_le_foldlMax m xs _)
    · exact ih _ v h

lemma foldlMax_le (m : ℕ → ℕ) (l : List ℕ) :
    ∀ (a c : ℕ), a ≤ c → (∀ v ∈ l, m v ≤ c) →
      l.foldl (fun acc j => max acc (m j)) a ≤ c := by
  induction l with
  | nil => intro a c ha _; simpa using ha
  | cons x xs ih =>
    intro a c ha h
    exact ih (max a (m x)) c (max_le ha (h x (List.mem_cons_self _ _)))
      (fun v hv => h v (List.mem_cons_of_mem _ hv))

lemma encode_mod (w x y : ℕ) (hx : x < w) : (y * w + x) % w = x := by
  rw [Nat.add_comm, Nat.add_mul_mod_self_right, Nat.mod_eq_of_lt hx]

lemma encode_div (w x y : ℕ) (hx : x < w) : (y * w + x) / w = y := by
  rw [Nat.add_comm, Nat.add_mul_div_right _ _ (Nat.pos_of_ne_zero (by omega)),
    Nat.div_eq_of_lt hx, Nat.zero_add]

lemma border_not_interior (w h x y : ℕ) (hw : 2 ≤ w) (hh : 2 ≤ h)
    (hx : x < w) (hy : y < h)
    (hb : x = 0 ∨ x = w - 1 ∨ y = 0 ∨ y = h - 1) :
    ¬(1 ≤ x ∧ x + 2 ≤ w ∧ 1 ≤ y ∧ y + 2 ≤ h) := by omega

/-- **C10.** For every input mask and every width ≥ 2, height ≥ 2, the
results of `erode` and of `dilate` are 0 at every border pixel (row 0,
row height-1, column 0, column width-1), regardless of the input values;
consequently the cleaned mask of `applyMorphologicalOperations` has a fully
transparent outer border frame. -/
theorem morphology_border_frame_zero (mask : ℕ → ℕ) (width height x y : ℕ)
    (hw : 2 ≤ width) (hh : 2 ≤ height) (hx : x < width) (hy : y < height)
    (hb : x = 0 ∨ x = width - 1 ∨ y = 0 ∨ y = height - 1) :
    erode mask width height (y * width + x) = 0 ∧
    dilate mask width height (y * width + x) = 0 ∧
    applyMorphologicalOperations mask width height (y * width + x) = 0 := by
  have hm := encode_mod width x y hx
  have hd := encode_div width x y hx
  have hni := border_not_interior width height x y hw hh hx hy hb
  refine ⟨?_, ?_, ?_⟩
  · simp only [erode, hm, hd, if_neg hni]
  · simp only [dilate, hm, hd, if_neg hni]
  · simp only [applyMorphologicalOperations, closing, erode, hm, hd, if_neg hni]

/-- Witness for C10 at a concrete border pixel of a 3×3 all-255 mask. -/
theorem morphology_border_frame_zero_witness :
    erode (fun _ => 255) 3 3 (1 * 3 + 0) = 0 ∧
    dilate (fun _ => 255) 3 3 (1 * 3 + 0) = 0 ∧
    applyMorphologicalOperations (fun _ => 255) 3 3 (1 * 3 + 0) = 0 :=
  morphology_border_frame_zero (fun _ => 255) 3 3 0 1 (by norm_num)
    (by norm_num) (by norm_num) (by norm_num) (Or.inl rfl)

/-- A 5×5 mask whose only background (zero) pixel is the center (2,2),
surrounded by foreground 255 — the configuration of claim C8. -/
def singleZeroMask5 : ℕ → ℕ := fun i => if i = 12 then 0 else 255

/-- **C8 counterexample.** On a 5×5 mask whose only zero pixel is the center
(2,2) (an isolated background pixel surrounded by foreground), opening
(erode then dilate) does NOT remove that pixel: the opened mask is still 0
there, contradicting the claim that opening removes an isolated background
pixel. -/
theorem opening_keeps_isolated_background_zero :
    singleZeroMask5 12 = 0 ∧ (∀ i < 25, i ≠ 12 → singleZeroMask5 i = 255) ∧
    opening singleZeroMask5 5 5 12 = 0 := by decide

lemma erode_single_fg_zero (w h c : ℕ) (mF : ℕ → ℕ)
    (hmF : ∀ i, mF i = if i = c then 255 else 0) (i : ℕ) :
    erode mF w h i = 0 := by
  simp only [erode]
  by_cases hint : 1 ≤ i % w ∧ i % w + 2 ≤ w ∧ 1 ≤ i / w ∧ i / w + 2 ≤ h
  · rw [if_pos hint]
    obtain ⟨h1, _, _, _⟩ := hint
    set x := i % w with hxdef
    set y := i / w with hydef
    have hmem1 : (y - 1) * w + (x - 1) ∈ nbhd9 w x y := by simp [nbhd9]
    have hmem2 : (y - 1) * w + x ∈ nbhd9 w x y := by simp [nbhd9]
    have hne : (y - 1) * w + (x - 1) ≠ (y - 1) * w + x := by omega
    rcases eq_or_ne ((y - 1) * w + (x - 1)) c with he | he
    · have h2c : (y - 1) * w + x ≠ c := fun hc => hne (he.trans hc.symm)
      have hv : mF ((y - 1) * w + x) = 0 := by rw [hmF]; exact if_neg h2c
      have := foldlMin_le_mem mF (nbhd9 w x y) 255 _ hmem2
      omega
    · have hv : mF ((y - 1) * w + (x - 1)) = 0 := by rw [hmF]; exact if_neg he
      have := foldlMin_le_mem mF (nbhd9 w x y) 255 _ hmem1
      omega
  · rw [if_neg hint]

lemma dilate_all_zero (w h : ℕ) (m : ℕ → ℕ) (hm : ∀ j, m j = 0) (i : ℕ) :
    dilate m w h i = 0 := by
  simp only [dilate]
  by_cases hint : 1 ≤ i % w ∧ i % w + 2 ≤ w ∧ 1 ≤ i / w ∧ i / w + 2 ≤ h
  · rw [if_pos hint]
    have := foldlMax_le m (nbhd9 w (i % w) (i / w)) 0 0 le_rfl
      (fun v _ => le_of_eq (hm v))
    omega
  · rw [if_neg hint]

lemma dilate_single_bg_interior (w h c : ℕ) (mB : ℕ → ℕ)
    (hmB : ∀ i, mB i = if i = c then 0 else 255)
    (nx ny : ℕ) (h1 : 1 ≤ nx) (h2 : nx + 2 ≤ w) (h3 : 1 ≤ ny)
    (h4 : ny + 2 ≤ h) :
    dilate mB w h (ny * w + nx) = 255 := by
  have hxlt : nx < w := by omega
  simp only [dilate, encode_mod w nx ny hxlt, encode_div w nx ny hxlt]
  rw [if_pos ⟨h1, h2, h3, h4⟩]
  have hmem1 : (ny - 1) * w + (nx - 1) ∈ nbhd9 w nx ny := by simp [nbhd9]
  have hmem2 : (ny - 1) * w + nx ∈ nbhd9 w nx ny := by simp [nbhd9]
  have hne : (ny - 1) * w + (nx - 1) ≠ (ny - 1) * w + nx := by omega
  have hub : ∀ v ∈ nbhd9 w nx ny, mB v ≤ 255 := by
    intro v _
    rw [hmB]
    split <;> omega
  have hle := foldlMax_le mB (nbhd9 w nx ny) 0 255 (by omega) hub
  rcases eq_or_ne ((ny - 1) * w + (nx - 1)) c with he | he
  · have h2c : (ny - 1) * w + nx ≠ c := fun hc => hne (he.trans hc.symm)
    have hv : mB ((ny - 1) * w + nx) = 255 := by rw [hmB]; exact if_neg h2c
    have := mem_le_foldlMax mB (nbhd9 w nx ny) 0 _ hmem2
    omega
  · have hv : mB ((ny - 1) * w + (nx - 1)) = 255 := by rw [hmB]; exact if_neg he
    have := mem_le_foldlMax mB (nbhd9 w nx ny) 0 _ hmem1
    omega

/-- **C8 (amended).** The roles are the reverse of the claim, matching the
source: opening (erode then dilate) removes a single isolated FOREGROUND
(255) pixel — the whole opened mask is 0 — and closing (dilate then erode)
fills a single isolated interior BACKGROUND (0) pixel (at least two pixels
away from every border) back to 255. -/
theorem opening_removes_fg_closing_fills_bg (w h cx cy : ℕ) (mF mB : ℕ → ℕ)
    (hcx : 2 ≤ cx) (hcx2 : cx + 3 ≤ w) (hcy : 2 ≤ cy) (hcy2 : cy + 3 ≤ h)
    (hmF : ∀ i, mF i = if i = cy * w + cx then 255 else 0)
    (hmB : ∀ i, mB i = if i = cy * w + cx then 0 else 255) :
    (∀ i, opening mF w h i = 0) ∧ closing mB w h (cy * w + cx) = 255 := by
  constructor
  · intro i
    exact dilate_all_zero w h _ (erode_single_fg_zero w h _ mF hmF) i
  · have hxlt : cx < w := by omega
    simp only [closing, erode, encode_mod w cx cy hxlt, encode_div w cx cy hxlt]
    rw [if_pos (by omega : 1 ≤ cx ∧ cx + 2 ≤ w ∧ 1 ≤ cy ∧ cy + 2 ≤ h)]
    have hall : ∀ v ∈ nbhd9 w cx cy, 255 ≤ dilate mB w h v := by
      intro v hv
      simp only [nbhd9, List.mem_cons, List.mem_singleton] at hv
      have hd : dilate mB w h v = 255 := by
        rcases hv with rfl | rfl | rfl | rfl | rfl | rfl | rfl | rfl | rfl | hF
        · exact dilate_single_bg_interior w h _ mB hmB (cx - 1) (cy - 1)
            (by omega) (by omega) (by omega) (by omega)
        · exact dilate_single_bg_interior w h _ mB hmB cx (cy - 1)
            (by omega) (by omega) (by omega) (by omega)
        · exact dilate_single_bg_interior w h _ mB hmB (cx + 1) (cy - 1)
            (by omega) (by omega) (by omega) (by omega)
        · exact dilate_single_bg_interior w h _ mB hmB (cx - 1) cy
            (by omega) (by omega) (by omega) (by omega)
        · exact dilate_single_bg_interior w h _ mB hmB cx cy
            (by omega) (by omega) (by omega) (by omega)
        · exact dilate_single_bg_interior w h _ mB hmB (cx + 1) cy
            (by omega) (by omega) (by omega) (by omega)
        · exact dilate_single_bg_interior w h _ mB hmB (cx - 1) (cy + 1)
            (by omega) (by omega) (by omega) (by omega)
        · exact dilate_single_bg_interior w h _ mB hmB cx (cy + 1)
            (by omega) (by omega) (by omega) (by omega)
        · exact dilate_single_bg_interior w h _ mB hmB (cx + 1) (cy + 1)
            (by omega) (by omega) (by omega) (by omega)
        · cases hF
      omega
    have hge := le_foldlMin (dilate mB w h) (nbhd9 w cx cy) 255 255 le_rfl hall
    have hle := foldlMin_le_init (dilate mB w h) (nbhd9 w cx cy) 255
    omega

/-- A 7×7 mask with a single isolated foreground pixel at the center. -/
def singleFgMask7 : ℕ → ℕ := fun i => if i = 24 then 255 else 0

/-- A 7×7 mask with a single isolated background pixel at the center. -/
def singleBgMask7 : ℕ → ℕ := fun i => if i = 24 then 0 else 255

/-- Witness for the amended C8 at a concrete 7×7 configuration. -/
theorem opening_removes_fg_closing_fills_bg_witness :
    (∀ i, opening singleFgMask7 7 7 i = 0) ∧ closing singleBgMask7 7 7 24 = 255 :=
  opening_removes_fg_closing_fills_bg 7 7 3 3 singleFgMask7 singleBgMask7
    (by norm_num) (by norm_num) (by norm_num) (by norm_num)
    (fun _ => rfl) (fun _ => rfl)

/-! ## ImageProcessor data model (src part_000)

An `Image` is the decoded raster handed to the core by the codec: row-major
interleaved bytes, `channels` ∈ {3,4}. -/

/-- A decoded raster image (the `data`/`info` pair of the source). -/
structure Image where
  width : ℕ
  height : ℕ
  channels : ℕ
  data : List ℕ
deriving Repr

/-- Read one byte of the data buffer at a (possibly negative) integer index;
`none` models the JS `undefined` of an out-of-range read. -/
def readI (l : List ℕ) (i : ℤ) : Option ℕ :=
  if 0 ≤ i then l[i.toNat]? else none

/-- Read the RGB triple of pixel `i` (`data[i*channels .. i*channels+2]`);
`none` when any byte is out of range. -/
def getPix (img : Image) (i : ℕ) : Option Color :=
  match img.data[i * img.channels]?, img.data[i * img.channels + 1]?,
      img.data[i * img.channels + 2]? with
  | some r, some g, some b => some ⟨r, g, b⟩
  | _, _, _ => none

/-- 100 × the square of the weighted perceptual distance of the source:
`distance = Math.sqrt(0.3·Δr² + 0.59·Δg² + 0.11·Δb²)`, so
`distance = Real.sqrt (dsq100 / 100)`. -/
def dsq100 (p c : Color) : ℕ :=
  (30 * ((p.r : ℤ) - c.r) ^ 2 + 59 * ((p.g : ℤ) - c.g) ^ 2 +
    11 * ((p.b : ℤ) - c.b) ^ 2).toNat

/-- `createProtectedZone` (src part_000 lines 407-432): elliptical center
zone, `protectSize = min(w,h)·0.5`, center `(w/2, h/2)`, semi-axes
`protectSize/2 = 0.25·min(w,h)`; a pixel is protected iff
`sqrt(((x-cx)/(ps/2))² + ((y-cy)/(ps/2))²) ≤ 1`.  Dropping the square root
and clearing the (positive, for w,h ≥ 1) denominators gives the equivalent
integer test used here: `4·((2x-w)² + (2y-h)²) ≤ min(w,h)²`.
`protPix_iff_spec` below proves the equivalence with the literal rational
formula of the source. -/
def protPix (w h x y : ℕ) : Bool :=
  decide (4 * ((2 * (x : ℤ) - w) ^ 2 + (2 * (y : ℤ) - h) ^ 2) ≤
    ((min w h : ℕ) : ℤ) ^ 2)

/-- The protected-zone test at a flat pixel index. -/
def protIdx (w h i : ℕ) : Bool := protPix w h (i % w) (i / w)

/-- Binary-search step for the integer square root; invariant
`lo² ≤ n < hi²`, `lo < hi`, and the gap shrinks geometrically (the fuel is
only a structural-termination device). -/
def isqrtGo (n : ℕ) : ℕ → ℕ → ℕ → ℕ
  | 0, lo, _ => lo
  | fuel + 1, lo, hi =>
    if hi ≤ lo + 1 then lo
    else
      let mid := (lo + hi) / 2
      if mid * mid ≤ n then isqrtGo n fuel mid hi else isqrtGo n fuel lo mid

/-- Executable integer square root (`isqrt_eq_natSqrt` proves it equal to
`Nat.sqrt`, which does not reduce in the kernel). -/
def isqrt (n : ℕ) : ℕ := isqrtGo n (n + 2) 0 (n + 1)

lemma isqrtGo_spec (n : ℕ) : ∀ fuel lo hi, lo * lo ≤ n → n < hi * hi →
    lo < hi → hi ≤ lo + fuel →
    isqrtGo n fuel lo hi * isqrtGo n fuel lo hi ≤ n ∧
      n < (isqrtGo n fuel lo hi + 1) * (isqrtGo n fuel lo hi + 1) := by
  intro fuel
  induction fuel with
  | zero => intro lo hi _ _ h3 h4; omega
  | succ fuel ih =>
    intro lo hi h1 h2 h3 h4
    rw [isqrtGo]
    by_cases hc : hi ≤ lo + 1
    · rw [if_pos hc]
      have hhi : hi = lo + 1 := by omega
      exact ⟨h1, by rw [← hhi]; exact h2⟩
    · rw [if_neg hc]
      by_cases hm : (lo + hi) / 2 * ((lo + hi) / 2) ≤ n
      · rw [if_pos hm]
        exact ih ((lo + hi) / 2) hi hm h2 (by omega) (by omega)
      · rw [if_neg hm]
        exact ih lo ((lo + hi) / 2) h1 (by omega) (by omega) (by omega)

lemma isqrt_spec (n : ℕ) :
    isqrt n * isqrt n ≤ n ∧ n < (isqrt n + 1) * (isqrt n + 1) :=
  isqrtGo_spec n (n + 2) 0 (n + 1) (by omega) (by nlinarith) (by omega)
    (by omega)

lemma isqrt_eq_natSqrt (n : ℕ) : isqrt n = Nat.sqrt n :=
  Nat.eq_sqrt.mpr (isqrt_spec n)

/-- Executable value of the plain MaskBuilder at a non-protected pixel with
`N = dsq100 pixel target` and tolerance `t`:
`d ≤ 0.6t ↦ 0`; `0.6t < d ≤ t ↦ Math.round((d－0.6t)/(0.4t)·255)`; else 255,
where `d = Real.sqrt (N/100)`.  The comparisons and the rounded ramp are
computed by integer square root; `maskValPlain_cast` below proves this
equal to the real-number formula of the source. -/
def maskValPlain (N t : ℕ) : ℕ :=
  if N ≤ 36 * t ^ 2 then 0
  else if N ≤ 100 * t ^ 2 then (isqrt (65025 * N) - 1528 * t) / (4 * t)
  else 255

/-- `createProtectedMask` (src part_000 lines 368-402).  The mask starts at
255 (`Buffer.alloc(w*h, 255)`); protected pixels are skipped; a failed pixel
read gives NaN distance, whose comparisons are all false, leaving 255. -/
def createProtectedMask (img : Image) (target : Color) (t : ℕ) : List ℕ :=
  (List.range (img.width * img.height)).map fun i =>
    if protIdx img.width img.height i then 255
    else
      match getPix img i with
      | none => 255
      | some p => maskValPlain (dsq100 p target) t

/-- `edgeDistance = Math.min(x, width - x, y, height - y)`
(src part_000 line 698). -/
def edgeDist (w h x y : ℕ) : ℕ := min (min x (w - x)) (min y (h - y))

/-- Executable value of the enhanced MaskBuilder at a non-protected pixel:
`d ≤ 0.7t ↦ 0`; `0.7t < d ≤ t` and `edgeDistance ≤ 0.35·min(w,h)` ↦
`Math.round((d－0.7t)/(0.3t)·255)`; else 255. -/
def maskValEnh (N t ed m : ℕ) : ℕ :=
  if N ≤ 49 * t ^ 2 then 0
  else if N ≤ 100 * t ^ 2 ∧ 20 * ed ≤ 7 * m then
    (isqrt (260100 * N) - 3567 * t) / (6 * t)
  else 255

/-- `createEnhancedProtectedMask` (src part_000 lines 672-710). -/
def createEnhancedProtectedMask (img : Image) (target : Color) (t : ℕ) :
    List ℕ :=
  (List.range (img.width * img.height)).map fun i =>
    if protIdx img.width img.height i then 255
    else
      match getPix img i with
      | none => 255
      | some p =>
        maskValEnh (dsq100 p target) t
          (edgeDist img.width img.height (i % img.width) (i / img.width))
          (min img.width img.height)

lemma idx_lt (w h x y : ℕ) (hx : x < w) (hy : y < h) : y * w + x < w * h := by
  calc y * w + x < y * w + w := by omega
  _ = (y + 1) * w := by ring
  _ ≤ h * w := Nat.mul_le_mul_right w hy
  _ = w * h := Nat.mul_comm h w

/-- The integer test of `protPix` agrees with the literal rational formula
of `createProtectedZone` (the squared `distanceFromCenter ≤ 1` test with
center (w/2, h/2) and semi-axes `min(w,h)·0.5/2`), for positive
dimensions. -/
lemma protPix_iff_spec (w h x y : ℕ) (hw : 0 < w) (hh : 0 < h) :
    ((((x : ℚ) - w / 2) / (min (w : ℚ) h * (1 / 2) / 2)) ^ 2 +
        (((y : ℚ) - h / 2) / (min (w : ℚ) h * (1 / 2) / 2)) ^ 2 ≤ 1) ↔
      4 * ((2 * (x : ℤ) - w) ^ 2 + (2 * (y : ℤ) - h) ^ 2) ≤
        ((min w h : ℕ) : ℤ) ^ 2 := by
  have hm : (0 : ℚ) < min (w : ℚ) (h : ℚ) := lt_min (by exact_mod_cast hw)
    (by exact_mod_cast hh)
  set c : ℚ := min (w : ℚ) h * (1 / 2) / 2 with hcdef
  have hcpos : (0 : ℚ) < c := by rw [hcdef]; positivity
  rw [show (((x : ℚ) - w / 2) / c) ^ 2 + (((y : ℚ) - h / 2) / c) ^ 2 =
      (((x : ℚ) - w / 2) ^ 2 + ((y : ℚ) - h / 2) ^ 2) / c ^ 2 from by ring,
    div_le_one (by positivity)]
  have e1 : (16 : ℚ) * (((x : ℚ) - w / 2) ^ 2 + ((y : ℚ) - h / 2) ^ 2) =
      4 * ((2 * (x : ℚ) - w) ^ 2 + (2 * (y : ℚ) - h) ^ 2) := by ring
  have h16 : (16 : ℚ) * c ^ 2 = (min (w : ℚ) h) ^ 2 := by rw [hcdef]; ring
  have hcast : ((min w h : ℕ) : ℚ) = min (w : ℚ) h := by
    simp [Nat.cast_min]
  constructor
  · intro hle
    have h4 : 4 * ((2 * (x : ℚ) - w) ^ 2 + (2 * (y : ℚ) - h) ^ 2) ≤
        (min (w : ℚ) h) ^ 2 := by linarith
    rw [← hcast] at h4
    exact_mod_cast h4
  · intro hle
    have h4 : 4 * ((2 * (x : ℚ) - w) ^ 2 + (2 * (y : ℚ) - h) ^ 2) ≤
        (min (w : ℚ) h) ^ 2 := by
      rw [← hcast]; exact_mod_cast hle
    linarith

/-- **C3.** For every image, target color and tolerance, every pixel inside
the elliptical protected zone (center (w/2, h/2), semi-axes 0.25·min(w,h),
i.e. `4·((2x-w)² + (2y-h)²) ≤ min(w,h)²`) has value 255 both in the plain
mask of `createProtectedMask` and in the enhanced mask of
`createEnhancedProtectedMask`. -/
theorem protected_zone_always_opaque (img : Image) (target : Color)
    (t x y : ℕ) (hx : x < img.width) (hy : y < img.height)
    (hell : 4 * ((2 * (x : ℤ) - img.width) ^ 2 + (2 * (y : ℤ) - img.height) ^ 2)
      ≤ ((min img.width img.height : ℕ) : ℤ) ^ 2) :
    (createProtectedMask img target t)[y * img.width + x]? = some 255 ∧
    (createEnhancedProtectedMask img target t)[y * img.width + x]? =
      some 255 := by
  have hi := idx_lt img.width img.height x y hx hy
  have hmod := encode_mod img.width x y hx
  have hdiv := encode_div img.width x y hx
  have hprot : protIdx img.width img.height (y * img.width + x) = true := by
    unfold protIdx
    rw [hmod, hdiv]
    exact decide_eq_true hell
  constructor
  · unfold createProtectedMask
    rw [List.getElem?_map, List.getElem?_range hi]
    simp [hprot]
  · unfold createEnhancedProtectedMask
    rw [List.getElem?_map, List.getElem?_range hi]
    simp [hprot]

/-- Witness for C3: the center pixel (2,2) of a 5×4 3-channel image is
protected and receives 255 from both builders. -/
theorem protected_zone_always_opaque_witness :
    (createProtectedMask ⟨5, 4, 3, List.replicate 60 7⟩ ⟨7, 7, 7⟩ 90)[2 * 5 + 2]?
      = some 255 ∧
    (createEnhancedProtectedMask ⟨5, 4, 3, List.replicate 60 7⟩ ⟨7, 7, 7⟩
      90)[2 * 5 + 2]? = some 255 :=
  protected_zone_always_opaque ⟨5, 4, 3, List.replicate 60 7⟩ ⟨7, 7, 7⟩ 90 2 2
    (by norm_num) (by norm_num) (by decide)

/-! ## The real-number semantics of the MaskBuilder formula (claim C2) -/

lemma nat_sqrt_le_real (M : ℕ) : ((Nat.sqrt M : ℕ) : ℝ) ≤ Real.sqrt M := by
  refine (Real.le_sqrt (by positivity) (by positivity)).mpr ?_
  exact_mod_cast Nat.sqrt_le' M

lemma real_sqrt_lt_succ (M : ℕ) :
    Real.sqrt M < ((Nat.sqrt M : ℕ) : ℝ) + 1 := by
  refine (Real.sqrt_lt' (by positivity)).mpr ?_
  exact_mod_cast Nat.lt_succ_sqrt' M

/-- `Math.floor((Math.sqrt M + e) / m)` agrees with the integer-square-root
computation: since `m`, `e` are integers and `⌊√M⌋ = Nat.sqrt M`, the floor
of the quotient only depends on `⌊√M⌋`. -/
lemma floor_sqrt_add_div (M : ℕ) (e : ℤ) (m : ℕ) (hm : 0 < m) :
    ⌊(Real.sqrt M + (e : ℝ)) / (m : ℝ)⌋ = ((Nat.sqrt M : ℤ) + e) / (m : ℤ) := by
  have hmz : ((m : ℕ) : ℤ) ≠ 0 := by exact_mod_cast hm.ne'
  have hmpos : (0 : ℤ) < (m : ℤ) := by exact_mod_cast hm
  have hmR : (0 : ℝ) < (m : ℝ) := by exact_mod_cast hm
  set s : ℤ := (Nat.sqrt M : ℤ) with hs
  set q : ℤ := (s + e) / (m : ℤ) with hq
  have hq1 : q * m ≤ s + e := Int.ediv_mul_le (s + e) hmz
  have hq2 : s + e < (q + 1) * m := Int.lt_ediv_add_one_mul_self (s + e) hmpos
  have hs1 : (s : ℝ) ≤ Real.sqrt M := by
    rw [hs]; push_cast; exact nat_sqrt_le_real M
  have hs2 : Real.sqrt M < (s : ℝ) + 1 := by
    rw [hs]; push_cast; exact real_sqrt_lt_succ M
  rw [Int.floor_eq_iff]
  constructor
  · rw [le_div_iff₀ hmR]
    have : ((q * m : ℤ) : ℝ) ≤ (s : ℝ) + e := by exact_mod_cast hq1
    push_cast at this ⊢
    linarith
  · rw [div_lt_iff₀ hmR]
    have h2 : s + e + 1 ≤ (q + 1) * m := hq2
    have : ((s + e + 1 : ℤ) : ℝ) ≤ (((q + 1) * m : ℤ) : ℝ) := by exact_mod_cast h2
    push_cast at this ⊢
    linarith

/-- The weighted perceptual distance of the spec/claim:
`sqrt(0.3·Δr² + 0.59·Δg² + 0.11·Δb²)` in real arithmetic. -/
noncomputable def perceptualDist (p c : Color) : ℝ :=
  Real.sqrt ((3 / 10) * ((p.r : ℝ) - c.r) ^ 2 + (59 / 100) * ((p.g : ℝ) - c.g) ^ 2
    + (11 / 100) * ((p.b : ℝ) - c.b) ^ 2)

/-- The claim's description of the plain MaskBuilder value at a non-protected
pixel, written from the spec's words: 0 when `d ≤ 0.6T`, the rounded linear
ramp `round((d－0.6T)/(0.4T)·255)` when `0.6T < d ≤ T`, 255 otherwise. -/
noncomputable def specPlainMaskValue (p c : Color) (t : ℕ) : ℤ :=
  if perceptualDist p c ≤ (6 / 10) * t then 0
  else if perceptualDist p c ≤ t then
    round ((perceptualDist p c - (6 / 10) * t) / ((4 / 10) * t) * 255)
  else 255

lemma perceptualDist_eq (p c : Color) :
    perceptualDist p c = Real.sqrt (dsq100 p c) / 10 := by
  have harg : (3 / 10) * ((p.r : ℝ) - c.r) ^ 2 +
      (59 / 100) * ((p.g : ℝ) - c.g) ^ 2 +
      (11 / 100) * ((p.b : ℝ) - c.b) ^ 2 = ((dsq100 p c : ℕ) : ℝ) / 100 := by
    unfold dsq100
    have hnn : (0 : ℤ) ≤ 30 * ((p.r : ℤ) - c.r) ^ 2 + 59 * ((p.g : ℤ) - c.g) ^ 2
        + 11 * ((p.b : ℤ) - c.b) ^ 2 := by positivity
    have hcast : (((30 * ((p.r : ℤ) - c.r) ^ 2 + 59 * ((p.g : ℤ) - c.g) ^ 2 +
        11 * ((p.b : ℤ) - c.b) ^ 2).toNat : ℕ) : ℝ) =
        (((30 * ((p.r : ℤ) - c.r) ^ 2 + 59 * ((p.g : ℤ) - c.g) ^ 2 +
        11 * ((p.b : ℤ) - c.b) ^ 2) : ℤ) : ℝ) := by
      exact_mod_cast congrArg (Int.cast : ℤ → ℝ) (Int.toNat_of_nonneg hnn)
    rw [hcast]
    push_cast
    ring
  unfold perceptualDist
  rw [harg, Real.sqrt_div (by positivity) 100,
    show Real.sqrt 100 = 10 from by
      rw [show (100 : ℝ) = 10 ^ 2 from by norm_num,
        Real.sqrt_sq (by norm_num : (0 : ℝ) ≤ 10)]]

lemma sqrt_cmp_poly (N k : ℕ) : Real.sqrt N / 10 ≤ (k : ℝ) ↔ N ≤ 100 * k ^ 2 := by
  rw [div_le_iff₀ (by norm_num : (0 : ℝ) < 10)]
  rw [Real.sqrt_le_iff]
  constructor
  · rintro ⟨-, hle⟩
    have : (N : ℝ) ≤ 100 * (k : ℝ) ^ 2 := by nlinarith
    exact_mod_cast this
  · intro hle
    refine ⟨by positivity, ?_⟩
    have : (N : ℝ) ≤ 100 * (k : ℝ) ^ 2 := by exact_mod_cast hle
    nlinarith

lemma sqrt_cmp_div10 (N k : ℕ) :
    Real.sqrt N / 10 ≤ (k : ℝ) / 10 ↔ N ≤ k ^ 2 := by
  constructor
  · intro h
    have h2 : Real.sqrt N ≤ (k : ℝ) := by linarith
    have h3 := (Real.sqrt_le_iff.mp h2).2
    exact_mod_cast h3
  · intro h
    have h2 : Real.sqrt N ≤ (k : ℝ) :=
      Real.sqrt_le_iff.mpr ⟨by positivity, by exact_mod_cast h⟩
    linarith

lemma cast_sub_div (a b m : ℕ) (hba : b ≤ a) :
    (((a - b) / m : ℕ) : ℤ) = ((a : ℤ) + -(b : ℤ)) / (m : ℤ) := by
  have h1 : ((a - b : ℕ) : ℤ) = (a : ℤ) + -(b : ℤ) := by omega
  rw [Int.ofNat_ediv, h1]

/-- The executable `maskValPlain` computes exactly the real-number value of
the source/claim formula (for positive tolerance). -/
lemma maskValPlain_eq_spec (p c : Color) (t : ℕ) (ht : 0 < t) :
    ((maskValPlain (dsq100 p c) t : ℕ) : ℤ) = specPlainMaskValue p c t := by
  set N := dsq100 p c with hN
  have htR : (0 : ℝ) < (t : ℝ) := by exact_mod_cast ht
  have hd := perceptualDist_eq p c
  rw [← hN] at hd
  have hc1 : perceptualDist p c ≤ 6 / 10 * (t : ℝ) ↔ N ≤ 36 * t ^ 2 := by
    rw [hd, show (6 / 10 : ℝ) * t = ((6 * t : ℕ) : ℝ) / 10 from by push_cast; ring,
      sqrt_cmp_div10]
    constructor <;> intro h <;> [nlinarith [h]; nlinarith [h]]
  have hc2 : perceptualDist p c ≤ (t : ℝ) ↔ N ≤ 100 * t ^ 2 := by
    rw [hd, show ((t : ℕ) : ℝ) = ((10 * t : ℕ) : ℝ) / 10 from by push_cast; ring,
      sqrt_cmp_div10]
    constructor <;> intro h <;> [nlinarith [h]; nlinarith [h]]
  unfold maskValPlain specPlainMaskValue
  by_cases h1 : N ≤ 36 * t ^ 2
  · rw [if_pos h1, if_pos (hc1.mpr h1)]
    rfl
  · rw [if_neg h1, if_neg (fun hc => h1 (hc1.mp hc))]
    by_cases h2 : N ≤ 100 * t ^ 2
    · rw [if_pos h2, if_pos (hc2.mpr h2), isqrt_eq_natSqrt]
      have hsq : 1530 * t ≤ Nat.sqrt (65025 * N) := by
        refine Nat.le_sqrt.mpr ?_
        have hge : 36 * t ^ 2 + 1 ≤ N := by omega
        nlinarith [hge]
      have hs : Real.sqrt ((65025 * N : ℕ) : ℝ) = 255 * Real.sqrt N := by
        rw [show ((65025 * N : ℕ) : ℝ) = 255 ^ 2 * ((N : ℕ) : ℝ) from by
            push_cast; ring,
          Real.sqrt_mul (by positivity) _,
          Real.sqrt_sq (by norm_num : (0 : ℝ) ≤ 255)]
      set e : ℤ := -((1528 * t : ℕ) : ℤ) with he
      have hstep1 : (((Nat.sqrt (65025 * N) - 1528 * t) / (4 * t) : ℕ) : ℤ)
          = ((Nat.sqrt (65025 * N) : ℤ) + e) / ((4 * t : ℕ) : ℤ) := by
        rw [he]
        exact cast_sub_div _ _ _ (by omega)
      have hstep2 := floor_sqrt_add_div (65025 * N) e (4 * t) (by omega)
      have hstep3 : (Real.sqrt ((65025 * N : ℕ) : ℝ) + (e : ℝ)) /
          ((4 * t : ℕ) : ℝ) =
          (perceptualDist p c - 6 / 10 * t) / (4 / 10 * t) * 255 + 1 / 2 := by
        rw [he, hs, hd]
        push_cast
        field_simp
        ring
      refine hstep1.trans (hstep2.symm.trans ?_)
      rw [round_eq]
      exact congrArg Int.floor hstep3
    · rw [if_neg h2, if_neg (fun hc => h2 (hc2.mp hc))]
      rfl

/-- **C2.** For every image, target color, and tolerance T > 0, the plain
MaskBuilder (`createProtectedMask`) assigns each non-protected pixel (whose
RGB bytes are in range) the value 0 when its weighted perceptual distance
`d = sqrt(0.3·Δr² + 0.59·Δg² + 0.11·Δb²)` to the target is ≤ 0.6T, the
linear ramp value `round((d − 0.6T)/(0.4T)·255)` when 0.6T < d ≤ T, and 255
otherwise — i.e. exactly `specPlainMaskValue`, the transcription of the
claim's formula. -/
theorem plain_maskbuilder_formula (img : Image) (target : Color) (t x y : ℕ)
    (p : Color) (ht : 0 < t) (hx : x < img.width) (hy : y < img.height)
    (hnp : protPix img.width img.height x y = false)
    (hread : getPix img (y * img.width + x) = some p) :
    ((createProtectedMask img target t)[y * img.width + x]?).map
        (fun v : ℕ => (v : ℤ))
      = some (specPlainMaskValue p target t) := by
  have hi := idx_lt _ _ x y hx hy
  have hmod := encode_mod img.width x y hx
  have hdiv := encode_div img.width x y hx
  unfold createProtectedMask
  rw [List.getElem?_map, List.getElem?_range hi]
  have hprot : protIdx img.width img.height (y * img.width + x) = false := by
    unfold protIdx
    rw [hmod, hdiv]
    exact hnp
  simp only [Option.map_some', hprot, Bool.false_eq_true, if_false, hread]
  exact congrArg some (maskValPlain_eq_spec p target t ht)

/-- Witness for C2: a 1×1 image with pixel (126,126,126), target
(100,100,100), tolerance 40 (there d = 26 lies in the ramp band, giving
round(31.875) = 32). -/
theorem plain_maskbuilder_formula_witness :
    ((createProtectedMask ⟨1, 1, 3, [126, 126, 126]⟩ ⟨100, 100, 100⟩
        40)[0 * 1 + 0]?).map (fun v : ℕ => (v : ℤ))
      = some (specPlainMaskValue ⟨126, 126, 126⟩ ⟨100, 100, 100⟩ 40) :=
  plain_maskbuilder_formula ⟨1, 1, 3, [126, 126, 126]⟩ ⟨100, 100, 100⟩ 40 0 0
    ⟨126, 126, 126⟩ (by norm_num) (by norm_num) (by norm_num) (by decide)
    (by decide)

/-! ## Exact-arithmetic utilities for the JS loops

Several source loops run over fractional bounds (`for (y = h/2 - s/2; ...)`).
All such quantities are rationals with a small common denominator per call
site; we represent them by integers scaled by that denominator (`den`), so
that every definition is executable.  A buffer read at a scaled index is
defined only when the index is a nonnegative integer within range, matching
the JS `undefined`/`NaN` behavior. -/

/-- The JS loop `for (v = a; v < b; v += s)` over exact rationals scaled by a
common positive denominator: the visited scaled values `a, a+s, a+2s, ...`
strictly below `b`. -/
def qRange (a b s : ℤ) : List ℤ :=
  (List.range (((b - a + s - 1) / s).toNat)).map fun (k : ℕ) => a + s * k

/-- The scaled rational `e/den` as a buffer index: `some n` iff it is a
nonnegative integer `n`. -/
def idxNat (e den : ℤ) : Option ℕ :=
  if den ∣ e ∧ 0 ≤ e then some ((e / den).toNat) else none

/-- JS `buf[e/den]`: `undefined` (`none`) unless the scaled index is a
nonnegative integer within range. -/
def readScaled (l : List ℕ) (e den : ℤ) : Option ℕ :=
  match idxNat e den with
  | some n => l[n]?
  | none => none

/-- Read the RGB triple of the pixel at scaled pixel index `e/den`
(data indices `e/den·channels + 0,1,2`). -/
def getPixScaled (img : Image) (e den : ℤ) : Option Color :=
  match readScaled img.data (e * img.channels) den,
      readScaled img.data (e * img.channels + den) den,
      readScaled img.data (e * img.channels + 2 * den) den with
  | some r, some g, some b => some ⟨r, g, b⟩
  | _, _, _ => none

/-- The square of the unweighted Euclidean color distance
`Math.sqrt(Δr² + Δg² + Δb²)` used by the scorers, coverage and corner
masks. -/
def esq (p c : Color) : ℤ :=
  ((p.r : ℤ) - c.r) ^ 2 + ((p.g : ℤ) - c.g) ^ 2 + ((p.b : ℤ) - c.b) ^ 2

/-- `distance ≤ tol` for the unweighted distance, with NaN (missing pixel or
NaN target) comparing false. -/
def withinTolO (oc tgt : Option Color) (tol : ℕ) : Bool :=
  match oc, tgt with
  | some p, some c => decide (esq p c ≤ (tol : ℤ) ^ 2)
  | _, _ => false

/-- `Math.round(v / q) * q` for a byte `v` (quantization key of the
ColorClusterer); `Math.round(x) = ⌊x + 1/2⌋`. -/
def quantize (q v : ℕ) : ℕ := (2 * v + q) / (2 * q) * q

/-- Quantize each channel of a (possibly NaN) sampled color; a NaN sample
quantizes to the single NaN key. -/
def quantizeColor (q : ℕ) (oc : Option Color) : Option Color :=
  oc.map fun c => ⟨quantize q c.r, quantize q c.g, quantize q c.b⟩

/-- Count occurrences per key, preserving first-occurrence order (JS object
property / `Map` insertion order). -/
def tally {α : Type} [DecidableEq α] (l : List α) : List (α × ℕ) :=
  l.foldl (fun acc k =>
    if acc.any (fun p => p.1 = k) then
      acc.map (fun p => if p.1 = k then (p.1, p.2 + 1) else p)
    else acc ++ [(k, 1)]) []

/-- Insert into a list sorted by weakly descending measure, after all entries
with measure ≥ the new one (the placement a stable JS
`sort((a,b) => b.m - a.m)` gives elements processed left to right). -/
def insertDesc {α : Type} (meas : α → ℕ) (x : α) : List α → List α
  | [] => [x]
  | y :: ys => if meas y < meas x then x :: y :: ys else y :: insertDesc meas x ys

/-- Stable sort by descending measure (JS `Array.prototype.sort` with
comparator `(a,b) => b.m - a.m`; the sort is stable per ES2019). -/
def sortDesc {α : Type} (meas : α → ℕ) (l : List α) : List α :=
  l.foldl (fun acc x => insertDesc meas x acc) []

/-- `colorVariation = Math.abs(r-g) + Math.abs(g-b) + Math.abs(r-b)`. -/
def colorVariation (c : Color) : ℕ :=
  ((c.r : ℤ) - c.g).natAbs + ((c.g : ℤ) - c.b).natAbs + ((c.r : ℤ) - c.b).natAbs

/-! ## PixelSampler and ColorClusterer (src part_000) -/

/-- One loop body of the samplers: push `[data[idx], data[idx+1], data[idx+2]]`
(possibly `undefined`s, i.e. a NaN sample) guarded by `idx + 2 < data.length`,
at scaled pixel index `e/den`. -/
def sampleAt (img : Image) (e den : ℤ) : Option (Option Color) :=
  if e * img.channels + 2 * den < den * img.data.length then
    some (getPixScaled img e den)
  else none

/-- `sampleBackgroundRegions` (src part_000 lines 323-347): four corner
regions of side `2·borderSize`, `borderSize = max(10, 0.05·min(w,h))`,
sampled at stride 2 with clamped loop starts.  All quantities scaled
by 20. -/
def sampleBackgroundRegions (img : Image) : List (Option Color) :=
  let w : ℤ := img.width
  let h : ℤ := img.height
  let bs20 : ℤ := max 200 (min w h)
  let regions : List (ℤ × ℤ) :=
    [(0, 0), (20 * w - 2 * bs20, 0), (0, 20 * h - 2 * bs20),
     (20 * w - 2 * bs20, 20 * h - 2 * bs20)]
  regions.flatMap fun r =>
    (qRange (max 0 r.2) (min (20 * h) (r.2 + 2 * bs20)) 40).flatMap fun y20 =>
      (qRange (max 0 r.1) (min (20 * w) (r.1 + 2 * bs20)) 40).filterMap
        fun x20 => sampleAt img (y20 * w + x20) 20

/-- `analyzeColorClusters` (src part_000 lines 349-366): quantize to grid
step 15, count per key (insertion order), sort by count descending (stable),
top 5. -/
def analyzeColorClusters (samples : List (Option Color)) :
    List (Option Color × ℕ) :=
  (sortDesc Prod.snd (tally (samples.map (quantizeColor 15)))).take 5

/-- `createColorHistogram` (src part_000 lines 1044-1058): full-image
histogram with grid step 10. -/
def createColorHistogram (img : Image) : List (Option Color × ℕ) :=
  tally ((List.range (img.width * img.height)).map fun i =>
    quantizeColor 10 (getPix img i))

/-- `findDominantColors` (src part_000 lines 1060-1070): entries sorted by
frequency descending (same order as by count), top `count`.  The frequency
percentage of an entry `(c, k)` is `k·100/total` with
`total = Σ counts`. -/
def findDominantColors (hist : List (Option Color × ℕ)) (count : ℕ) :
    List (Option Color × ℕ) :=
  (sortDesc Prod.snd hist).take count

/-! ## BackgroundScorer (src part_000 lines 715-829) -/

/-- The border pixels of the image in the loop order of
`calculateEdgePresence` (x outer, y inner). -/
def borderCoords (w h : ℕ) : List (ℕ × ℕ) :=
  (List.range w).flatMap fun x => (List.range h).filterMap fun y =>
    if x = 0 ∨ x + 1 = w ∨ y = 0 ∨ y + 1 = h then some (x, y) else none

/-- `calculateEdgePresence` counters: (matches, total) over border pixels,
unweighted distance ≤ tol. -/
def edgePresencePair (img : Image) (tgt : Option Color) (tol : ℕ) : ℕ × ℕ :=
  let ps := borderCoords img.width img.height
  ((ps.filter fun p =>
    withinTolO (getPix img (p.2 * img.width + p.1)) tgt tol).length, ps.length)

/-- The positions scanned by `calculateCornerConcentration`: four blocks of
side `cornerSize = 0.1·min(w,h)`, loop starts unclamped.  Scaled by 10. -/
def cornerCoords10 (w h : ℕ) : List (ℤ × ℤ) :=
  let m : ℤ := min (w : ℤ) h
  ([(0, 0), (10 * w - m, 0), (0, 10 * h - m), (10 * w - m, 10 * h - m)] :
      List (ℤ × ℤ)).flatMap fun c =>
    (qRange c.2 (min (10 * h) (c.2 + m)) 10).flatMap fun y10 =>
      (qRange c.1 (min (10 * w) (c.1 + m)) 10).map fun x10 => (x10, y10)

/-- `calculateCornerConcentration` counters. -/
def cornerConcentrationPair (img : Image) (tgt : Option Color) (tol : ℕ) :
    ℕ × ℕ :=
  let ps := cornerCoords10 img.width img.height
  ((ps.filter fun p =>
    withinTolO (getPixScaled img (p.2 * img.width + p.1) 10) tgt tol).length,
   ps.length)

/-- The positions scanned by `calculateCenterAbsence`: central block of side
`0.3·min(w,h)` starting at `(w/2 - 0.15·min, h/2 - 0.15·min)`, loop starts
clamped at 0.  Scaled by 20. -/
def centerCoords20 (w h : ℕ) : List (ℤ × ℤ) :=
  let m : ℤ := min (w : ℤ) h
  (qRange (max 0 (10 * h - 3 * m)) (min (20 * h) (10 * h + 3 * m)) 20).flatMap
    fun y20 =>
      (qRange (max 0 (10 * w - 3 * m)) (min (20 * w) (10 * w + 3 * m)) 20).map
        fun x20 => (x20, y20)

/-- `calculateCenterAbsence` counters (matches = centerMatches). -/
def centerPresencePair (img : Image) (tgt : Option Color) (tol : ℕ) : ℕ × ℕ :=
  let ps := centerCoords20 img.width img.height
  ((ps.filter fun p =>
    withinTolO (getPixScaled img (p.2 * img.width + p.1) 20) tgt tol).length,
   ps.length)

/-- `calculateEnhancedBackgroundScore(...) ≥ 0.5` (src part_000 lines
715-739), as one exact comparison.  With guarded ratios `eM/eT`, `cM/cT`,
`1 - zM/zT` (a zero total gives ratio 0) the score is
`0.35·ep + 0.3·cc + 0.25·ca + bonus`, bonus `0.1` iff mean channel > 150 or
the r/g and g/b spreads are < 30; `Math.min(score, 1) ≥ 0.5 ↔ score ≥ 0.5`.
Clearing the positive denominators `20·eT'·cT'·zT'` yields the integer
test below. -/
def backgroundScoreGEhalf (img : Image) (tgt : Option Color) : Bool :=
  let ep := edgePresencePair img tgt 40
  let cc := cornerConcentrationPair img tgt 40
  let zp := centerPresencePair img tgt 40
  let eM := if ep.2 = 0 then 0 else ep.1
  let eT := if ep.2 = 0 then 1 else ep.2
  let cM := if cc.2 = 0 then 0 else cc.1
  let cT := if cc.2 = 0 then 1 else cc.2
  let zM := if zp.2 = 0 then 0 else zp.1
  let zT := if zp.2 = 0 then 1 else zp.2
  let bonus2 : ℕ :=
    match tgt with
    | some c =>
      if 450 < c.r + c.g + c.b ∨
          (((c.r : ℤ) - c.g).natAbs < 30 ∧ ((c.g : ℤ) - c.b).natAbs < 30) then 2
      else 0
    | none => 0
  decide (10 * (eT * cT * zT) ≤
    7 * eM * cT * zT + 6 * cM * eT * zT + 5 * (zT - zM) * eT * cT +
      bonus2 * (eT * cT * zT))

/-! ## Remaining mask builders (src part_000) -/

/-- `createProtectedMask` with a possibly-NaN target color: every distance
comparison against NaN is false, so the mask keeps its initial 255
everywhere. -/
def createProtectedMaskO (img : Image) (tgt : Option Color) (t : ℕ) :
    List ℕ :=
  match tgt with
  | some c => createProtectedMask img c t
  | none => List.replicate (img.width * img.height) 255

/-- `createEnhancedProtectedMask` with a possibly-NaN target color. -/
def createEnhancedProtectedMaskO (img : Image) (tgt : Option Color) (t : ℕ) :
    List ℕ :=
  match tgt with
  | some c => createEnhancedProtectedMask img c t
  | none => List.replicate (img.width * img.height) 255

/-- `createLightBackgroundMask` (src part_000 lines 910-946).  The edge-bonus
test `max(0, (50-edgeDistance)/50) > 0.3` is equivalent to
`edgeDistance < 35`. -/
def createLightBackgroundMask (img : Image) : List ℕ :=
  let w := img.width
  let h := img.height
  (List.range (w * h)).map fun i =>
    if protIdx w h i then 255
    else
      match getPix img i with
      | none => 255
      | some c =>
        if 360 < c.r + c.g + c.b ∨ colorVariation c < 30 then
          if 420 < c.r + c.g + c.b ∨ colorVariation c < 20 ∨
              edgeDist w h (i % w) (i / w) < 35 then 0
          else 255
        else 255

/-! ## RegionGrower: enhanced flood fill (src part_000 lines 541-650) -/

/-- `isLikelyBackgroundPixel` (src part_000 lines 655-667): mean lightness
> 120 or channel variation < 50 (NaN pixels satisfy neither). -/
def isLikelyBackgroundPixel (img : Image) (x y : ℕ) : Bool :=
  match getPix img (y * img.width + x) with
  | some c => decide (360 < c.r + c.g + c.b) || decide (colorVariation c < 50)
  | none => false

/-- The absorption test `distance ≤ adjustedTolerance` of `enhancedFloodFill`
(src part_000 lines 569-581), made integral.  With
`d = sqrt(N/100)`, `f = min(1, ed/(0.4·m))`, `adjT = t·(1 - 0.2·f)`:
if `5·ed ≥ 2·m` then `f = 1`, `adjT = 0.8t`, and `d ≤ 0.8t ↔ N ≤ 64t²`;
otherwise `adjT = t·(2m-ed)/(2m) > 0` and squaring/clearing denominators
gives `m²·N ≤ 25·t²·(2m-ed)²`. -/
def absorbCond (N t ed m : ℕ) : Bool :=
  if 2 * m ≤ 5 * ed then decide (N ≤ 64 * t ^ 2)
  else decide (m ^ 2 * N ≤ 25 * t ^ 2 * (2 * m - ed) ^ 2)

/-- The mutable state of one `enhancedFloodFill` call: the shared mask, the
shared visited set, and the per-call `processedPixels` counter. -/
structure FFState where
  mask : List ℕ
  visited : Finset ℕ
  processed : ℕ

/-- The while loop of `enhancedFloodFill` (src part_000 lines 541-593):
FIFO queue of (possibly out-of-range) coordinates; the 65% cap
(`processed < 0.65·w·h`, i.e. `20·processed < 13·w·h`) is tested before each
pop; a popped pixel is skipped when out of bounds, already visited, or
protected; otherwise it is absorbed (mask←0, visited, counter) exactly when
its distance to the seed color is within the adjusted tolerance, pushing its
four neighbors.  Explicit fuel (one unit per pop; `ffFuel` suffices). -/
def ffBFS (img : Image) (sc : Option Color) (t : ℕ) :
    ℕ → List (ℤ × ℤ) → FFState → FFState
  | 0, _, st => st
  | _ + 1, [], st => st
  | fuel + 1, (x, y) :: q, st =>
    if 13 * (img.width * img.height) ≤ 20 * st.processed then st
    else
      let idx : ℤ := y * img.width + x
      if x < 0 ∨ (img.width : ℤ) ≤ x ∨ y < 0 ∨ (img.height : ℤ) ≤ y ∨
          idx.toNat ∈ st.visited ∨
          protPix img.width img.height x.toNat y.toNat = true then
        ffBFS img sc t fuel q st
      else
        let absorbed :=
          match sc, getPix img idx.toNat with
          | some s, some p =>
            absorbCond (dsq100 p s) t
              (edgeDist img.width img.height x.toNat y.toNat)
              (min img.width img.height)
          | _, _ => false
        if absorbed then
          ffBFS img sc t fuel
            (q ++ [(x + 1, y), (x - 1, y), (x, y + 1), (x, y - 1)])
            ⟨st.mask.set idx.toNat 0, insert idx.toNat st.visited,
              st.processed + 1⟩
        else ffBFS img sc t fuel q st

/-- Fuel bound sufficient for every BFS in this file: at most one initial
queue entry plus four pushes per absorbed pixel, absorbed pixels being
distinct in-range indices. -/
def ffFuel (img : Image) : ℕ := 5 * (img.width * img.height) + 5

/-- The seed list of `createEnhancedFloodFillMask` (src part_000 lines
604-641): four corners always; edge midpoints and quarter points only when
`isLikelyBackgroundPixel`. -/
def floodSeeds (img : Image) : List (ℕ × ℕ) :=
  let w := img.width
  let h := img.height
  [(0, 0), (w - 1, 0), (0, h - 1), (w - 1, h - 1)] ++
    ([(w / 2, 0), (w / 2, h - 1), (0, h / 2), (w - 1, h / 2)].filter fun p =>
      isLikelyBackgroundPixel img p.1 p.2) ++
    ([(w / 4, 0), (3 * w / 4, 0), (w / 4, h - 1), (3 * w / 4, h - 1),
      (0, h / 4), (0, 3 * h / 4), (w - 1, h / 4), (w - 1, 3 * h / 4)].filter
      fun p => isLikelyBackgroundPixel img p.1 p.2)

/-- `createEnhancedFloodFillMask` (src part_000 lines 598-650): mask starts
at 255; seeds run in order with tolerance 40, sharing mask and visited set;
`processedPixels` restarts at 0 for every seed. -/
def createEnhancedFloodFillMask (img : Image) : List ℕ :=
  ((floodSeeds img).foldl
    (fun (acc : List ℕ × Finset ℕ) s =>
      let res := ffBFS img (getPix img (s.2 * img.width + s.1)) 40
        (ffFuel img) [((s.1 : ℤ), (s.2 : ℤ))] ⟨acc.1, acc.2, 0⟩
      (res.mask, res.visited))
    (List.replicate (img.width * img.height) 255, ∅)).1

/-! ## MaskValidator (src part_000 lines 437-536, 1072-1123) -/

/-- The number of zero bytes of a mask (`removedPixels`). -/
def countZeros (mask : List ℕ) : ℕ := (mask.filter fun v => v = 0).length

/-- `removedPercentage ≥ k` for integer `k`: `zeros·100/len ≥ k ↔
k·len ≤ 100·zeros`. -/
def rpGE (mask : List ℕ) (k : ℕ) : Bool :=
  decide (k * mask.length ≤ 100 * countZeros mask)

/-- `removedPercentage ≤ k` for integer `k`. -/
def rpLE (mask : List ℕ) (k : ℕ) : Bool :=
  decide (100 * countZeros mask ≤ k * mask.length)

/-- The positions scanned by `validateObjectPreservation`'s center loop
(src part_000 lines 446-455): block of side `0.3·min(w,h)` starting at
`(w/2 - 0.15·min, h/2 - 0.15·min)`, clamped at 0, y outer.  Scaled by 20. -/
def centerScanCoords (w h : ℕ) : List (ℤ × ℤ) :=
  let m : ℤ := min (w : ℤ) h
  (qRange (max 0 (10 * h - 3 * m)) (min (20 * h) (10 * h + 3 * m)) 20).flatMap
    fun y20 =>
      (qRange (max 0 (10 * w - 3 * m)) (min (20 * w) (10 * w + 3 * m)) 20).map
        fun x20 => (x20, y20)

/-- The center-removal part of `validateObjectPreservation`: passes iff
`removedInCenter/totalCenterPixels ≤ 0.12` (a fractional scan position reads
`undefined`, which is counted in the total but never equals 0). -/
def validateCenterOK (mask : List ℕ) (w h : ℕ) : Bool :=
  let ps := centerScanCoords w h
  let removed := (ps.filter fun p =>
    readScaled mask (p.2 * w + p.1) 20 = some 0).length
  decide (100 * removed ≤ 12 * ps.length)

/-- The positions scanned by `checkForProblematicHoles` (src part_000 lines
487-505): block of side `0.25·min(w,h)` starting at
`(w/2 - 0.125·min, h/2 - 0.125·min)`, clamped at 0.  Scaled by 8. -/
def holeScanCoords (w h : ℕ) : List (ℤ × ℤ) :=
  let m : ℤ := min (w : ℤ) h
  (qRange (max 0 (4 * h - m)) (min (8 * h) (4 * h + m)) 8).flatMap fun y8 =>
    (qRange (max 0 (4 * w - m)) (min (8 * w) (4 * w + m)) 8).map
      fun x8 => (x8, y8)

/-- The BFS of `measureHoleSize` (src part_000 lines 513-536): FIFO queue of
scaled coordinates (`den` is the common denominator of the starting scan
position; neighbor steps are ±1, i.e. ±den scaled).  A popped entry is
skipped when out of bounds, when `visited.has(idx)` (only integral indices
are ever in the set), or when `mask[idx] !== 0` (an undefined read included);
otherwise it is counted, marked visited, and its neighbors pushed. -/
def holeBFS (mask : List ℕ) (w h : ℕ) (den : ℤ) :
    ℕ → List (ℤ × ℤ) → Finset ℕ → ℕ → Finset ℕ × ℕ
  | 0, _, vis, size => (vis, size)
  | _ + 1, [], vis, size => (vis, size)
  | fuel + 1, (x, y) :: q, vis, size =>
    if x < 0 ∨ den * w ≤ x ∨ y < 0 ∨ den * h ≤ y then
      holeBFS mask w h den fuel q vis size
    else
      match idxNat (y * w + x) den with
      | none => holeBFS mask w h den fuel q vis size
      | some n =>
        if n ∈ vis then holeBFS mask w h den fuel q vis size
        else if mask[n]? = some 0 then
          holeBFS mask w h den fuel
            (q ++ [(x + den, y), (x - den, y), (x, y + den), (x, y - den)])
            (insert n vis) (size + 1)
        else holeBFS mask w h den fuel q vis size

/-- `checkForProblematicHoles` (src part_000 lines 479-508): scan the
central 25% block; at each not-yet-visited zero, measure its hole by BFS
(sharing the visited set across starts) and report a problem as soon as one
hole exceeds 5% of the image area (`holeSize/(w·h) > 0.05 ↔
20·holeSize > w·h`). -/
def checkForProblematicHoles (mask : List ℕ) (w h : ℕ) : Bool :=
  (((holeScanCoords w h).foldl
    (fun (st : Finset ℕ × Bool) p =>
      if st.2 then st
      else
        let e := p.2 * (w : ℤ) + p.1
        match idxNat e 8 with
        | none => st
        | some n =>
          if mask[n]? = some 0 ∧ n ∉ st.1 then
            let res := holeBFS mask w h 8 (5 * w * h + 5) [(p.1, p.2)] st.1 0
            if w * h < 20 * res.2 then (res.1, true) else (res.1, false)
          else st)
    (∅, false))).2

/-- `validateObjectPreservation` (src part_000 lines 437-474): reject when
more than 12% of the scanned center window is removed, or when a problematic
hole is found. -/
def validateObjectPreservation (mask : List ℕ) (w h : ℕ) : Bool :=
  validateCenterOK mask w h && !checkForProblematicHoles mask w h

/-- The BFS of `markConnectedRegion` (src part_000 lines 1098-1123): integer
pixel indices; a popped visited index is skipped, otherwise marked, and its
4-neighbors are pushed when zero and unvisited. -/
def markBFS (mask : List ℕ) (w h : ℕ) :
    ℕ → List ℕ → Finset ℕ → Finset ℕ
  | 0, _, vis => vis
  | _ + 1, [], vis => vis
  | fuel + 1, idx :: q, vis =>
    if idx ∈ vis then markBFS mask w h fuel q vis
    else
      let vis2 := insert idx vis
      let x := idx % w
      let y := idx / w
      let n1 := if x + 1 < w ∧ mask[y * w + (x + 1)]? = some 0 ∧
          y * w + (x + 1) ∉ vis2 then [y * w + (x + 1)] else []
      let n2 := if 1 ≤ x ∧ mask[y * w + (x - 1)]? = some 0 ∧
          y * w + (x - 1) ∉ vis2 then [y * w + (x - 1)] else []
      let n3 := if y + 1 < h ∧ mask[(y + 1) * w + x]? = some 0 ∧
          (y + 1) * w + x ∉ vis2 then [(y + 1) * w + x] else []
      let n4 := if 1 ≤ y ∧ mask[(y - 1) * w + x]? = some 0 ∧
          (y - 1) * w + x ∉ vis2 then [(y - 1) * w + x] else []
      markBFS mask w h fuel (q ++ n1 ++ n2 ++ n3 ++ n4) vis2

/-- `countConnectedRegions` (src part_000 lines 1084-1096): scan all indices
in order; each unvisited zero starts a BFS marking its whole region and
increments the count. -/
def countConnectedRegions (mask : List ℕ) (w h : ℕ) : ℕ :=
  ((List.range mask.length).foldl
    (fun (st : Finset ℕ × ℕ) i =>
      if mask[i]? = some 0 ∧ i ∉ st.1 then
        (markBFS mask w h (5 * w * h + 5) [i] st.1, st.2 + 1)
      else st)
    (∅, 0)).2

/-- The `connectedRegions` component of `analyzeMaskStatistics` (src part_000
lines 1072-1082): the source passes `Math.sqrt(mask.length)` as BOTH width
and height.  This embedding is exact precisely when `mask.length` is a
perfect square (otherwise the JS code indexes with an irrational width); all
uses in this file are at perfect-square lengths. -/
def connectedRegionsJS (mask : List ℕ) : ℕ :=
  countConnectedRegions mask (isqrt mask.length) (isqrt mask.length)

/-! ## Corner analysis, coverage, edge mask (src part_000) -/

/-- `getMostFrequentColor` (src part_000 lines 1174-1189): quantize to grid
step 20, count per key, stable-sort by count descending, take the first key;
`null` (`none`) when there are no samples.  The keys are comma-separated
strings, so JS object property order is insertion order. -/
def getMostFrequentColor (samples : List (Option Color)) :
    Option (Option Color) :=
  if samples.length = 0 then none
  else
    match sortDesc Prod.snd (tally (samples.map (quantizeColor 20))) with
    | [] => none
    | k :: _ => some k.1

/-- `sampleCorners` (src part_000 lines 859-882): four blocks of side
`cornerSize = max(20, 0.1·min(w,h))` anchored at the corners (which go
out of range on small images — those reads are NaN samples), stride 2,
guarded by `idx + 2 < data.length`.  Scaled by 10. -/
def sampleCorners (img : Image) : List (Option Color) :=
  let w : ℤ := img.width
  let h : ℤ := img.height
  let cs10 : ℤ := max 200 (min w h)
  ([(0, 0), (10 * w - cs10, 0), (0, 10 * h - cs10),
    (10 * w - cs10, 10 * h - cs10)] : List (ℤ × ℤ)).flatMap fun c =>
    (qRange c.2 (min (10 * h) (c.2 + cs10)) 20).flatMap fun y10 =>
      (qRange c.1 (min (10 * w) (c.1 + cs10)) 20).filterMap fun x10 =>
        sampleAt img (y10 * w + x10) 10

/-- `calculateColorCoverage` match count (src part_000 lines 887-905):
pixels with unweighted distance ≤ tol to the target; the percentage is
`count·100/(w·h)`. -/
def coverageCount (img : Image) (tgt : Option Color) (tol : ℕ) : ℕ :=
  ((List.range (img.width * img.height)).filter fun i =>
    withinTolO (getPix img i) tgt tol).length

/-- `findMostLikelyBackgroundColor` (src part_000 lines 834-854): the most
frequent corner color (a NaN color object is truthy and proceeds to the
coverage test, where it matches nothing), accepted at coverage ≥ 15%
(`15 ≤ count·100/(w·h) ↔ 3·w·h ≤ 20·count`). -/
def findMostLikelyBackgroundColor (img : Image) : Option (Option Color) :=
  match getMostFrequentColor (sampleCorners img) with
  | none => none
  | some oc =>
    if 3 * (img.width * img.height) ≤ 20 * coverageCount img oc 50 then some oc
    else none

/-- `getCornerDominantColor` (src part_000 lines 1159-1172): most frequent
sampled color of one corner block, stride 2, scaled by 10. -/
def getCornerDominantColor (img : Image) (cx10 cy10 cs10 : ℤ) :
    Option (Option Color) :=
  getMostFrequentColor
    ((qRange cy10 (min (10 * img.height) (cy10 + cs10)) 20).flatMap fun y10 =>
      (qRange cx10 (min (10 * img.width) (cx10 + cs10)) 20).filterMap
        fun x10 => sampleAt img (y10 * img.width + x10) 10)

/-- One corner of `createEnhancedCornerMask` (src part_000 lines 992-1013):
if the corner has a dominant color (possibly NaN), zero every block pixel
within unweighted distance 40 of it; only integral in-range indices are
actually written (a fractional `mask[idx] = 0` writes a plain object
property, not a byte). -/
def cornerApplyOne (img : Image) (mask : List ℕ) (c : ℤ × ℤ) : List ℕ :=
  let w : ℤ := img.width
  let m : ℤ := min w img.height
  match getCornerDominantColor img c.1 c.2 m with
  | none => mask
  | some oc =>
    ((qRange c.2 (min (10 * img.height) (c.2 + m)) 10).flatMap fun y10 =>
      (qRange c.1 (min (10 * img.width) (c.1 + m)) 10).map
        fun x10 => (x10, y10)).foldl
      (fun mk p =>
        let e := p.2 * w + p.1
        if withinTolO (getPixScaled img e 10) oc 40 then
          match idxNat e 10 with
          | some n => mk.set n 0
          | none => mk
        else mk) mask

/-- `createEnhancedCornerMask` (src part_000 lines 981-1016):
`cornerSize = 0.1·min(w,h)` (no lower bound here), four corners processed in
order on a mask starting at 255. -/
def createEnhancedCornerMask (img : Image) : List ℕ :=
  let w : ℤ := img.width
  let h : ℤ := img.height
  let m : ℤ := min w h
  ([((0 : ℤ), (0 : ℤ)), (10 * w - m, 0), (0, 10 * h - m),
    (10 * w - m, 10 * h - m)] : List (ℤ × ℤ)).foldl
    (cornerApplyOne img) (List.replicate (img.width * img.height) 255)

/-- `hasLowEdgeNeighbors` (src part_000 lines 1021-1042): at least 70% of
the in-bounds 5×5 neighborhood has edge value < 25. -/
def hasLowEdgeNeighbors (edge : List ℕ) (w h x y : ℕ) : Bool :=
  let offs : List (ℤ × ℤ) :=
    ([-2, -1, 0, 1, 2] : List ℤ).flatMap fun dy =>
      ([-2, -1, 0, 1, 2] : List ℤ).map fun dx => (dx, dy)
  let inb := offs.filter fun o =>
    decide (0 ≤ (x : ℤ) + o.1) && decide ((x : ℤ) + o.1 < w) &&
    decide (0 ≤ (y : ℤ) + o.2) && decide ((y : ℤ) + o.2 < h)
  let low := inb.filter fun o =>
    match edge[((((y : ℤ) + o.2) * w + ((x : ℤ) + o.1)).toNat)]? with
    | some v => decide (v < 25)
    | none => false
  decide (0 < inb.length) && decide (7 * inb.length ≤ 10 * low.length)

/-- `createEnhancedEdgeMask` (src part_000 lines 948-976).  The gradient
buffer `edgeData` is produced by the external raster codec (sharp greyscale/
blur/normalise/convolve pipeline) and enters as a parameter.
`nearBorder` is `x < 0.3m ∨ x ≥ w - 0.3m ∨ y < 0.3m ∨ y ≥ h - 0.3m`
(cleared of the denominator 10). -/
def createEnhancedEdgeMask (img : Image) (edge : List ℕ) : List ℕ :=
  let w := img.width
  let h := img.height
  let m := min w h
  (List.range (w * h)).map fun i =>
    let x := i % w
    let y := i / w
    if protIdx w h i then 255
    else
      match edge[i]? with
      | some v =>
        if v < 40 then
          if (decide (10 * x < 3 * m) || decide (10 * w ≤ 10 * x + 3 * m) ||
              decide (10 * y < 3 * m) || decide (10 * h ≤ 10 * y + 3 * m)) ||
              hasLowEdgeNeighbors edge w h x y then 0
          else 255
        else 255
      | none => 255

/-! ## CascadeOrchestrator (src part_000 lines 15-319) -/

/-- `advancedBackgroundDetection` (src part_000 lines 80-119): for each of
the top-5 sampled color clusters and tolerance in {35,55,75,95}, build the
plain protected mask and accept when 15% ≤ removed ≤ 80%, connected regions
≤ 6, and the validator passes.  Returns the first accepted mask. -/
def advancedBackgroundDetection (img : Image) : Option (List ℕ) :=
  let samples := sampleBackgroundRegions img
  if samples.length = 0 then none
  else
    (analyzeColorClusters samples).findSome? fun cl =>
      ([35, 55, 75, 95] : List ℕ).findSome? fun t =>
        let mask := createProtectedMaskO img cl.1 t
        if rpGE mask 15 && rpLE mask 80 && decide (connectedRegionsJS mask ≤ 6)
            && validateObjectPreservation mask img.width img.height then
          some mask
        else none

/-- `floodFillBackgroundRemoval` (src part_000 lines 124-144): accept the
flood-fill mask when 10% ≤ removed ≤ 85% and the validator passes. -/
def floodFillBackgroundRemoval (img : Image) : Option (List ℕ) :=
  let mask := createEnhancedFloodFillMask img
  if rpGE mask 10 && rpLE mask 85 &&
      validateObjectPreservation mask img.width img.height then some mask
  else none

/-- `statisticalBackgroundSeparation` (src part_000 lines 149-192): for each
of the top-7 dominant colors with frequency ≥ 8% and background score ≥ 0.5,
for tolerance in {40,60,80,100}, build the PLAIN protected mask
(`createProtectedMask`, line 172) and accept when 15% ≤ removed ≤ 80% and
the validator passes. -/
def statisticalBackgroundSeparation (img : Image) : Option (List ℕ) :=
  let hist := createColorHistogram img
  let total := (hist.map Prod.snd).sum
  (findDominantColors hist 7).findSome? fun dc =>
    if 100 * dc.2 < 8 * total then none
    else if backgroundScoreGEhalf img dc.1 then
      ([40, 60, 80, 100] : List ℕ).findSome? fun t =>
        let mask := createProtectedMaskO img dc.1 t
        if rpGE mask 15 && rpLE mask 80 &&
            validateObjectPreservation mask img.width img.height then some mask
        else none
    else none

/-- `aggressiveEdgeProcessing` (src part_000 lines 197-231), with the
externally computed gradient buffer as a parameter: accept the edge mask
when 10% ≤ removed ≤ 85% and the validator passes. -/
def aggressiveEdgeProcessing (img : Image) (edge : List ℕ) :
    Option (List ℕ) :=
  let mask := createEnhancedEdgeMask img edge
  if rpGE mask 10 && rpLE mask 85 &&
      validateObjectPreservation mask img.width img.height then some mask
  else none

/-- `forceBackgroundRemoval` (src part_000 lines 236-319), modelled as the
mask it writes, `none` when NO output is produced: after the background
candidate (tolerances 50..110, enhanced builder, 10-80% + validator), the
light-background mask (8-70% + validator) and the corner mask (≥ 5%, no
validator) all reject, the function falls off the end of its `try` block
without writing any file — the opaque-RGBA fallback lives only in the
`catch` branch, which no non-throwing path reaches. -/
def forceBackgroundRemoval (img : Image) : Option (List ℕ) :=
  let first :=
    match findMostLikelyBackgroundColor img with
    | some oc =>
      ([50, 70, 90, 110] : List ℕ).findSome? fun t =>
        let mask := createEnhancedProtectedMaskO img oc t
        if rpGE mask 10 && rpLE mask 80 &&
            validateObjectPreservation mask img.width img.height then some mask
        else none
    | none => none
  match first with
  | some m => some m
  | none =>
    let lm := createLightBackgroundMask img
    if rpGE lm 8 && rpLE lm 70 &&
        validateObjectPreservation lm img.width img.height then some lm
    else
      let cm := createEnhancedCornerMask img
      if rpGE cm 5 then some cm else none

/-- `removeBackground` (src part_000 lines 15-75): the cascade tries the
five stages in order; the result records the reported success flag and the
produced output raster's alpha mask (if any).  Stage 5 always reports
success (`return { success: true, ... }` at line 62) even when it wrote no
output. -/
def removeBackgroundPure (img : Image) (edge : List ℕ) :
    Bool × Option (List ℕ) :=
  match advancedBackgroundDetection img with
  | some m => (true, some m)
  | none =>
    match floodFillBackgroundRemoval img with
    | some m => (true, some m)
    | none =>
      match statisticalBackgroundSeparation img with
      | some m => (true, some m)
      | none =>
        match aggressiveEdgeProcessing img edge with
        | some m => (true, some m)
        | none => (true, forceBackgroundRemoval img)

/-! ## Claim C1: the guaranteed-terminal fallback -/

/-- A uniform 16×4 3-channel image, every pixel RGB(200,200,200). -/
def uniGrey16x4 : Image := ⟨16, 4, 3, List.replicate 192 200⟩

set_option maxRecDepth 1000000 in
set_option maxHeartbeats 4000000 in
/-- **C1 (code bug).** On `uniGrey16x4` — with a gradient buffer of zeros,
for which the edge stage's mask removes 92.19% > 85% and is rejected — all
of stages 1-4 reject, and then `forceBackgroundRemoval` also rejects every
one of its branches (the background-candidate search finds only a NaN corner
color whose coverage is 0; the light mask removes 92.19% > 70%; the corner
mask removes 1.56% < 5%) and falls off the end of its `try` block WITHOUT
writing any output raster, while `removeBackground` still reports success.
The claim (and the spec) promise a fully opaque RGBA pass-through as the
absolute last resort, but that fallback exists only in the `catch` branch,
which no exception reaches on this input. -/
theorem forced_removal_no_output_yet_success :
    removeBackgroundPure uniGrey16x4 (List.replicate 64 0) = (true, none) := by
  decide

/-! ## Claim C4: the RegionGrower 65% cap -/

/-- A uniform 2×2 3-channel black image. -/
def uniBlack2x2 : Image := ⟨2, 2, 3, List.replicate 12 0⟩

set_option maxRecDepth 1000000 in
/-- **C4 counterexample.** On the uniform black 2×2 image the flood fill
(already its very first seed) absorbs 3 of the 4 pixels — 75% of the total
pixel count, strictly more than 65%: the cap `processed < 0.65·w·h` is
tested before a pop, so the absorption that crosses the cap still goes
through.  (Pixel 3 is the protected-zone center and stays 255.) -/
theorem floodfill_processes_more_than_65_percent :
    createEnhancedFloodFillMask uniBlack2x2 = [0, 0, 0, 255] ∧
    13 * (uniBlack2x2.width * uniBlack2x2.height) <
      20 * countZeros (createEnhancedFloodFillMask uniBlack2x2) := by
  decide

lemma int_idx_toNat (x y : ℤ) (w : ℕ) (hx : 0 ≤ x) (hy : 0 ≤ y) :
    (y * (w : ℤ) + x).toNat = y.toNat * w + x.toNat := by
  have h1 : y * (w : ℤ) + x = ((y.toNat * w + x.toNat : ℕ) : ℤ) := by
    push_cast
    rw [Int.toNat_of_nonneg hx, Int.toNat_of_nonneg hy]
  rw [h1, Int.toNat_natCast]

/-- One `enhancedFloodFill` invocation never lets `processedPixels` reach
`0.65·w·h + 1`: the cap is tested before each pop, so the counter exceeds
`⌊0.65wh⌋` by at most one. -/
lemma ffBFS_cap (img : Image) (sc : Option Color) (t : ℕ) :
    ∀ fuel q st, 20 * st.processed < 13 * (img.width * img.height) + 20 →
      20 * (ffBFS img sc t fuel q st).processed <
        13 * (img.width * img.height) + 20 := by
  intro fuel
  induction fuel with
  | zero => intro q st h; cases q <;> exact h
  | succ fuel ih =>
    intro q st h
    match q with
    | [] => exact h
    | (x, y) :: q2 =>
      rw [ffBFS]
      split
      · exact h
      · rename_i hcap
        dsimp only
        split
        · exact ih q2 st h
        · split
          · refine ih _ _ ?_
            push_neg at hcap
            show 20 * (st.processed + 1) < 13 * (img.width * img.height) + 20
            omega
          · exact ih q2 st h

/-- One `enhancedFloodFill` invocation never writes to a protected-zone
index: the skip test includes `protectedZone[index]`. -/
lemma ffBFS_mask_preserved (img : Image) (sc : Option Color) (t : ℕ) :
    ∀ fuel q st i, protIdx img.width img.height i = true →
      ((ffBFS img sc t fuel q st).mask)[i]? = (st.mask)[i]? := by
  intro fuel
  induction fuel with
  | zero => intro q st i _; cases q <;> rfl
  | succ fuel ih =>
    intro q st i hp
    match q with
    | [] => rfl
    | (x, y) :: q2 =>
      rw [ffBFS]
      split
      · rfl
      · dsimp only
        split
        · exact ih q2 st i hp
        · rename_i hskip
          push_neg at hskip
          obtain ⟨hx0, hxw, hy0, hyh, -, hprot⟩ := hskip
          split
          · rw [ih _ _ i hp]
            show ((st.mask.set (y * (img.width : ℤ) + x).toNat 0))[i]? =
              (st.mask)[i]?
            refine List.getElem?_set_ne ?_
            intro hEq
            have htn : (y * (img.width : ℤ) + x).toNat =
                y.toNat * img.width + x.toNat :=
              int_idx_toNat x y img.width hx0 hy0
            have hxlt : x.toNat < img.width := by omega
            have hpidx : protIdx img.width img.height
                ((y * (img.width : ℤ) + x).toNat) =
                protPix img.width img.height x.toNat y.toNat := by
              unfold protIdx
              rw [htn, encode_mod _ _ _ hxlt, encode_div _ _ _ hxlt]
            rw [hEq, hp] at hpidx
            exact hprot hpidx.symm
          · exact ih q2 st i hp

/-- **C4 (amended).** The 65% cap is per seed invocation and can be crossed
by exactly the absorption in flight: each single `enhancedFloodFill` call
absorbs fewer than `0.65·w·h + 1` pixels
(`20·processed < 13·w·h + 20`); and across all seeds the flood-fill mask
never absorbs a protected-zone pixel — every protected index keeps the
initial value 255. -/
theorem regiongrower_cap_and_protected (img : Image) :
    (∀ sc t fuel q st,
      20 * st.processed < 13 * (img.width * img.height) + 20 →
      20 * (ffBFS img sc t fuel q st).processed <
        13 * (img.width * img.height) + 20) ∧
    (∀ i, i < img.width * img.height →
      protIdx img.width img.height i = true →
      (createEnhancedFloodFillMask img)[i]? = some 255) := by
  refine ⟨fun sc t fuel q st h => ffBFS_cap img sc t fuel q st h, ?_⟩
  intro i hi hp
  unfold createEnhancedFloodFillMask
  have hgen : ∀ (seeds : List (ℕ × ℕ)) (acc : List ℕ × Finset ℕ),
      (acc.1)[i]? = some 255 →
      ((seeds.foldl
        (fun (acc : List ℕ × Finset ℕ) s =>
          let res := ffBFS img (getPix img (s.2 * img.width + s.1)) 40
            (ffFuel img) [((s.1 : ℤ), (s.2 : ℤ))] ⟨acc.1, acc.2, 0⟩
          (res.mask, res.visited)) acc).1)[i]? = some 255 := by
    intro seeds
    induction seeds with
    | nil => intro acc h; exact h
    | cons s rest ih =>
      intro acc h
      refine ih _ ?_
      rw [ffBFS_mask_preserved img _ 40 _ _ _ i hp]
      exact h
  exact hgen (floodSeeds img) _ (by simp [List.getElem?_replicate, hi])

set_option maxRecDepth 100000 in
/-- Witness for the amended C4 at the 2×2 black image: a concrete capped
invocation, and the protected center pixel 3 stays 255. -/
theorem regiongrower_cap_and_protected_witness :
    20 * (ffBFS uniBlack2x2 (some ⟨0, 0, 0⟩) 40 25 [(0, 0)]
      ⟨List.replicate 4 255, ∅, 0⟩).processed < 13 * 4 + 20 ∧
    (createEnhancedFloodFillMask uniBlack2x2)[3]? = some 255 :=
  ⟨(regiongrower_cap_and_protected uniBlack2x2).1 (some ⟨0, 0, 0⟩) 40 25
      [(0, 0)] ⟨List.replicate 4 255, ∅, 0⟩ (by decide),
    (regiongrower_cap_and_protected uniBlack2x2).2 3 (by decide) (by decide)⟩

/-! ## Claim C7: which builder the StatisticalSeparation stage uses -/

/-- A 5×1 3-channel image: four pixels RGB(100,100,100) and one
RGB(126,126,126) at position 3. -/
def grey5x1 : Image :=
  ⟨5, 1, 3, [100, 100, 100, 100, 100, 100, 100, 100, 100, 126, 126, 126,
    100, 100, 100]⟩

set_option maxRecDepth 100000 in
/-- **C7 counterexample.** On `grey5x1` the dominant color (100,100,100) has
frequency 80% ≥ 8% and background score ≥ 0.5, so the stage tries it; and at
tolerance 40 the mask the stage builds — the PLAIN `createProtectedMask`,
which gives the ramp value 32 at pixel 3 (weighted distance 26 ∈
(0.6·40, 0.7·40]) — differs from the enhanced builder's mask, which gives 0
there.  So the candidate masks are not built with the enhanced variant as
the claim states. -/
theorem statistical_candidates_not_enhanced :
    (some ⟨100, 100, 100⟩, 4) ∈
      findDominantColors (createColorHistogram grey5x1) 7 ∧
    ¬(100 * 4 < 8 * (((createColorHistogram grey5x1).map Prod.snd).sum)) ∧
    backgroundScoreGEhalf grey5x1 (some ⟨100, 100, 100⟩) = true ∧
    createProtectedMaskO grey5x1 (some ⟨100, 100, 100⟩) 40 = [0, 0, 0, 32, 0] ∧
    createEnhancedProtectedMaskO grey5x1 (some ⟨100, 100, 100⟩) 40 =
      [0, 0, 0, 0, 0] := by
  decide

/-- Modelled from the claim, amended: the StatisticalSeparation candidate
search — each of the top-7 dominant colors of the full-image histogram with
frequency ≥ 8% and background score ≥ 0.5; for each, tolerances
40, 60, 80, 100 build the PLAIN MaskBuilder mask (`createProtectedMask`),
accepted when the removal percentage lies within [15,80] and
`validateObjectPreservation` passes; the first acceptance wins. -/
def statSpecSearch (img : Image) : Option (List ℕ) :=
  let hist := createColorHistogram img
  let total := (hist.map Prod.snd).sum
  (findDominantColors hist 7).findSome? fun dc =>
    if 8 * total ≤ 100 * dc.2 ∧ backgroundScoreGEhalf img dc.1 = true then
      ([40, 60, 80, 100] : List ℕ).findSome? fun t =>
        let mask := createProtectedMaskO img dc.1 t
        if 15 * mask.length ≤ 100 * countZeros mask ∧
            100 * countZeros mask ≤ 80 * mask.length ∧
            validateObjectPreservation mask img.width img.height = true then
          some mask
        else none
    else none

/-- **C7 (amended).** `statisticalBackgroundSeparation` performs exactly the
amended claim's search: the candidate masks are built with the plain
`createProtectedMask`, and a candidate is accepted when its removal lies in
15-80% and the validator passes. -/
theorem statistical_stage_plain_builder (img : Image) :
    statisticalBackgroundSeparation img = statSpecSearch img := by
  unfold statisticalBackgroundSeparation statSpecSearch
  dsimp only
  congr 1
  funext dc
  by_cases h1 : 100 * dc.2 <
      8 * (((createColorHistogram img).map Prod.snd).sum)
  · rw [if_pos h1, if_neg (by omega)]
  · rw [if_neg h1]
    by_cases h2 : backgroundScoreGEhalf img dc.1 = true
    · rw [if_pos h2, if_pos ⟨by omega, h2⟩]
      congr 1
      funext t
      by_cases h3 : 15 * (createProtectedMaskO img dc.1 t).length ≤
          100 * countZeros (createProtectedMaskO img dc.1 t) ∧
          100 * countZeros (createProtectedMaskO img dc.1 t) ≤
            80 * (createProtectedMaskO img dc.1 t).length ∧
          validateObjectPreservation (createProtectedMaskO img dc.1 t)
            img.width img.height = true
      · rw [if_pos h3]
        have hb : (rpGE (createProtectedMaskO img dc.1 t) 15 &&
            rpLE (createProtectedMaskO img dc.1 t) 80 &&
            validateObjectPreservation (createProtectedMaskO img dc.1 t)
              img.width img.height) = true := by
          simp only [rpGE, rpLE, Bool.and_eq_true, decide_eq_true_eq]
          exact ⟨⟨h3.1, h3.2.1⟩, h3.2.2⟩
        rw [hb]
        rfl
      · rw [if_neg h3]
        have hb : (rpGE (createProtectedMaskO img dc.1 t) 15 &&
            rpLE (createProtectedMaskO img dc.1 t) 80 &&
            validateObjectPreservation (createProtectedMaskO img dc.1 t)
              img.width img.height) = false := by
          rw [Bool.eq_false_iff]
          intro hc
          apply h3
          simp only [Bool.and_eq_true, decide_eq_true_eq, rpGE, rpLE] at hc
          exact ⟨hc.1.1, hc.1.2, hc.2⟩
        rw [hb]
        rfl
    · rw [if_neg h2, if_neg (fun hc => h2 hc.2)]

/-! ## Zero regions: the mathematical notion of 4-connected components

This is the claim-side notion used by C5 and C6: a "contiguous 4-connected
zero region" is an equivalence class of zero pixels under steps to 4-adjacent
zero pixels. -/

/-- 4-adjacency of flat indices in a w×h grid, via coordinates. -/
def gridAdj (w h i j : ℕ) : Prop :=
  ∃ x y u v, x < w ∧ y < h ∧ u < w ∧ v < h ∧ i = y * w + x ∧ j = v * w + u ∧
    ((y = v ∧ (u = x + 1 ∨ x = u + 1)) ∨ (x = u ∧ (v = y + 1 ∨ y = v + 1)))

/-- One step of zero-region connectivity: move to a 4-adjacent zero pixel. -/
def zstep (m : List ℕ) (w h i j : ℕ) : Prop :=
  gridAdj w h i j ∧ m[j]? = some 0

/-- Zero-region connectivity: reflexive-transitive closure of `zstep`. -/
def zconn (m : List ℕ) (w h : ℕ) : ℕ → ℕ → Prop :=
  Relation.ReflTransGen (zstep m w h)

/-- The zero region (component) of index i, as a finite set of indices. -/
noncomputable def zcompF (m : List ℕ) (w h i : ℕ) : Finset ℕ :=
  @Finset.filter _ (fun j => zconn m w h i j) (Classical.decPred _)
    (Finset.range (w * h))

/-- The zero pixels of the mask among the w·h grid indices. -/
def zerosF (m : List ℕ) (w h : ℕ) : Finset ℕ :=
  (Finset.range (w * h)).filter fun i => m[i]? = some 0

/-- The number of maximal 4-connected zero regions of the w×h grid: the
number of distinct zero components. -/
noncomputable def regionCount (m : List ℕ) (w h : ℕ) : ℕ :=
  (@Finset.image _ _ (Classical.decEq _) (fun i => zcompF m w h i)
    (zerosF m w h)).card

lemma gridAdj_symm {w h i j : ℕ} (hadj : gridAdj w h i j) :
    gridAdj w h j i := by
  obtain ⟨x, y, u, v, hx, hy, hu, hv, hi, hj, hc⟩ := hadj
  exact ⟨u, v, x, y, hu, hv, hx, hy, hj, hi, by tauto⟩

lemma gridAdj_lt {w h i j : ℕ} (hadj : gridAdj w h i j) :
    i < w * h ∧ j < w * h := by
  obtain ⟨x, y, u, v, hx, hy, hu, hv, hi, hj, -⟩ := hadj
  exact ⟨hi ▸ idx_lt w h x y hx hy, hj ▸ idx_lt w h u v hu hv⟩

lemma zconn_zero {m : List ℕ} {w h i j : ℕ} (hc : zconn m w h i j)
    (hi : m[i]? = some 0) : m[j]? = some 0 := by
  induction hc with
  | refl => exact hi
  | tail _ hstep _ => exact hstep.2

lemma zconn_lt {m : List ℕ} {w h i j : ℕ} (hc : zconn m w h i j)
    (hi : i < w * h) : j < w * h := by
  induction hc with
  | refl => exact hi
  | tail _ hstep _ => exact (gridAdj_lt hstep.1).2

lemma zconn_symm {m : List ℕ} {w h i j : ℕ} (hc : zconn m w h i j)
    (hi : m[i]? = some 0) : zconn m w h j i := by
  induction hc with
  | refl => exact Relation.ReflTransGen.refl
  | tail hab hstep ih =>
    exact Relation.ReflTransGen.head
      ⟨gridAdj_symm hstep.1, zconn_zero hab hi⟩ ih

lemma mem_zcompF {m : List ℕ} {w h i j : ℕ} :
    j ∈ zcompF m w h i ↔ j < w * h ∧ zconn m w h i j := by
  unfold zcompF
  rw [@Finset.mem_filter _ _ (Classical.decPred _), Finset.mem_range]

lemma zcompF_eq_of_conn {m : List ℕ} {w h i j : ℕ} (hc : zconn m w h i j)
    (hi : m[i]? = some 0) : zcompF m w h i = zcompF m w h j := by
  ext k
  rw [mem_zcompF, mem_zcompF]
  constructor
  · rintro ⟨hk, hik⟩
    exact ⟨hk, Relation.ReflTransGen.trans (zconn_symm hc hi) hik⟩
  · rintro ⟨hk, hjk⟩
    exact ⟨hk, Relation.ReflTransGen.trans hc hjk⟩

lemma self_mem_zcompF {m : List ℕ} {w h i : ℕ} (hi : i < w * h) :
    i ∈ zcompF m w h i :=
  mem_zcompF.mpr ⟨hi, Relation.ReflTransGen.refl⟩

/-- If a set of indices contains `start` and is closed under `zstep` from its
members, it contains the whole component of `start`. -/
lemma zconn_closed {m : List ℕ} {w h start : ℕ} (S : Set ℕ)
    (hstart : start ∈ S)
    (hclosed : ∀ j k, j ∈ S → zstep m w h j k → k ∈ S) :
    ∀ j, zconn m w h start j → j ∈ S := by
  intro j hj
  induction hj with
  | refl => exact hstart
  | tail hab hstep ih => exact hclosed _ _ ih hstep

end CutOut
namespace CutOut

lemma coord_decomp {w h idx : ℕ} (hlt : idx < w * h) :
    idx = idx / w * w + idx % w ∧ idx % w < w ∧ idx / w < h := by
  have hw : 0 < w := by
    rcases Nat.eq_zero_or_pos w with h0 | h0
    · subst h0; simp at hlt
    · exact h0
  refine ⟨?_, Nat.mod_lt _ hw, ?_⟩
  · rw [Nat.mul_comm]
    exact (Nat.div_add_mod idx w).symm
  · rw [Nat.div_lt_iff_lt_mul hw]
    exact lt_of_lt_of_eq hlt (Nat.mul_comm w h)

lemma gridAdj_cases {w h idx k : ℕ} (hlt : idx < w * h)
    (hadj : gridAdj w h idx k) :
    (idx % w + 1 < w ∧ k = idx / w * w + (idx % w + 1)) ∨
    (1 ≤ idx % w ∧ k = idx / w * w + (idx % w - 1)) ∨
    (idx / w + 1 < h ∧ k = (idx / w + 1) * w + idx % w) ∨
    (1 ≤ idx / w ∧ k = (idx / w - 1) * w + idx % w) := by
  obtain ⟨x, y, u, v, hx, hy, hu, hv, hi, hj, hc⟩ := hadj
  have hmx : idx % w = x := by rw [hi]; exact encode_mod w x y hx
  have hmy : idx / w = y := by rw [hi]; exact encode_div w x y hx
  rw [hmx, hmy]
  rcases hc with ⟨hyv, hux | hxu⟩ | ⟨hxu, hvy | hyv⟩
  · refine Or.inl ⟨by omega, ?_⟩
    rw [hyv, ← hux]
    exact hj
  · refine Or.inr (Or.inl ⟨by omega, ?_⟩)
    have huv : x - 1 = u := by omega
    rw [hyv, huv]
    exact hj
  · refine Or.inr (Or.inr (Or.inl ⟨by omega, ?_⟩))
    rw [← hvy, hxu]
    exact hj
  · refine Or.inr (Or.inr (Or.inr ⟨by omega, ?_⟩))
    have huv : y - 1 = v := by omega
    rw [huv, hxu]
    exact hj

lemma gridAdj_mk_right {w h idx : ℕ} (hlt : idx < w * h)
    (hc : idx % w + 1 < w) :
    gridAdj w h idx (idx / w * w + (idx % w + 1)) := by
  obtain ⟨he, hx, hy⟩ := coord_decomp hlt
  exact ⟨idx % w, idx / w, idx % w + 1, idx / w, hx, hy, hc, hy, he,
    by ring, Or.inl ⟨rfl, Or.inl rfl⟩⟩

lemma gridAdj_mk_left {w h idx : ℕ} (hlt : idx < w * h)
    (hc : 1 ≤ idx % w) :
    gridAdj w h idx (idx / w * w + (idx % w - 1)) := by
  obtain ⟨he, hx, hy⟩ := coord_decomp hlt
  exact ⟨idx % w, idx / w, idx % w - 1, idx / w, hx, hy, by omega, hy, he,
    by ring, Or.inl ⟨rfl, Or.inr (by omega)⟩⟩

lemma gridAdj_mk_down {w h idx : ℕ} (hlt : idx < w * h)
    (hc : idx / w + 1 < h) :
    gridAdj w h idx ((idx / w + 1) * w + idx % w) := by
  obtain ⟨he, hx, hy⟩ := coord_decomp hlt
  exact ⟨idx % w, idx / w, idx % w, idx / w + 1, hx, hy, hx, hc, he,
    rfl, Or.inr ⟨rfl, Or.inl rfl⟩⟩

lemma gridAdj_mk_up {w h idx : ℕ} (hlt : idx < w * h)
    (hc : 1 ≤ idx / w) :
    gridAdj w h idx ((idx / w - 1) * w + idx % w) := by
  obtain ⟨he, hx, hy⟩ := coord_decomp hlt
  exact ⟨idx % w, idx / w, idx % w, idx / w - 1, hx, hy, hx, by omega, he,
    rfl, Or.inr ⟨rfl, Or.inr (by omega)⟩⟩

/-- Main invariant lemma for `markBFS`: with enough fuel, starting from any
queue/visited state satisfying the BFS invariants for a start pixel, the
result is the visited set extended by the whole zero component of the
start. -/
lemma markBFS_invariant (m : List ℕ) (w h : ℕ) (hlen : m.length = w * h)
    (start : ℕ) :
    ∀ fuel (q : List ℕ) (vis : Finset ℕ),
      q.length + 5 * (w * h - vis.card) ≤ fuel →
      (∀ j ∈ q, m[j]? = some 0 ∧ zconn m w h start j) →
      vis ⊆ Finset.range (w * h) →
      (start ∈ vis ∨ start ∈ q) →
      (∀ j k, j ∈ vis → zconn m w h start j → zstep m w h j k →
        k ∈ vis ∨ k ∈ q) →
      markBFS m w h fuel q vis = vis ∪ zcompF m w h start := by
  intro fuel
  induction fuel with
  | zero =>
    intro q vis hfuel hq hvs hstart hfront
    have hq0 : q = [] := by
      cases q with
      | nil => rfl
      | cons a q2 => simp at hfuel
    subst hq0
    have hcard : w * h ≤ vis.card := by omega
    have hviseq : vis = Finset.range (w * h) := by
      refine Finset.eq_of_subset_of_card_le hvs ?_
      rw [Finset.card_range]
      exact hcard
    rw [markBFS]
    rw [hviseq]
    ext a
    rw [Finset.mem_union, mem_zcompF]
    constructor
    · intro ha; exact Or.inl ha
    · rintro (ha | ⟨ha, -⟩)
      · exact ha
      · rw [Finset.mem_range]; exact ha
  | succ fuel ih =>
    intro q vis hfuel hq hvs hstart hfront
    match q with
    | [] =>
      rw [markBFS]
      have hsv : start ∈ vis := by
        rcases hstart with h | h
        · exact h
        · cases h
      have hsub : zcompF m w h start ⊆ vis := by
        intro j hj
        rw [mem_zcompF] at hj
        have := zconn_closed (m := m) (w := w) (h := h)
          {j | j ∈ vis ∧ zconn m w h start j} ⟨hsv, Relation.ReflTransGen.refl⟩
          ?_ j hj.2
        · exact this.1
        · rintro a b ⟨hav, hca⟩ hstepab
          rcases hfront a b hav hca hstepab with hb | hb
          · exact ⟨hb, Relation.ReflTransGen.tail hca hstepab⟩
          · cases hb
      rw [Finset.union_eq_left.mpr hsub]
    | idx :: q2 =>
      rw [markBFS]
      by_cases hvisid : idx ∈ vis
      · rw [if_pos hvisid]
        refine ih q2 vis (by simp only [List.length_cons] at hfuel; omega)
          (fun j hj => hq j (List.mem_cons_of_mem _ hj)) hvs ?_ ?_
        · rcases hstart with h | h
          · exact Or.inl h
          · rcases List.mem_cons.mp h with h | h
            · exact Or.inl (h ▸ hvisid)
            · exact Or.inr h
        · intro j k hjv hcj hst
          rcases hfront j k hjv hcj hst with h | h
          · exact Or.inl h
          · rcases List.mem_cons.mp h with h | h
            · exact Or.inl (h ▸ hvisid)
            · exact Or.inr h
      · rw [if_neg hvisid]
        obtain ⟨hidx0, hconn⟩ := hq idx (List.mem_cons_self _ _)
        have hidxlt : idx < w * h := by
          obtain ⟨hl1, -⟩ := List.getElem?_eq_some_iff.mp hidx0
          omega
        obtain ⟨hdec, hxw, hyh⟩ := coord_decomp hidxlt
        have hcardlt : vis.card < w * h := by
          have h1 : vis.card < (insert idx vis).card := by
            rw [Finset.card_insert_of_not_mem hvisid]
            omega
          have h2 : (insert idx vis).card ≤ w * h := by
            have hs : insert idx vis ⊆ Finset.range (w * h) := by
              intro a ha
              rcases Finset.mem_insert.mp ha with h | h
              · rw [h, Finset.mem_range]; exact hidxlt
              · exact hvs h
            calc (insert idx vis).card ≤ (Finset.range (w * h)).card :=
                  Finset.card_le_card hs
              _ = w * h := Finset.card_range _
          omega
        set x := idx % w with hxdef
        set y := idx / w with hydef
        have hidxcomp : idx ∈ zcompF m w h start :=
          mem_zcompF.mpr ⟨hidxlt, hconn⟩
        -- the four conditional pushes
        set n1 : List ℕ := if x + 1 < w ∧ m[y * w + (x + 1)]? = some 0 ∧
            y * w + (x + 1) ∉ insert idx vis then [y * w + (x + 1)] else []
          with hn1
        set n2 : List ℕ := if 1 ≤ x ∧ m[y * w + (x - 1)]? = some 0 ∧
            y * w + (x - 1) ∉ insert idx vis then [y * w + (x - 1)] else []
          with hn2
        set n3 : List ℕ := if y + 1 < h ∧ m[(y + 1) * w + x]? = some 0 ∧
            (y + 1) * w + x ∉ insert idx vis then [(y + 1) * w + x] else []
          with hn3
        set n4 : List ℕ := if 1 ≤ y ∧ m[(y - 1) * w + x]? = some 0 ∧
            (y - 1) * w + x ∉ insert idx vis then [(y - 1) * w + x] else []
          with hn4
        have hpush : ∀ j ∈ n1 ++ n2 ++ n3 ++ n4,
            m[j]? = some 0 ∧ zconn m w h start j := by
          intro j hj
          simp only [List.mem_append] at hj
          have hstep : zstep m w h idx j := by
            rcases hj with ((hj | hj) | hj) | hj
            · rw [hn1] at hj
              split at hj
              · rename_i hcond
                rcases List.mem_singleton.mp hj with rfl
                exact ⟨gridAdj_mk_right hidxlt hcond.1, hcond.2.1⟩
              · cases hj
            · rw [hn2] at hj
              split at hj
              · rename_i hcond
                rcases List.mem_singleton.mp hj with rfl
                exact ⟨gridAdj_mk_left hidxlt hcond.1, hcond.2.1⟩
              · cases hj
            · rw [hn3] at hj
              split at hj
              · rename_i hcond
                rcases List.mem_singleton.mp hj with rfl
                exact ⟨gridAdj_mk_down hidxlt hcond.1, hcond.2.1⟩
              · cases hj
            · rw [hn4] at hj
              split at hj
              · rename_i hcond
                rcases List.mem_singleton.mp hj with rfl
                exact ⟨gridAdj_mk_up hidxlt hcond.1, hcond.2.1⟩
              · cases hj
          exact ⟨hstep.2, Relation.ReflTransGen.tail hconn hstep⟩
        have hlen14 : n1.length + n2.length + n3.length + n4.length ≤ 4 := by
          rw [hn1, hn2, hn3, hn4]
          split <;> split <;> split <;> split <;> simp
        have hres := ih (q2 ++ n1 ++ n2 ++ n3 ++ n4) (insert idx vis) ?_ ?_ ?_
          ?_ ?_
        · rw [hres]
          rw [Finset.insert_union]
          rw [Finset.insert_eq_of_mem (Finset.mem_union_right _ hidxcomp)]
        · -- fuel
          have hcard2 : (insert idx vis).card = vis.card + 1 :=
            Finset.card_insert_of_not_mem hvisid
          simp only [List.length_append] at *
          simp only [List.length_cons] at hfuel
          rw [hcard2]
          omega
        · -- queue elements
          intro j hj
          simp only [List.append_assoc, List.mem_append] at hj
          rcases hj with hj | hj
          · exact hq j (List.mem_cons_of_mem _ hj)
          · refine hpush j ?_
            simp only [List.mem_append] at hj ⊢
            tauto
        · -- visited in range
          intro a ha
          rcases Finset.mem_insert.mp ha with h | h
          · rw [h, Finset.mem_range]; exact hidxlt
          · exact hvs h
        · -- start covered
          rcases hstart with h | h
          · exact Or.inl (Finset.mem_insert_of_mem h)
          · rcases List.mem_cons.mp h with h | h
            · exact Or.inl (h ▸ Finset.mem_insert_self _ _)
            · refine Or.inr ?_
              simp only [List.append_assoc, List.mem_append]
              exact Or.inl h
        · -- frontier
          intro j k hjv hcj hst
          rcases Finset.mem_insert.mp hjv with hj | hj
          · -- j = idx: k is one of the four neighbors
            subst hj
            rcases gridAdj_cases hidxlt hst.1 with hc | hc | hc | hc
            · by_cases hk : y * w + (x + 1) ∈ insert j vis
              · exact Or.inl (hc.2 ▸ hk)
              · refine Or.inr ?_
                simp only [List.append_assoc, List.mem_append]
                refine Or.inr (Or.inl ?_)
                rw [hn1, if_pos ⟨hc.1, hc.2 ▸ hst.2, hk⟩]
                exact hc.2 ▸ List.mem_singleton.mpr rfl
            · by_cases hk : y * w + (x - 1) ∈ insert j vis
              · exact Or.inl (hc.2 ▸ hk)
              · refine Or.inr ?_
                simp only [List.append_assoc, List.mem_append]
                refine Or.inr (Or.inr (Or.inl ?_))
                rw [hn2, if_pos ⟨hc.1, hc.2 ▸ hst.2, hk⟩]
                exact hc.2 ▸ List.mem_singleton.mpr rfl
            · by_cases hk : (y + 1) * w + x ∈ insert j vis
              · exact Or.inl (hc.2 ▸ hk)
              · refine Or.inr ?_
                simp only [List.append_assoc, List.mem_append]
                refine Or.inr (Or.inr (Or.inr (Or.inl ?_)))
                rw [hn3, if_pos ⟨hc.1, hc.2 ▸ hst.2, hk⟩]
                exact hc.2 ▸ List.mem_singleton.mpr rfl
            · by_cases hk : (y - 1) * w + x ∈ insert j vis
              · exact Or.inl (hc.2 ▸ hk)
              · refine Or.inr ?_
                simp only [List.append_assoc, List.mem_append]
                refine Or.inr (Or.inr (Or.inr (Or.inr ?_)))
                rw [hn4, if_pos ⟨hc.1, hc.2 ▸ hst.2, hk⟩]
                exact hc.2 ▸ List.mem_singleton.mpr rfl
          · rcases hfront j k hj hcj hst with h | h
            · exact Or.inl (Finset.mem_insert_of_mem h)
            · rcases List.mem_cons.mp h with h | h
              · exact Or.inl (h ▸ Finset.mem_insert_self _ _)
              · refine Or.inr ?_
                simp only [List.append_assoc, List.mem_append]
                exact Or.inl h

end CutOut

namespace CutOut

/-- `Finset.image` does not depend on the decidable-equality instance. -/
lemma imageC (f : ℕ → Finset ℕ) (s : Finset ℕ) :
    @Finset.image _ _ (Classical.decEq _) f s = Finset.image f s := by
  congr 1
  funext a b
  exact Subsingleton.elim _ _

/-- A run of `markBFS` from a single zero start against a visited set disjoint
from the start's component marks exactly that component. -/
lemma markBFS_run {m : List ℕ} {w h start : ℕ} (hlen : m.length = w * h)
    (hstart0 : m[start]? = some 0) {vis : Finset ℕ}
    (hvs : vis ⊆ Finset.range (w * h))
    (hdisj : ∀ j ∈ vis, ¬ zconn m w h start j)
    {fuel : ℕ} (hfuel : 1 + 5 * (w * h - vis.card) ≤ fuel) :
    markBFS m w h fuel [start] vis = vis ∪ zcompF m w h start := by
  refine markBFS_invariant m w h hlen start fuel [start] vis ?_ ?_ hvs
    (Or.inr (List.mem_singleton.mpr rfl)) ?_
  · simpa using hfuel
  · intro j hj
    rcases List.mem_singleton.mp hj with rfl
    exact ⟨hstart0, Relation.ReflTransGen.refl⟩
  · intro j k hjv hcj _
    exact absurd hcj (hdisj j hjv)

/-- The zero pixels among the first `n` indices. -/
def zerosBelow (m : List ℕ) (n : ℕ) : Finset ℕ :=
  (Finset.range n).filter fun i => m[i]? = some 0

/-- Invariant of the scanning fold of `countConnectedRegions`: after `n`
indices, the visited set is the union of the components of the zeros seen so
far and the counter is the number of distinct such components. -/
lemma countCR_fold (m : List ℕ) (w h : ℕ) (hlen : m.length = w * h) :
    ∀ n, n ≤ w * h →
      (List.range n).foldl
        (fun (st : Finset ℕ × ℕ) i =>
          if m[i]? = some 0 ∧ i ∉ st.1 then
            (markBFS m w h (5 * w * h + 5) [i] st.1, st.2 + 1)
          else st) (∅, 0) =
      ((zerosBelow m n).biUnion (fun i => zcompF m w h i),
       (Finset.image (fun i => zcompF m w h i) (zerosBelow m n)).card) := by
  intro n
  induction n with
  | zero =>
    intro _
    simp [zerosBelow]
  | succ n ih =>
    intro hle
    have hle' : n ≤ w * h := Nat.le_of_succ_le hle
    have hnlt : n < w * h := hle
    rw [List.range_succ, List.foldl_append, ih hle']
    simp only [List.foldl_cons, List.foldl_nil]
    have hZ' : zerosBelow m (n + 1) =
        if m[n]? = some 0 then insert n (zerosBelow m n)
        else zerosBelow m n := by
      rw [zerosBelow, zerosBelow, Finset.range_succ, Finset.filter_insert]
    by_cases hz : m[n]? = some 0
    · rw [hZ', if_pos hz]
      by_cases hv : n ∈ (zerosBelow m n).biUnion (fun i => zcompF m w h i)
      · -- already visited: this zero belongs to an earlier component
        rw [if_neg (fun hc => hc.2 hv)]
        obtain ⟨k, hkZ, hkc⟩ := Finset.mem_biUnion.mp hv
        have hk0 : m[k]? = some 0 := (Finset.mem_filter.mp hkZ).2
        have hkn : zconn m w h k n := (mem_zcompF.mp hkc).2
        have hcomp : zcompF m w h n = zcompF m w h k :=
          (zcompF_eq_of_conn hkn hk0).symm
        rw [Finset.biUnion_insert, Finset.image_insert]
        rw [Finset.union_eq_right.mpr
          (hcomp ▸ Finset.subset_biUnion_of_mem (fun i => zcompF m w h i) hkZ)]
        rw [Finset.insert_eq_self.mpr
          (Finset.mem_image.mpr ⟨k, hkZ, hcomp.symm⟩)]
      · -- new component
        rw [if_pos ⟨hz, hv⟩]
        have hvsub : (zerosBelow m n).biUnion (fun i => zcompF m w h i) ⊆
            Finset.range (w * h) := by
          intro a ha
          obtain ⟨k, -, hkc⟩ := Finset.mem_biUnion.mp ha
          exact Finset.mem_range.mpr (mem_zcompF.mp hkc).1
        have hdisj : ∀ j ∈ (zerosBelow m n).biUnion (fun i => zcompF m w h i),
            ¬ zconn m w h n j := by
          intro j hj hconn
          obtain ⟨k, hkZ, hkc⟩ := Finset.mem_biUnion.mp hj
          have hk0 : m[k]? = some 0 := (Finset.mem_filter.mp hkZ).2
          have hkj : zconn m w h k j := (mem_zcompF.mp hkc).2
          have hjn : zconn m w h j n := zconn_symm hconn hz
          have hkn : zconn m w h k n := Relation.ReflTransGen.trans hkj hjn
          exact hv (Finset.mem_biUnion.mpr
            ⟨k, hkZ, mem_zcompF.mpr ⟨hnlt, hkn⟩⟩)
        have hfuel : 1 + 5 * (w * h -
            ((zerosBelow m n).biUnion (fun i => zcompF m w h i)).card) ≤
            5 * w * h + 5 := by
          have h5 : 5 * w * h = 5 * (w * h) := by ring
          omega
        rw [markBFS_run hlen hz hvsub hdisj hfuel]
        rw [Finset.biUnion_insert, Finset.image_insert]
        have hnotmem : zcompF m w h n ∉
            Finset.image (fun i => zcompF m w h i) (zerosBelow m n) := by
          intro hmem
          obtain ⟨k, hkZ, hkc⟩ := Finset.mem_image.mp hmem
          refine hv (Finset.mem_biUnion.mpr ⟨k, hkZ, ?_⟩)
          rw [hkc]
          exact self_mem_zcompF hnlt
        rw [Finset.card_insert_of_not_mem hnotmem, Finset.union_comm]
    · rw [hZ', if_neg hz, if_neg (fun hc => hz hc.1)]

/-- `countConnectedRegions` computes the true number of 4-connected zero
regions of the w×h grid whenever the mask has exactly w·h entries. -/
lemma countConnectedRegions_eq_regionCount {m : List ℕ} {w h : ℕ}
    (hlen : m.length = w * h) :
    countConnectedRegions m w h = regionCount m w h := by
  unfold countConnectedRegions
  rw [hlen, countCR_fold m w h hlen (w * h) le_rfl]
  unfold regionCount
  rw [imageC]
  rfl

/-- `analyzeMaskStatistics` (src part_000 lines 1072-1082): the removed
percentage and the connected-region count, width and height both taken as
`Math.sqrt(mask.length)`. -/
def analyzeMaskStatistics (mask : List ℕ) : ℚ × ℕ :=
  (((countZeros mask : ℚ) / (mask.length : ℚ)) * 100, connectedRegionsJS mask)

lemma zconn_of_isolated {m : List ℕ} {w h i k : ℕ}
    (hno : ∀ j, ¬ zstep m w h i j) (hc : zconn m w h i k) : k = i := by
  rcases Relation.ReflTransGen.cases_head hc with h' | ⟨c, hstep, -⟩
  · exact h'.symm
  · exact absurd hstep (hno c)

lemma zcompF_isolated {m : List ℕ} {w h i : ℕ} (hi : i < w * h)
    (hno : ∀ j, ¬ zstep m w h i j) : zcompF m w h i = {i} := by
  ext k
  rw [mem_zcompF, Finset.mem_singleton]
  constructor
  · rintro ⟨-, hc⟩
    exact zconn_of_isolated hno hc
  · rintro rfl
    exact ⟨hi, Relation.ReflTransGen.refl⟩

end CutOut

namespace CutOut

/-- C6 (counterexample): on the mask `[0,255,0,255]` of a 4×1 image, the true
number of 4-connected zero regions in the 4×1 grid is 2 (two isolated zeros
separated by 255s), but `analyzeMaskStatistics` reports 1: it passes
`Math.sqrt(mask.length) = 2` as both width and height, gluing indices 0 and 2
vertically in a 2×2 grid. -/
theorem mask_statistics_nonsquare :
    (analyzeMaskStatistics [0, 255, 0, 255]).2 = 1 ∧
    regionCount [0, 255, 0, 255] 4 1 = 2 := by
  constructor
  · decide
  · have hno0 : ∀ j, ¬ zstep [0, 255, 0, 255] 4 1 0 j := by
      intro j hstep
      rcases gridAdj_cases (show (0 : ℕ) < 4 * 1 by decide) hstep.1 with
        ⟨h1, rfl⟩ | ⟨h1, -⟩ | ⟨h1, -⟩ | ⟨h1, -⟩
      · exact absurd hstep.2 (by decide)
      · exact absurd h1 (by decide)
      · exact absurd h1 (by decide)
      · exact absurd h1 (by decide)
    have hno2 : ∀ j, ¬ zstep [0, 255, 0, 255] 4 1 2 j := by
      intro j hstep
      rcases gridAdj_cases (show (2 : ℕ) < 4 * 1 by decide) hstep.1 with
        ⟨h1, rfl⟩ | ⟨h1, rfl⟩ | ⟨h1, -⟩ | ⟨h1, -⟩
      · exact absurd hstep.2 (by decide)
      · exact absurd hstep.2 (by decide)
      · exact absurd h1 (by decide)
      · exact absurd h1 (by decide)
    have hc0 : zcompF [0, 255, 0, 255] 4 1 0 = {0} :=
      zcompF_isolated (by decide) hno0
    have hc2 : zcompF [0, 255, 0, 255] 4 1 2 = {2} :=
      zcompF_isolated (by decide) hno2
    have hz : zerosF [0, 255, 0, 255] 4 1 = {0, 2} := by decide
    unfold regionCount
    rw [imageC, hz, Finset.image_insert, Finset.image_singleton, hc0, hc2]
    rw [Finset.card_insert_of_not_mem (by rw [Finset.mem_singleton]; decide)]
    rfl

/-- C6: for a square mask (length s·s, the only case where the source's
`Math.sqrt(mask.length)` width/height is faithful), `analyzeMaskStatistics`
returns removedPercentage = zeros/total·100 and connectedRegions = the true
number of maximal 4-connected zero regions of the s×s grid. -/
theorem mask_statistics_square (mask : List ℕ) (s : ℕ)
    (hlen : mask.length = s * s) :
    (analyzeMaskStatistics mask).1 =
      (countZeros mask : ℚ) / (mask.length : ℚ) * 100 ∧
    (analyzeMaskStatistics mask).2 = regionCount mask s s := by
  refine ⟨rfl, ?_⟩
  show connectedRegionsJS mask = _
  unfold connectedRegionsJS
  rw [hlen, isqrt_eq_natSqrt, Nat.sqrt_eq]
  exact countConnectedRegions_eq_regionCount hlen

theorem mask_statistics_square_witness :
    ([0, 255, 255, 0] : List ℕ).length = 2 * 2 ∧
    ((analyzeMaskStatistics [0, 255, 255, 0]).1 =
      (countZeros [0, 255, 255, 0] : ℚ) /
        (([0, 255, 255, 0] : List ℕ).length : ℚ) * 100 ∧
     (analyzeMaskStatistics [0, 255, 255, 0]).2 =
      regionCount [0, 255, 255, 0] 2 2) :=
  ⟨by decide, mask_statistics_square [0, 255, 255, 0] 2 (by decide)⟩

end CutOut
namespace CutOut

/-! ### Interval lists: the scan loops under alignment -/

/-- `List.range` filtered to an interval is a shifted range. -/
lemma filter_range_interval :
    ∀ w lo hi, hi ≤ w →
      ((List.range w).filter fun x => decide (lo ≤ x ∧ x < hi)) =
        (List.range (hi - lo)).map fun k => lo + k := by
  intro w
  induction w with
  | zero =>
    intro lo hi hw
    have h0 : hi = 0 := Nat.le_zero.mp hw
    subst h0
    simp
  | succ w ihw =>
    intro lo hi hw
    rcases Nat.lt_or_ge hi (w + 1) with hlt | hge
    · -- hi ≤ w : the new element w is outside the window
      rw [List.range_succ, List.filter_append, ihw lo hi (by omega)]
      simp only [List.filter_cons, List.filter_nil]
      rw [if_neg (by simp only [decide_eq_true_eq]; omega), List.append_nil]
    · -- hi = w + 1
      have hhi : hi = w + 1 := by omega
      subst hhi
      rw [List.range_succ, List.filter_append]
      have hstep :
          ((List.range w).filter fun x => decide (lo ≤ x ∧ x < w + 1)) =
          ((List.range w).filter fun x => decide (lo ≤ x ∧ x < w)) := by
        refine List.filter_congr ?_
        intro a ha
        have : a < w := List.mem_range.mp ha
        rw [decide_eq_decide]
        omega
      rw [hstep, ihw lo w le_rfl]
      simp only [List.filter_cons, List.filter_nil]
      rcases Nat.lt_or_ge w lo with hwlo | hlow
      · rw [if_neg (by simp only [decide_eq_true_eq]; omega)]
        have h1 : w - lo = 0 := by omega
        have h2 : w + 1 - lo = 0 := by omega
        rw [h1, h2]
        simp
      · rw [if_pos (by simp only [decide_eq_true_eq]; omega)]
        have hr : w + 1 - lo = (w - lo) + 1 := by omega
        rw [hr, List.range_succ, List.map_append]
        simp only [List.map_cons, List.map_nil]
        have : lo + (w - lo) = w := by omega
        rw [this]

/-- `qRange` of an `s`-divisible start is a scaled shifted range. -/
lemma qRange_div (lo len s : ℕ) (hs : 0 < s) :
    qRange ((s : ℤ) * lo) ((s : ℤ) * lo + len) s =
      (List.range ((len + s - 1) / s)).map fun k => (s : ℤ) * ((lo + k : ℕ) : ℤ) := by
  unfold qRange
  have hn : ((s : ℤ) * lo + len - (s : ℤ) * lo + s - 1) =
      ((len + s - 1 : ℕ) : ℤ) := by
    have h1 : ((len + s - 1 : ℕ) : ℤ) = (len : ℤ) + s - 1 := by omega
    rw [h1]
    ring
  rw [hn, show ((len + s - 1 : ℕ) : ℤ) / (s : ℤ) = (((len + s - 1) / s : ℕ) : ℤ)
    from (Int.ofNat_tdiv _ _).symm, Int.toNat_ofNat]
  refine List.map_congr_left ?_
  intro k hk
  push_cast
  ring

end CutOut

namespace CutOut

/-- The clamped scaled scan loop over an aligned window is a scaled
pixel-interval list. -/
lemma window_coords (d lo len W : ℕ) (hd : 0 < d)
    (hup : d * lo + len ≤ d * W) (hWin : lo + (len + d - 1) / d ≤ W) :
    qRange (max 0 ((d * lo : ℕ) : ℤ))
      (min ((d * W : ℕ) : ℤ) (((d * lo : ℕ) : ℤ) + len)) d =
      ((List.range W).filter fun x =>
        decide (lo ≤ x ∧ x < lo + (len + d - 1) / d)).map
        fun x => (d : ℤ) * (x : ℕ) := by
  rw [max_eq_right (by positivity)]
  rw [min_eq_right (by exact_mod_cast hup)]
  rw [show ((d * lo : ℕ) : ℤ) = (d : ℤ) * lo by push_cast; ring]
  rw [qRange_div lo len d hd]
  rw [filter_range_interval W lo (lo + (len + d - 1) / d) hWin]
  rw [show lo + (len + d - 1) / d - lo = (len + d - 1) / d by
    generalize (len + d - 1) / d = c; omega]
  rw [List.map_map]
  refine List.map_congr_left ?_
  intro k hk
  simp only [Function.comp_apply]

/-- Reading a `d`-scaled integral position is an ordinary mask read. -/
lemma readScaled_scaled (mask : List ℕ) (w x y d : ℕ) (hd : 0 < d) :
    readScaled mask ((d : ℤ) * y * w + (d : ℤ) * x) d = mask[y * w + x]? := by
  unfold readScaled idxNat
  rw [if_pos ⟨⟨(y * w + x : ℕ), by push_cast; ring⟩, by positivity⟩]
  have he : ((d : ℤ) * y * w + (d : ℤ) * x) = (d : ℤ) * ((y * w + x : ℕ) : ℤ) := by
    push_cast
    ring
  rw [he, Int.mul_ediv_cancel_left _ (by exact_mod_cast hd.ne'), Int.toNat_ofNat]

/-- `Finset.filter` over a range counts like `List.filter`. -/
lemma card_filter_range (n : ℕ) (p : ℕ → Prop) [DecidablePred p] :
    ((Finset.range n).filter p).card =
      ((List.range n).filter fun x => decide (p x)).length := by
  induction n with
  | zero => simp
  | succ n ih =>
    rw [Finset.range_succ, Finset.filter_insert, List.range_succ,
      List.filter_append]
    by_cases hp : p n
    · rw [if_pos hp, Finset.card_insert_of_not_mem
        (fun hc => absurd (Finset.mem_range.mp (Finset.mem_filter.mp hc).1)
          (lt_irrefl n)), ih]
      simp [hp]
    · rw [if_neg hp, ih]
      simp [hp]

/-- A `Finset.range` sum is the corresponding list sum. -/
lemma sum_range_list (n : ℕ) (f : ℕ → ℕ) :
    ∑ x ∈ Finset.range n, f x = ((List.range n).map f).sum := by
  induction n with
  | zero => simp
  | succ n ih =>
    rw [Finset.sum_range_succ, List.range_succ, List.map_append, List.sum_append, ih]
    simp

/-- Summing over a filtered list is summing the guarded terms. -/
lemma map_filter_sum (l : List ℕ) (p : ℕ → Bool) (g : ℕ → ℕ) :
    ((l.filter p).map g).sum = (l.map fun a => if p a then g a else 0).sum := by
  induction l with
  | nil => rfl
  | cons a l ih =>
    rw [List.filter_cons]
    by_cases hp : p a = true
    · rw [if_pos hp, List.map_cons, List.map_cons, List.sum_cons, List.sum_cons,
        ih, if_pos hp]
    · rw [if_neg hp, List.map_cons, List.sum_cons, ih, if_neg hp]
      omega

/-- `countP` distributes over `flatMap` as a sum. -/
lemma countP_flatMap (l : List ℕ) (f : ℕ → List (ℤ × ℤ)) (p : ℤ × ℤ → Bool) :
    (l.flatMap f).countP p = (l.map fun a => (f a).countP p).sum := by
  induction l with
  | nil => rfl
  | cons a l ih =>
    rw [List.flatMap_cons, List.countP_append, List.map_cons, List.sum_cons, ih]

/-- `flatMap` after `map`. -/
lemma flatMap_map_left {α β γ : Type} (l : List α) (f : α → β) (g : β → List γ) :
    (l.map f).flatMap g = l.flatMap fun a => g (f a) := by
  induction l with
  | nil => rfl
  | cons a l ih =>
    rw [List.map_cons, List.flatMap_cons, List.flatMap_cons, ih]

end CutOut

namespace CutOut

/-- The pixels of the central validation window of side `0.3·min(w,h)`
(claim side, integer pixels, scaled-by-20 inequalities). -/
def centerWinF (w h : ℕ) : Finset (ℕ × ℕ) :=
  ((Finset.range w).filter fun x =>
      10 * w ≤ 20 * x + 3 * min w h ∧ 20 * x < 10 * w + 3 * min w h) ×ˢ
  ((Finset.range h).filter fun y =>
      10 * h ≤ 20 * y + 3 * min w h ∧ 20 * y < 10 * h + 3 * min w h)

/-- The pixels of the core hole window of side `0.25·min(w,h)` (claim side,
integer pixels, scaled-by-8 inequalities). -/
def holeWinF (w h : ℕ) : Finset (ℕ × ℕ) :=
  ((Finset.range w).filter fun x =>
      4 * w ≤ 8 * x + min w h ∧ 8 * x < 4 * w + min w h) ×ˢ
  ((Finset.range h).filter fun y =>
      4 * h ≤ 8 * y + min w h ∧ 8 * y < 4 * h + min w h)

/-- Under 20-alignment of the window corner, the center scan visits exactly
the integral pixels of the center window, scaled by 20. -/
lemma centerScanCoords_aligned (w h : ℕ)
    (hcx : 20 ∣ 10 * w - 3 * min w h) (hcy : 20 ∣ 10 * h - 3 * min w h) :
    centerScanCoords w h =
      ((List.range h).filter fun y =>
          decide (10 * h ≤ 20 * y + 3 * min w h ∧
            20 * y < 10 * h + 3 * min w h)).flatMap fun y =>
        ((List.range w).filter fun x =>
            decide (10 * w ≤ 20 * x + 3 * min w h ∧
              20 * x < 10 * w + 3 * min w h)).map fun (x : ℕ) =>
          ((20 : ℤ) * x, (20 : ℤ) * y) := by
  obtain ⟨cx, hcx'⟩ := hcx
  obtain ⟨cy, hcy'⟩ := hcy
  have hx20 : 20 * cx + 3 * min w h = 10 * w := by omega
  have hy20 : 20 * cy + 3 * min w h = 10 * h := by omega
  unfold centerScanCoords
  dsimp only
  rw [show (10 * (h : ℤ) - 3 * min (w : ℤ) (h : ℤ)) = ((20 * cy : ℕ) : ℤ) by
    push_cast; omega]
  rw [show (min (20 * (h : ℤ)) (10 * (h : ℤ) + 3 * min (w : ℤ) (h : ℤ))) =
      min ((20 * h : ℕ) : ℤ) (((20 * cy : ℕ) : ℤ) + ((6 * min w h : ℕ) : ℤ)) by
    push_cast; omega]
  rw [show (10 * (w : ℤ) - 3 * min (w : ℤ) (h : ℤ)) = ((20 * cx : ℕ) : ℤ) by
    push_cast; omega]
  rw [show (min (20 * (w : ℤ)) (10 * (w : ℤ) + 3 * min (w : ℤ) (h : ℤ))) =
      min ((20 * w : ℕ) : ℤ) (((20 * cx : ℕ) : ℤ) + ((6 * min w h : ℕ) : ℤ)) by
    push_cast; omega]
  have heqY := window_coords 20 cy (6 * min w h) h (by omega) (by omega)
    (by omega)
  have heqX := window_coords 20 cx (6 * min w h) w (by omega) (by omega)
    (by omega)
  rw [Nat.cast_ofNat] at heqY heqX
  rw [heqY, heqX]
  have hfx : ((List.range w).filter fun x =>
      decide (cx ≤ x ∧ x < cx + (6 * min w h + 20 - 1) / 20)) =
      ((List.range w).filter fun x =>
        decide (10 * w ≤ 20 * x + 3 * min w h ∧
          20 * x < 10 * w + 3 * min w h)) := by
    refine List.filter_congr ?_
    intro a _
    rw [decide_eq_decide]
    omega
  have hfy : ((List.range h).filter fun y =>
      decide (cy ≤ y ∧ y < cy + (6 * min w h + 20 - 1) / 20)) =
      ((List.range h).filter fun y =>
        decide (10 * h ≤ 20 * y + 3 * min w h ∧
          20 * y < 10 * h + 3 * min w h)) := by
    refine List.filter_congr ?_
    intro a _
    rw [decide_eq_decide]
    omega
  rw [hfx, hfy, flatMap_map_left]
  congr 1
  funext y
  rw [List.map_map]
  rfl

end CutOut

namespace CutOut

/-- Under 8-alignment of the window corner, the hole scan visits exactly the
integral pixels of the core window, scaled by 8. -/
lemma holeScanCoords_aligned (w h : ℕ)
    (hhx : 8 ∣ 4 * w - min w h) (hhy : 8 ∣ 4 * h - min w h) :
    holeScanCoords w h =
      ((List.range h).filter fun y =>
          decide (4 * h ≤ 8 * y + min w h ∧
            8 * y < 4 * h + min w h)).flatMap fun y =>
        ((List.range w).filter fun x =>
            decide (4 * w ≤ 8 * x + min w h ∧
              8 * x < 4 * w + min w h)).map fun (x : ℕ) =>
          ((8 : ℤ) * x, (8 : ℤ) * y) := by
  obtain ⟨cx, hcx'⟩ := hhx
  obtain ⟨cy, hcy'⟩ := hhy
  have hx8 : 8 * cx + min w h = 4 * w := by omega
  have hy8 : 8 * cy + min w h = 4 * h := by omega
  unfold holeScanCoords
  dsimp only
  rw [show (4 * (h : ℤ) - min (w : ℤ) (h : ℤ)) = ((8 * cy : ℕ) : ℤ) by
    push_cast; omega]
  rw [show (min (8 * (h : ℤ)) (4 * (h : ℤ) + min (w : ℤ) (h : ℤ))) =
      min ((8 * h : ℕ) : ℤ) (((8 * cy : ℕ) : ℤ) + ((2 * min w h : ℕ) : ℤ)) by
    push_cast; omega]
  rw [show (4 * (w : ℤ) - min (w : ℤ) (h : ℤ)) = ((8 * cx : ℕ) : ℤ) by
    push_cast; omega]
  rw [show (min (8 * (w : ℤ)) (4 * (w : ℤ) + min (w : ℤ) (h : ℤ))) =
      min ((8 * w : ℕ) : ℤ) (((8 * cx : ℕ) : ℤ) + ((2 * min w h : ℕ) : ℤ)) by
    push_cast; omega]
  have heqY := window_coords 8 cy (2 * min w h) h (by omega) (by omega)
    (by omega)
  have heqX := window_coords 8 cx (2 * min w h) w (by omega) (by omega)
    (by omega)
  rw [Nat.cast_ofNat] at heqY heqX
  rw [heqY, heqX]
  have hfx : ((List.range w).filter fun x =>
      decide (cx ≤ x ∧ x < cx + (2 * min w h + 8 - 1) / 8)) =
      ((List.range w).filter fun x =>
        decide (4 * w ≤ 8 * x + min w h ∧ 8 * x < 4 * w + min w h)) := by
    refine List.filter_congr ?_
    intro a _
    rw [decide_eq_decide]
    omega
  have hfy : ((List.range h).filter fun y =>
      decide (cy ≤ y ∧ y < cy + (2 * min w h + 8 - 1) / 8)) =
      ((List.range h).filter fun y =>
        decide (4 * h ≤ 8 * y + min w h ∧ 8 * y < 4 * h + min w h)) := by
    refine List.filter_congr ?_
    intro a _
    rw [decide_eq_decide]
    omega
  rw [hfx, hfy, flatMap_map_left]
  congr 1
  funext y
  rw [List.map_map]
  rfl

end CutOut

namespace CutOut

/-- Counting over a filtered range list matches the `Finset` sum. -/
lemma countP_filter_range (n : ℕ) (p : ℕ → Prop) [DecidablePred p]
    (q : ℕ → Prop) [DecidablePred q] :
    ((List.range n).filter fun x => decide (p x)).countP
        (fun x => decide (q x)) =
      ∑ x ∈ (Finset.range n).filter p, if q x then 1 else 0 := by
  induction n with
  | zero => simp
  | succ n ih =>
    rw [List.range_succ, List.filter_append, List.countP_append, ih,
      Finset.range_succ, Finset.filter_insert]
    by_cases hp : p n
    · rw [if_pos hp, Finset.sum_insert
        (fun hc => absurd (Finset.mem_range.mp (Finset.mem_filter.mp hc).1)
          (lt_irrefl n))]
      by_cases hq : q n
      · simp [hp, hq]
        omega
      · simp [hp, hq]
    · rw [if_neg hp]
      simp [hp]

/-- The length of the product scan list is the product of the axis counts. -/
lemma flatMap_pairs_length {α : Type} (ys xs : List ℕ) (f : ℕ → ℕ → α) :
    (ys.flatMap fun y => xs.map fun x => f x y).length =
      ys.length * xs.length := by
  induction ys with
  | nil => simp
  | cons a ys ih =>
    rw [List.flatMap_cons, List.length_append, ih, List.length_cons,
      List.length_map]
    ring

/-- `countP` on a product scan list as an iterated sum. -/
lemma countP_pairs (ys xs : List ℕ) (f : ℕ → ℕ → ℤ × ℤ)
    (P : ℤ × ℤ → Bool) :
    (ys.flatMap fun y => xs.map fun x => f x y).countP P =
      (ys.map fun y => xs.countP fun x => P (f x y)).sum := by
  induction ys with
  | nil => rfl
  | cons a ys ih =>
    rw [List.flatMap_cons, List.countP_append, List.map_cons, List.sum_cons,
      ih, List.countP_map]
    rfl

end CutOut

namespace CutOut

/-- A `Finset` sum over a filtered range as a list sum. -/
lemma sum_filter_range (n : ℕ) (p : ℕ → Prop) [DecidablePred p] (f : ℕ → ℕ) :
    ∑ x ∈ (Finset.range n).filter p, f x =
      (((List.range n).filter fun x => decide (p x)).map f).sum := by
  rw [Finset.sum_filter, sum_range_list, map_filter_sum]
  congr 1
  refine List.map_congr_left ?_
  intro a _
  by_cases hp : p a
  · simp [hp]
  · simp [hp]

/-- The center validation under alignment: the 12% rule over the integer
pixels of the center window. -/
lemma validateCenterOK_iff (mask : List ℕ) (w h : ℕ)
    (hcx : 20 ∣ 10 * w - 3 * min w h) (hcy : 20 ∣ 10 * h - 3 * min w h) :
    validateCenterOK mask w h = true ↔
      100 * ((centerWinF w h).filter
          fun p => mask[p.2 * w + p.1]? = some 0).card ≤
        12 * (centerWinF w h).card := by
  have hsGen : ∀ (x y : ℕ),
      readScaled mask ((20 : ℤ) * y * w + (20 : ℤ) * x) 20 =
        mask[y * w + x]? := by
    intro x y
    have hs := readScaled_scaled mask w x y 20 (by norm_num)
    rw [Nat.cast_ofNat] at hs
    exact hs
  unfold validateCenterOK
  dsimp only
  rw [centerScanCoords_aligned w h hcx hcy, decide_eq_true_eq]
  rw [← List.countP_eq_length_filter, countP_pairs, flatMap_pairs_length]
  dsimp only
  simp only [hsGen]
  have hy : ∀ y : ℕ, (((List.range w).filter fun x =>
      decide (10 * w ≤ 20 * x + 3 * min w h ∧
        20 * x < 10 * w + 3 * min w h)).countP fun x =>
        decide (mask[y * w + x]? = some 0)) =
      ∑ x ∈ (Finset.range w).filter fun x =>
          10 * w ≤ 20 * x + 3 * min w h ∧ 20 * x < 10 * w + 3 * min w h,
        if mask[y * w + x]? = some 0 then 1 else 0 := by
    intro y
    rw [← countP_filter_range]
  simp only [hy]
  unfold centerWinF
  rw [Finset.card_filter, Finset.sum_product, Finset.sum_comm,
    sum_filter_range, Finset.card_product, card_filter_range,
    card_filter_range, Nat.mul_comm
      (((List.range w).filter fun x => decide (10 * w ≤ 20 * x + 3 * min w h ∧
        20 * x < 10 * w + 3 * min w h)).length)]

end CutOut

namespace CutOut

/-- The pixel index of a scaled coordinate pair. -/
def pixOf (d : ℤ) (w : ℕ) (p : ℤ × ℤ) : ℕ := ((p.2 / d) * w + p.1 / d).toNat

/-- The scaled coordinate pair of a pixel index. -/
def scaledPix (d w n : ℕ) : ℤ × ℤ :=
  (((d * (n % w) : ℕ) : ℤ), ((d * (n / w) : ℕ) : ℤ))

lemma pixOf_scaledPix (d w n : ℕ) (hd : 0 < d) :
    pixOf d w (scaledPix d w n) = n := by
  unfold pixOf scaledPix
  dsimp only
  rw [show ((d * (n / w) : ℕ) : ℤ) = (d : ℤ) * ((n / w : ℕ) : ℤ) by push_cast; ring]
  rw [show ((d * (n % w) : ℕ) : ℤ) = (d : ℤ) * ((n % w : ℕ) : ℤ) by push_cast; ring]
  rw [Int.mul_ediv_cancel_left _ (by exact_mod_cast hd.ne'),
    Int.mul_ediv_cancel_left _ (by exact_mod_cast hd.ne')]
  rw [show ((n / w : ℕ) : ℤ) * w + ((n % w : ℕ) : ℤ) =
    ((n / w * w + n % w : ℕ) : ℤ) by push_cast; ring]
  rw [Int.toNat_ofNat]
  rw [show n / w * w + n % w = w * (n / w) + n % w from by ring, Nat.div_add_mod]

lemma pixOf_scaledPix8 (w n : ℕ) : pixOf 8 w (scaledPix 8 w n) = n := by
  have h8 := pixOf_scaledPix 8 w n (by norm_num)
  rwa [Nat.cast_ofNat] at h8

lemma scaledPix_inbounds {w h n : ℕ} (hn : n < w * h) :
    0 ≤ (scaledPix 8 w n).1 ∧ (scaledPix 8 w n).1 < 8 * w ∧
    0 ≤ (scaledPix 8 w n).2 ∧ (scaledPix 8 w n).2 < 8 * h := by
  obtain ⟨-, hxw, hyh⟩ := coord_decomp hn
  unfold scaledPix
  dsimp only
  refine ⟨Int.natCast_nonneg _, ?_, Int.natCast_nonneg _, ?_⟩
  · exact_mod_cast by omega
  · exact_mod_cast by omega

lemma popped_coords {w h : ℕ} {p : ℤ × ℤ}
    (hdx : (8 : ℤ) ∣ p.1) (hdy : (8 : ℤ) ∣ p.2)
    (hx0 : 0 ≤ p.1) (hxw : p.1 < 8 * w) (hy0 : 0 ≤ p.2) (hyh : p.2 < 8 * h) :
    ∃ a b : ℕ, p.1 = 8 * a ∧ p.2 = 8 * b ∧ a < w ∧ b < h ∧
      pixOf 8 w p = b * w + a ∧
      idxNat (p.2 * w + p.1) 8 = some (b * w + a) := by
  obtain ⟨a', ha'⟩ := hdx
  obtain ⟨b', hb'⟩ := hdy
  have ha0 : 0 ≤ a' := by omega
  have hb0 : 0 ≤ b' := by omega
  have han : (a'.toNat : ℤ) = a' := Int.toNat_of_nonneg ha0
  have hbn : (b'.toNat : ℤ) = b' := Int.toNat_of_nonneg hb0
  have hkey : b' * (w : ℤ) + a' = ((b'.toNat * w + a'.toNat : ℕ) : ℤ) := by
    push_cast [han, hbn]
    ring
  refine ⟨a'.toNat, b'.toNat, by omega, by omega, by omega, by omega, ?_, ?_⟩
  · unfold pixOf
    rw [ha', hb', Int.mul_ediv_cancel_left _ (by norm_num),
      Int.mul_ediv_cancel_left _ (by norm_num), hkey, Int.toNat_ofNat]
  · unfold idxNat
    rw [if_pos ⟨⟨b' * w + a', by rw [ha', hb']; ring⟩, by positivity⟩]
    congr 1
    rw [show p.2 * (w : ℤ) + p.1 = 8 * (b' * w + a') by rw [ha', hb']; ring]
    rw [Int.mul_ediv_cancel_left _ (by norm_num), hkey, Int.toNat_ofNat]

/-- `holeBFS` counts exactly the pixels it adds to the visited set. -/
lemma holeBFS_size (m : List ℕ) (w h : ℕ) (d : ℤ) :
    ∀ fuel (q : List (ℤ × ℤ)) (vis : Finset ℕ) (size : ℕ),
      vis ⊆ (holeBFS m w h d fuel q vis size).1 ∧
      (holeBFS m w h d fuel q vis size).2 =
        size + ((holeBFS m w h d fuel q vis size).1.card - vis.card) := by
  intro fuel
  induction fuel with
  | zero =>
    intro q vis size
    rw [holeBFS]
    exact ⟨Finset.Subset.refl _, by dsimp only; omega⟩
  | succ fuel ih =>
    intro q vis size
    match q with
    | [] =>
      rw [holeBFS]
      exact ⟨Finset.Subset.refl _, by dsimp only; omega⟩
    | (x, y) :: q2 =>
      rw [holeBFS]
      by_cases hoob : x < 0 ∨ d * w ≤ x ∨ y < 0 ∨ d * h ≤ y
      · rw [if_pos hoob]
        exact ih q2 vis size
      · rw [if_neg hoob]
        cases hidx : idxNat (y * w + x) d with
        | none => exact ih q2 vis size
        | some n =>
          dsimp only
          by_cases hv : n ∈ vis
          · rw [if_pos hv]
            exact ih q2 vis size
          · rw [if_neg hv]
            by_cases hz : m[n]? = some 0
            · rw [if_pos hz]
              obtain ⟨hsub, hsz⟩ := ih
                (q2 ++ [(x + d, y), (x - d, y), (x, y + d), (x, y - d)])
                (insert n vis) (size + 1)
              have hsub2 : vis ⊆ (holeBFS m w h d fuel
                  (q2 ++ [(x + d, y), (x - d, y), (x, y + d), (x, y - d)])
                  (insert n vis) (size + 1)).1 :=
                fun a ha => hsub (Finset.mem_insert_of_mem ha)
              refine ⟨hsub2, ?_⟩
              rw [hsz]
              have hcard : (insert n vis).card = vis.card + 1 :=
                Finset.card_insert_of_not_mem hv
              have hle : (insert n vis).card ≤ (holeBFS m w h d fuel
                  (q2 ++ [(x + d, y), (x - d, y), (x, y + d), (x, y - d)])
                  (insert n vis) (size + 1)).1.card :=
                Finset.card_le_card hsub
              omega
            · rw [if_neg hz]
              exact ih q2 vis size

end CutOut

namespace CutOut

/-- Main invariant for the hole-measuring BFS at denominator 8: with the
queue holding 8-divisible scaled coordinates whose valid zero pixels are
connected to the start, the visited set ends as its union with the start's
zero component. -/
lemma holeBFS_invariant (m : List ℕ) (w h : ℕ) (hlen : m.length = w * h)
    (start : ℕ) (hstart0 : m[start]? = some 0) (hstartlt : start < w * h) :
    ∀ fuel (q : List (ℤ × ℤ)) (vis : Finset ℕ) (size : ℕ),
      q.length + 5 * (w * h - vis.card) ≤ fuel →
      (∀ p ∈ q, (8 : ℤ) ∣ p.1 ∧ (8 : ℤ) ∣ p.2 ∧
        (0 ≤ p.1 → p.1 < 8 * w → 0 ≤ p.2 → p.2 < 8 * h →
          m[pixOf 8 w p]? = some 0 → zconn m w h start (pixOf 8 w p))) →
      vis ⊆ Finset.range (w * h) →
      (start ∈ vis ∨ scaledPix 8 w start ∈ q) →
      (∀ j k, j ∈ vis → zconn m w h start j → zstep m w h j k →
        k ∈ vis ∨ scaledPix 8 w k ∈ q) →
      (holeBFS m w h 8 fuel q vis size).1 = vis ∪ zcompF m w h start := by
  intro fuel
  induction fuel with
  | zero =>
    intro q vis size hfuel hq hvs hstart hfront
    have hq0 : q = [] := by
      cases q with
      | nil => rfl
      | cons a q2 => simp at hfuel
    subst hq0
    have hcard : w * h ≤ vis.card := by omega
    have hviseq : vis = Finset.range (w * h) := by
      refine Finset.eq_of_subset_of_card_le hvs ?_
      rw [Finset.card_range]
      exact hcard
    rw [holeBFS, hviseq]
    dsimp only
    ext a
    rw [Finset.mem_union, mem_zcompF]
    constructor
    · intro ha; exact Or.inl ha
    · rintro (ha | ⟨ha, -⟩)
      · exact ha
      · rw [Finset.mem_range]; exact ha
  | succ fuel ih =>
    intro q vis size hfuel hq hvs hstart hfront
    match q with
    | [] =>
      rw [holeBFS]
      dsimp only
      have hsv : start ∈ vis := by
        rcases hstart with h' | h'
        · exact h'
        · cases h'
      have hsub : zcompF m w h start ⊆ vis := by
        intro j hj
        rw [mem_zcompF] at hj
        have := zconn_closed (m := m) (w := w) (h := h)
          {j | j ∈ vis ∧ zconn m w h start j} ⟨hsv, Relation.ReflTransGen.refl⟩
          ?_ j hj.2
        · exact this.1
        · rintro a b ⟨hav, hca⟩ hstepab
          rcases hfront a b hav hca hstepab with hb | hb
          · exact ⟨hb, Relation.ReflTransGen.tail hca hstepab⟩
          · cases hb
      rw [Finset.union_eq_left.mpr hsub]
    | (x, y) :: q2 =>
      rw [holeBFS]
      obtain ⟨hdx, hdy, hcond⟩ := hq (x, y) (List.mem_cons_self _ _)
      by_cases hoob : x < 0 ∨ 8 * (w : ℤ) ≤ x ∨ y < 0 ∨ 8 * (h : ℤ) ≤ y
      · -- skipped: out of bounds; start and frontier coordinates are in
        -- bounds, so they are still in the remaining queue
        rw [if_pos hoob]
        refine ih q2 vis size (by simp only [List.length_cons] at hfuel; omega)
          (fun p hp => hq p (List.mem_cons_of_mem _ hp)) hvs ?_ ?_
        · rcases hstart with h' | h'
          · exact Or.inl h'
          · rcases List.mem_cons.mp h' with h' | h'
            · exfalso
              obtain ⟨hb1, hb2, hb3, hb4⟩ := scaledPix_inbounds hstartlt
              rw [h'] at hb1 hb2 hb3 hb4
              dsimp only at hb1 hb2 hb3 hb4
              omega
            · exact Or.inr h'
        · intro j k hjv hcj hst
          rcases hfront j k hjv hcj hst with h' | h'
          · exact Or.inl h'
          · rcases List.mem_cons.mp h' with h' | h'
            · exfalso
              obtain ⟨hb1, hb2, hb3, hb4⟩ :=
                scaledPix_inbounds (gridAdj_lt hst.1).2
              rw [h'] at hb1 hb2 hb3 hb4
              dsimp only at hb1 hb2 hb3 hb4
              omega
            · exact Or.inr h'
      · rw [if_neg hoob]
        have hx0 : (0 : ℤ) ≤ x := by omega
        have hxw : x < 8 * (w : ℤ) := by omega
        have hy0 : (0 : ℤ) ≤ y := by omega
        have hyh : y < 8 * (h : ℤ) := by omega
        obtain ⟨a, b, hxa, hyb, haw, hbh, hpix, hsome⟩ :=
          popped_coords (p := (x, y)) hdx hdy hx0 hxw hy0 hyh
        cases hidx : idxNat (y * w + x) 8 with
        | none =>
          exfalso
          rw [show y * (w : ℤ) + x = ((x, y) : ℤ × ℤ).2 * w + ((x, y) : ℤ × ℤ).1
            from rfl] at hidx
          rw [hsome] at hidx
          cases hidx
        | some n =>
          dsimp only
          have hn : n = b * w + a := by
            rw [show y * (w : ℤ) + x = ((x, y) : ℤ × ℤ).2 * w +
              ((x, y) : ℤ × ℤ).1 from rfl, hsome] at hidx
            exact (Option.some.injEq _ _ ▸ hidx).symm
          have hnlt : n < w * h := by
            have h1 : b * w + w ≤ h * w := by
              have h2 : (b + 1) * w ≤ h * w :=
                Nat.mul_le_mul_right w (by omega)
              rw [Nat.succ_mul] at h2
              exact h2
            have h3 : h * w = w * h := Nat.mul_comm h w
            omega
          have hmodn : n % w = a := by rw [hn]; exact encode_mod w a b haw
          have hdivn : n / w = b := by rw [hn]; exact encode_div w a b haw
          by_cases hv : n ∈ vis
          · -- already visited
            rw [if_pos hv]
            refine ih q2 vis size
              (by simp only [List.length_cons] at hfuel; omega)
              (fun p hp => hq p (List.mem_cons_of_mem _ hp)) hvs ?_ ?_
            · rcases hstart with h' | h'
              · exact Or.inl h'
              · rcases List.mem_cons.mp h' with h' | h'
                · refine Or.inl ?_
                  have : pixOf 8 w (scaledPix 8 w start) = pixOf 8 w (x, y) := by
                    rw [h']
                  rw [pixOf_scaledPix8 w start, hpix, ← hn]
                    at this
                  exact this ▸ hv
                · exact Or.inr h'
            · intro j k hjv hcj hst
              rcases hfront j k hjv hcj hst with h' | h'
              · exact Or.inl h'
              · rcases List.mem_cons.mp h' with h' | h'
                · refine Or.inl ?_
                  have : pixOf 8 w (scaledPix 8 w k) = pixOf 8 w (x, y) := by
                    rw [h']
                  rw [pixOf_scaledPix8 w k, hpix, ← hn] at this
                  exact this ▸ hv
                · exact Or.inr h'
          · rw [if_neg hv]
            by_cases hz : m[n]? = some 0
            · -- count this pixel and push its neighbors
              rw [if_pos hz]
              have hconn : zconn m w h start n := by
                have := hcond hx0 hxw hy0 hyh
                rw [hpix, ← hn] at this
                exact this hz
              have hncomp : n ∈ zcompF m w h start :=
                mem_zcompF.mpr ⟨hnlt, hconn⟩
              have hcardlt : vis.card < w * h := by
                have h1 : (insert n vis).card = vis.card + 1 :=
                  Finset.card_insert_of_not_mem hv
                have h2 : insert n vis ⊆ Finset.range (w * h) := by
                  intro c hc
                  rcases Finset.mem_insert.mp hc with h' | h'
                  · rw [h', Finset.mem_range]; exact hnlt
                  · exact hvs h'
                have h3 : (insert n vis).card ≤ w * h := by
                  have := Finset.card_le_card h2
                  rwa [Finset.card_range] at this
                omega
              have hres := ih (q2 ++ [(x + 8, y), (x - 8, y), (x, y + 8),
                (x, y - 8)]) (insert n vis) (size + 1) ?_ ?_ ?_ ?_ ?_
              · rw [hres, Finset.insert_union,
                  Finset.insert_eq_of_mem (Finset.mem_union_right _ hncomp)]
              · simp only [List.length_append, List.length_cons] at hfuel ⊢
                have hc1 : (insert n vis).card = vis.card + 1 :=
                  Finset.card_insert_of_not_mem hv
                simp only [List.length_nil]
                rw [hc1]
                omega
              · -- queue invariant
                intro p hp
                rcases List.mem_append.mp hp with hp | hp
                · exact hq p (List.mem_cons_of_mem _ hp)
                · -- one of the four pushed neighbors
                  have hstep4 : ∀ (pix2 : ℕ), gridAdj w h n pix2 →
                      m[pix2]? = some 0 → zconn m w h start pix2 :=
                    fun pix2 hadj hz2 =>
                      Relation.ReflTransGen.tail hconn ⟨hadj, hz2⟩
                  rcases List.mem_cons.mp hp with hp | hp
                  · subst hp
                    refine ⟨by omega, by omega, ?_⟩
                    intro hb1 hb2 hb3 hb4 hz2
                    obtain ⟨a2, b2, hxa2, hyb2, haw2, hbh2, hpix2, -⟩ :=
                      popped_coords (p := (x + 8, y)) (by omega) hdy hb1 hb2
                        hb3 hb4
                    dsimp only at hxa2 hyb2
                    have ha2 : a2 = a + 1 := by omega
                    have hb2' : b2 = b := by omega
                    rw [hpix2, ha2, hb2'] at hz2 ⊢
                    refine hstep4 _ ?_ hz2
                    have := gridAdj_mk_right hnlt (by omega : n % w + 1 < w)
                    rwa [hmodn, hdivn] at this
                  rcases List.mem_cons.mp hp with hp | hp
                  · subst hp
                    refine ⟨by omega, by omega, ?_⟩
                    intro hb1 hb2 hb3 hb4 hz2
                    obtain ⟨a2, b2, hxa2, hyb2, haw2, hbh2, hpix2, -⟩ :=
                      popped_coords (p := (x - 8, y)) (by omega) hdy hb1 hb2
                        hb3 hb4
                    dsimp only at hxa2 hyb2
                    have ha2 : a2 = a - 1 ∧ 1 ≤ a := by omega
                    have hb2' : b2 = b := by omega
                    rw [hpix2, ha2.1, hb2'] at hz2 ⊢
                    refine hstep4 _ ?_ hz2
                    have := gridAdj_mk_left hnlt
                      (by omega : 1 ≤ n % w)
                    rwa [hmodn, hdivn] at this
                  rcases List.mem_cons.mp hp with hp | hp
                  · subst hp
                    refine ⟨by omega, by omega, ?_⟩
                    intro hb1 hb2 hb3 hb4 hz2
                    obtain ⟨a2, b2, hxa2, hyb2, haw2, hbh2, hpix2, -⟩ :=
                      popped_coords (p := (x, y + 8)) hdx (by omega) hb1 hb2
                        hb3 hb4
                    dsimp only at hxa2 hyb2
                    have ha2 : a2 = a := by omega
                    have hb2' : b2 = b + 1 := by omega
                    rw [hpix2, ha2, hb2'] at hz2 ⊢
                    refine hstep4 _ ?_ hz2
                    have := gridAdj_mk_down hnlt (by omega : n / w + 1 < h)
                    rwa [hmodn, hdivn] at this
                  rcases List.mem_cons.mp hp with hp | hp
                  · subst hp
                    refine ⟨by omega, by omega, ?_⟩
                    intro hb1 hb2 hb3 hb4 hz2
                    obtain ⟨a2, b2, hxa2, hyb2, haw2, hbh2, hpix2, -⟩ :=
                      popped_coords (p := (x, y - 8)) hdx (by omega) hb1 hb2
                        hb3 hb4
                    dsimp only at hxa2 hyb2
                    have ha2 : a2 = a := by omega
                    have hb2' : b2 = b - 1 ∧ 1 ≤ b := by omega
                    rw [hpix2, ha2, hb2'.1] at hz2 ⊢
                    refine hstep4 _ ?_ hz2
                    have := gridAdj_mk_up hnlt (by omega : 1 ≤ n / w)
                    rwa [hmodn, hdivn] at this
                  · cases hp
              · -- visited in range
                intro c hc
                rcases Finset.mem_insert.mp hc with h' | h'
                · rw [h', Finset.mem_range]; exact hnlt
                · exact hvs h'
              · -- start covered
                rcases hstart with h' | h'
                · exact Or.inl (Finset.mem_insert_of_mem h')
                · rcases List.mem_cons.mp h' with h' | h'
                  · refine Or.inl ?_
                    have hsn : start = n := by
                      have : pixOf 8 w (scaledPix 8 w start) =
                          pixOf 8 w (x, y) := by rw [h']
                      rwa [pixOf_scaledPix8 w start, hpix,
                        ← hn] at this
                    rw [hsn]
                    exact Finset.mem_insert_self _ _
                  · refine Or.inr (List.mem_append.mpr (Or.inl h'))
              · -- frontier
                intro j k hjv hcj hst
                rcases Finset.mem_insert.mp hjv with hj | hj
                · -- j = n: the neighbor's scaled coordinates were pushed
                  subst hj
                  refine Or.inr (List.mem_append.mpr (Or.inr ?_))
                  have hkz : m[k]? = some 0 := hst.2
                  rcases gridAdj_cases hnlt hst.1 with hc' | hc' | hc' | hc'
                  · rw [hc'.2, hmodn, hdivn]
                    have hsp : scaledPix 8 w (b * w + (a + 1)) =
                        (x + 8, y) := by
                      unfold scaledPix
                      rw [encode_mod w (a + 1) b (by omega),
                        encode_div w (a + 1) b (by omega)]
                      have : ((8 * (a + 1) : ℕ) : ℤ) = x + 8 := by omega
                      rw [this, show ((8 * b : ℕ) : ℤ) = y by omega]
                    rw [hsp]
                    exact List.mem_cons_self _ _
                  · rw [hc'.2, hmodn, hdivn]
                    have hsp : scaledPix 8 w (b * w + (a - 1)) =
                        (x - 8, y) := by
                      unfold scaledPix
                      rw [encode_mod w (a - 1) b (by omega),
                        encode_div w (a - 1) b (by omega)]
                      have h8 : ((8 * (a - 1) : ℕ) : ℤ) = x - 8 := by omega
                      rw [h8, show ((8 * b : ℕ) : ℤ) = y by omega]
                    rw [hsp]
                    exact List.mem_cons_of_mem _ (List.mem_cons_self _ _)
                  · rw [hc'.2, hmodn, hdivn]
                    have hsp : scaledPix 8 w ((b + 1) * w + a) =
                        (x, y + 8) := by
                      unfold scaledPix
                      rw [encode_mod w a (b + 1) (by omega),
                        encode_div w a (b + 1) (by omega)]
                      have h8 : ((8 * (b + 1) : ℕ) : ℤ) = y + 8 := by omega
                      rw [h8, show ((8 * a : ℕ) : ℤ) = x by omega]
                    rw [hsp]
                    exact List.mem_cons_of_mem _ (List.mem_cons_of_mem _
                      (List.mem_cons_self _ _))
                  · rw [hc'.2, hmodn, hdivn]
                    have hsp : scaledPix 8 w ((b - 1) * w + a) =
                        (x, y - 8) := by
                      unfold scaledPix
                      rw [encode_mod w a (b - 1) (by omega),
                        encode_div w a (b - 1) (by omega)]
                      have h8 : ((8 * (b - 1) : ℕ) : ℤ) = y - 8 := by omega
                      rw [h8, show ((8 * a : ℕ) : ℤ) = x by omega]
                    rw [hsp]
                    exact List.mem_cons_of_mem _ (List.mem_cons_of_mem _
                      (List.mem_cons_of_mem _ (List.mem_cons_self _ _)))
                · rcases hfront j k hj hcj hst with h' | h'
                  · exact Or.inl (Finset.mem_insert_of_mem h')
                  · rcases List.mem_cons.mp h' with h' | h'
                    · refine Or.inl ?_
                      have hkn : k = n := by
                        have : pixOf 8 w (scaledPix 8 w k) =
                            pixOf 8 w (x, y) := by rw [h']
                        rwa [pixOf_scaledPix8 w k, hpix,
                          ← hn] at this
                      rw [hkn]
                      exact Finset.mem_insert_self _ _
                    · exact Or.inr (List.mem_append.mpr (Or.inl h'))
            · -- not a zero pixel: skipped
              rw [if_neg hz]
              refine ih q2 vis size
                (by simp only [List.length_cons] at hfuel; omega)
                (fun p hp => hq p (List.mem_cons_of_mem _ hp)) hvs ?_ ?_
              · rcases hstart with h' | h'
                · exact Or.inl h'
                · rcases List.mem_cons.mp h' with h' | h'
                  · exfalso
                    have hsn : start = n := by
                      have : pixOf 8 w (scaledPix 8 w start) =
                          pixOf 8 w (x, y) := by rw [h']
                      rwa [pixOf_scaledPix8 w start, hpix,
                        ← hn] at this
                    exact hz (hsn ▸ hstart0)
                  · exact Or.inr h'
              · intro j k hjv hcj hst
                rcases hfront j k hjv hcj hst with h' | h'
                · exact Or.inl h'
                · rcases List.mem_cons.mp h' with h' | h'
                  · exfalso
                    have hkn : k = n := by
                      have : pixOf 8 w (scaledPix 8 w k) =
                          pixOf 8 w (x, y) := by rw [h']
                      rwa [pixOf_scaledPix8 w k, hpix,
                        ← hn] at this
                    exact hz (hkn ▸ hst.2)
                  · exact Or.inr h'

end CutOut

namespace CutOut

/-- A single `measureHoleSize` run from a fresh zero pixel: the visited set
grows by the pixel's component and the reported size is that component's
cardinality. -/
lemma holeBFS_run {m : List ℕ} {w h start : ℕ} {vis : Finset ℕ}
    (hlen : m.length = w * h) (hstart0 : m[start]? = some 0)
    (hstartlt : start < w * h) (hvs : vis ⊆ Finset.range (w * h))
    (hdisj : ∀ j ∈ vis, ¬ zconn m w h start j) :
    (holeBFS m w h 8 (5 * w * h + 5) [scaledPix 8 w start] vis 0).1 =
      vis ∪ zcompF m w h start ∧
    (holeBFS m w h 8 (5 * w * h + 5) [scaledPix 8 w start] vis 0).2 =
      (zcompF m w h start).card := by
  have h5 : 5 * w * h = 5 * (w * h) := by ring
  have hset : (holeBFS m w h 8 (5 * w * h + 5) [scaledPix 8 w start] vis 0).1 =
      vis ∪ zcompF m w h start := by
    refine holeBFS_invariant m w h hlen start hstart0 hstartlt
      (5 * w * h + 5) [scaledPix 8 w start] vis 0 ?_ ?_ hvs
      (Or.inr (List.mem_singleton.mpr rfl)) ?_
    · simp only [List.length_cons, List.length_nil]
      omega
    · intro p hp
      rcases List.mem_singleton.mp hp with rfl
      have hd1 : (8 : ℤ) ∣ (scaledPix 8 w start).1 := by
        refine ⟨((start % w : ℕ) : ℤ), ?_⟩
        unfold scaledPix
        dsimp only
        push_cast
        ring
      have hd2 : (8 : ℤ) ∣ (scaledPix 8 w start).2 := by
        refine ⟨((start / w : ℕ) : ℤ), ?_⟩
        unfold scaledPix
        dsimp only
        push_cast
        ring
      refine ⟨hd1, hd2, ?_⟩
      intro _ _ _ _ hz
      rw [pixOf_scaledPix8]
      exact Relation.ReflTransGen.refl
    · intro j k hjv hcj _
      exact absurd hcj (hdisj j hjv)
  refine ⟨hset, ?_⟩
  obtain ⟨hsub, hsz⟩ := holeBFS_size m w h 8 (5 * w * h + 5)
    [scaledPix 8 w start] vis 0
  rw [hsz, hset]
  have hdisj2 : Disjoint vis (zcompF m w h start) := by
    rw [Finset.disjoint_left]
    intro a ha hac
    exact hdisj a ha (mem_zcompF.mp hac).2
  rw [Finset.card_union_of_disjoint hdisj2]
  omega

/-- Once the problematic-hole flag is set, the scan keeps it. -/
lemma holesFold_absorb (mask : List ℕ) (w h : ℕ) :
    ∀ (R : List (ℕ × ℕ)) (st : Finset ℕ × Bool), st.2 = true →
      (R.foldl (fun (st : Finset ℕ × Bool) (q : ℕ × ℕ) =>
        if st.2 then st
        else if mask[q.2 * w + q.1]? = some 0 ∧ q.2 * w + q.1 ∉ st.1 then
          (if w * h < 20 * (holeBFS mask w h 8 (5 * w * h + 5)
              [((8 : ℤ) * q.1, (8 : ℤ) * q.2)] st.1 0).2 then
            ((holeBFS mask w h 8 (5 * w * h + 5)
              [((8 : ℤ) * q.1, (8 : ℤ) * q.2)] st.1 0).1, true)
          else
            ((holeBFS mask w h 8 (5 * w * h + 5)
              [((8 : ℤ) * q.1, (8 : ℤ) * q.2)] st.1 0).1, false))
        else st) st).2 = true := by
  intro R
  induction R with
  | nil => intro st hst; exact hst
  | cons q R ih =>
    intro st hst
    rw [List.foldl_cons, if_pos hst]
    exact ih st hst

end CutOut

namespace CutOut

/-- The hole-scan fold flags a problem exactly when some scanned pixel is a
zero whose component exceeds 5% of the image, provided the visited set is a
union of small zero components. -/
lemma holes_fold (mask : List ℕ) (w h : ℕ) (hlen : mask.length = w * h) :
    ∀ (R : List (ℕ × ℕ)), (∀ q ∈ R, q.1 < w ∧ q.2 < h) →
    ∀ (vis : Finset ℕ),
      vis ⊆ Finset.range (w * h) →
      (∀ j ∈ vis, mask[j]? = some 0 ∧
        ∀ k, zconn mask w h j k → k ∈ vis) →
      (∀ j ∈ vis, 20 * (zcompF mask w h j).card ≤ w * h) →
      ((R.foldl (fun (st : Finset ℕ × Bool) (q : ℕ × ℕ) =>
        if st.2 then st
        else if mask[q.2 * w + q.1]? = some 0 ∧ q.2 * w + q.1 ∉ st.1 then
          (if w * h < 20 * (holeBFS mask w h 8 (5 * w * h + 5)
              [((8 : ℤ) * q.1, (8 : ℤ) * q.2)] st.1 0).2 then
            ((holeBFS mask w h 8 (5 * w * h + 5)
              [((8 : ℤ) * q.1, (8 : ℤ) * q.2)] st.1 0).1, true)
          else
            ((holeBFS mask w h 8 (5 * w * h + 5)
              [((8 : ℤ) * q.1, (8 : ℤ) * q.2)] st.1 0).1, false))
        else st) (vis, false)).2 = true ↔
      ∃ q ∈ R, mask[q.2 * w + q.1]? = some 0 ∧
        w * h < 20 * (zcompF mask w h (q.2 * w + q.1)).card) := by
  intro R
  induction R with
  | nil =>
    intro hR vis hvs hclosed hsmall
    simp
  | cons q R ih =>
    intro hR vis hvs hclosed hsmall
    obtain ⟨hq1, hq2⟩ := hR q (List.mem_cons_self _ _)
    have hnlt : q.2 * w + q.1 < w * h := by
      have h1 : (q.2 + 1) * w ≤ h * w := Nat.mul_le_mul_right w (by omega)
      rw [Nat.succ_mul] at h1
      have h2 : h * w = w * h := Nat.mul_comm h w
      omega
    rw [List.foldl_cons]
    rw [if_neg (by simp : ¬((vis, false).2 = true))]
    dsimp only
    by_cases hz : mask[q.2 * w + q.1]? = some 0
    · by_cases hv : q.2 * w + q.1 ∈ vis
      · rw [if_neg (fun hc => hc.2 hv)]
        rw [ih (fun p hp => hR p (List.mem_cons_of_mem _ hp)) vis hvs
          hclosed hsmall]
        constructor
        · rintro ⟨p, hp, hx⟩
          exact ⟨p, List.mem_cons_of_mem _ hp, hx⟩
        · rintro ⟨p, hp, hx⟩
          rcases List.mem_cons.mp hp with rfl | hp'
          · exact absurd hx.2 (by have := hsmall _ hv; omega)
          · exact ⟨p, hp', hx⟩
      · rw [if_pos ⟨hz, hv⟩]
        have hseed : (((8 : ℤ) * q.1, (8 : ℤ) * q.2) : ℤ × ℤ) =
            scaledPix 8 w (q.2 * w + q.1) := by
          unfold scaledPix
          rw [encode_mod w q.1 q.2 hq1, encode_div w q.1 q.2 hq1]
          refine Prod.ext ?_ ?_ <;> (dsimp only; push_cast; ring)
        rw [hseed]
        have hdisj : ∀ j ∈ vis, ¬ zconn mask w h (q.2 * w + q.1) j := by
          intro j hj hconn
          have hjn := zconn_symm hconn hz
          exact hv ((hclosed j hj).2 _ hjn)
        obtain ⟨hbfs1, hbfs2⟩ := holeBFS_run hlen hz hnlt hvs hdisj
        rw [hbfs1, hbfs2]
        by_cases hbig : w * h <
            20 * (zcompF mask w h (q.2 * w + q.1)).card
        · rw [if_pos hbig]
          constructor
          · intro _
            exact ⟨q, List.mem_cons_self _ _, hz, hbig⟩
          · intro _
            exact holesFold_absorb mask w h R _ rfl
        · rw [if_neg hbig]
          have hvs' : vis ∪ zcompF mask w h (q.2 * w + q.1) ⊆
              Finset.range (w * h) := by
            intro a ha
            rcases Finset.mem_union.mp ha with ha | ha
            · exact hvs ha
            · exact Finset.mem_range.mpr (mem_zcompF.mp ha).1
          have hclosed' : ∀ j ∈ vis ∪ zcompF mask w h (q.2 * w + q.1),
              mask[j]? = some 0 ∧
              ∀ k, zconn mask w h j k →
                k ∈ vis ∪ zcompF mask w h (q.2 * w + q.1) := by
            intro j hj
            rcases Finset.mem_union.mp hj with hj | hj
            · exact ⟨(hclosed j hj).1,
                fun k hk => Finset.mem_union_left _ ((hclosed j hj).2 k hk)⟩
            · obtain ⟨hjlt, hjc⟩ := mem_zcompF.mp hj
              refine ⟨zconn_zero hjc hz, ?_⟩
              intro k hk
              refine Finset.mem_union_right _ (mem_zcompF.mpr
                ⟨zconn_lt hk hjlt, Relation.ReflTransGen.trans hjc hk⟩)
          have hsmall' : ∀ j ∈ vis ∪ zcompF mask w h (q.2 * w + q.1),
              20 * (zcompF mask w h j).card ≤ w * h := by
            intro j hj
            rcases Finset.mem_union.mp hj with hj | hj
            · exact hsmall j hj
            · obtain ⟨hjlt, hjc⟩ := mem_zcompF.mp hj
              rw [← zcompF_eq_of_conn hjc hz]
              omega
          rw [ih (fun p hp => hR p (List.mem_cons_of_mem _ hp)) _ hvs'
            hclosed' hsmall']
          constructor
          · rintro ⟨p, hp, hx⟩
            exact ⟨p, List.mem_cons_of_mem _ hp, hx⟩
          · rintro ⟨p, hp, hx⟩
            rcases List.mem_cons.mp hp with rfl | hp'
            · exact absurd hx.2 (by omega)
            · exact ⟨p, hp', hx⟩
    · rw [if_neg (fun hc => hz hc.1)]
      rw [ih (fun p hp => hR p (List.mem_cons_of_mem _ hp)) vis hvs
        hclosed hsmall]
      constructor
      · rintro ⟨p, hp, hx⟩
        exact ⟨p, List.mem_cons_of_mem _ hp, hx⟩
      · rintro ⟨p, hp, hx⟩
        rcases List.mem_cons.mp hp with rfl | hp'
        · exact absurd hx.1 hz
        · exact ⟨p, hp', hx⟩

end CutOut

namespace CutOut

lemma scan_scale (ys xs : List ℕ) (d : ℤ) :
    (ys.flatMap fun y => xs.map fun (x : ℕ) => (d * x, d * y)) =
      (ys.flatMap fun y => xs.map fun x => (x, y)).map
        fun (q : ℕ × ℕ) => (d * q.1, d * q.2) := by
  induction ys with
  | nil => rfl
  | cons a ys ih =>
    rw [List.flatMap_cons, List.flatMap_cons, List.map_append, ih,
      List.map_map]
    rfl

lemma idxNat8 (w a b : ℕ) :
    idxNat ((8 : ℤ) * b * w + (8 : ℤ) * a) 8 = some (b * w + a) := by
  unfold idxNat
  rw [if_pos ⟨⟨((b * w + a : ℕ) : ℤ), by push_cast; ring⟩, by positivity⟩]
  congr 1
  rw [show (8 : ℤ) * b * w + (8 : ℤ) * a = 8 * ((b * w + a : ℕ) : ℤ) by
    push_cast; ring]
  rw [Int.mul_ediv_cancel_left _ (by norm_num), Int.toNat_ofNat]

/-- `checkForProblematicHoles` under alignment: true exactly when some pixel
of the core window lies in a zero component covering more than 5% of the
image. -/
lemma checkHoles_iff (mask : List ℕ) (w h : ℕ) (hlen : mask.length = w * h)
    (hhx : 8 ∣ 4 * w - min w h) (hhy : 8 ∣ 4 * h - min w h) :
    checkForProblematicHoles mask w h = true ↔
      ∃ p ∈ holeWinF w h, mask[p.2 * w + p.1]? = some 0 ∧
        w * h < 20 * (zcompF mask w h (p.2 * w + p.1)).card := by
  unfold checkForProblematicHoles
  rw [holeScanCoords_aligned w h hhx hhy, scan_scale]
  rw [List.foldl_map]
  dsimp only
  have hIdx : ∀ (a b : ℕ), idxNat ((8 : ℤ) * b * (w : ℤ) + (8 : ℤ) * a) 8 =
      some (b * w + a) := idxNat8 w
  simp only [hIdx]
  rw [holes_fold mask w h hlen _ ?_ ∅ (by simp) (by simp) (by simp)]
  · have hmem : ∀ p : ℕ × ℕ,
        (p ∈ ((List.range h).filter fun y =>
          decide (4 * h ≤ 8 * y + min w h ∧ 8 * y < 4 * h + min w h)).flatMap
            fun y => ((List.range w).filter fun x =>
              decide (4 * w ≤ 8 * x + min w h ∧
                8 * x < 4 * w + min w h)).map fun x => (x, y)) ↔
        p ∈ holeWinF w h := by
      intro p
      rw [List.mem_flatMap]
      unfold holeWinF
      rw [Finset.mem_product, Finset.mem_filter, Finset.mem_filter,
        Finset.mem_range, Finset.mem_range]
      constructor
      · rintro ⟨y, hy, hp⟩
        obtain ⟨x, hx, hxp⟩ := List.mem_map.mp hp
        rw [List.mem_filter, List.mem_range, decide_eq_true_eq] at hy hx
        subst hxp
        exact ⟨⟨hx.1, hx.2⟩, ⟨hy.1, hy.2⟩⟩
      · rintro ⟨⟨hx1, hx2⟩, ⟨hy1, hy2⟩⟩
        refine ⟨p.2, ?_, ?_⟩
        · rw [List.mem_filter, List.mem_range, decide_eq_true_eq]
          exact ⟨hy1, hy2⟩
        · refine List.mem_map.mpr ⟨p.1, ?_, ?_⟩
          · rw [List.mem_filter, List.mem_range, decide_eq_true_eq]
            exact ⟨hx1, hx2⟩
          · exact Prod.mk.eta
    simp only [hmem]
  · intro q hq
    obtain ⟨y, hy, hp⟩ := List.mem_flatMap.mp hq
    obtain ⟨x, hx, hxp⟩ := List.mem_map.mp hp
    rw [List.mem_filter, List.mem_range] at hy hx
    subst hxp
    exact ⟨hx.1, hy.1⟩

end CutOut

namespace CutOut

/-- The original claim's rejection predicate for the validator, following the
spec's words: reject when more than 12% of the central window is removed, or
when some 4-connected zero region lying ENTIRELY INSIDE the core window
exceeds 5% of the image area. -/
def claimRejects (mask : List ℕ) (w h : ℕ) : Prop :=
  12 * (centerWinF w h).card <
      100 * ((centerWinF w h).filter
        fun p => mask[p.2 * w + p.1]? = some 0).card ∨
  ∃ i ∈ zerosF mask w h,
    (∀ j ∈ zcompF mask w h i, (j % w, j / w) ∈ holeWinF w h) ∧
    w * h < 20 * (zcompF mask w h i).card

/-- An 8×8 mask whose only zeros form a vertical line from the top edge into
the core center window: pixels (3,0),(3,1),(3,2),(3,3). -/
def holeMask8 : List ℕ :=
  [255, 255, 255, 0, 255, 255, 255, 255, 255, 255, 255, 0, 255, 255, 255, 255,
  255, 255, 255, 0, 255, 255, 255, 255, 255, 255, 255, 0, 255, 255, 255, 255,
  255, 255, 255, 255, 255, 255, 255, 255, 255, 255, 255, 255, 255, 255, 255, 255,
  255, 255, 255, 255, 255, 255, 255, 255, 255, 255, 255, 255, 255, 255, 255, 255]

/-- C5 (counterexample): the validator's hole check measures the WHOLE
component of a zero found in the core window, not only regions entirely
inside it.  On `holeMask8` the four zeros form one component of size 4 >
5% of 64 that merely touches the window at pixel (3,3): the code rejects,
while the claim's predicate (no region entirely inside the window, center
removal 1/9 ≤ 12%) accepts. -/
theorem validator_rejects_crossing_hole :
    validateObjectPreservation holeMask8 8 8 = false ∧
    ¬ claimRejects holeMask8 8 8 := by
  constructor
  · decide
  · rintro (hc | ⟨i, hiz, hall, hbig⟩)
    · exact absurd hc (by decide)
    · have s27 : zstep holeMask8 8 8 27 19 :=
        ⟨⟨3, 3, 3, 2, by decide⟩, by decide⟩
      have s19 : zstep holeMask8 8 8 19 11 :=
        ⟨⟨3, 2, 3, 1, by decide⟩, by decide⟩
      have s11 : zstep holeMask8 8 8 11 3 :=
        ⟨⟨3, 1, 3, 0, by decide⟩, by decide⟩
      have hzF : zerosF holeMask8 8 8 = {3, 11, 19, 27} := by decide
      have houtside : ∀ hc3 : zconn holeMask8 8 8 i 3, False := by
        intro hc3
        have h3m : (3 : ℕ) ∈ zcompF holeMask8 8 8 i :=
          mem_zcompF.mpr ⟨by decide, hc3⟩
        have := hall 3 h3m
        exact absurd this (by decide)
      rw [hzF] at hiz
      rcases Finset.mem_insert.mp hiz with rfl | hiz
      · exact houtside Relation.ReflTransGen.refl
      rcases Finset.mem_insert.mp hiz with rfl | hiz
      · exact houtside (Relation.ReflTransGen.single s11)
      rcases Finset.mem_insert.mp hiz with rfl | hiz
      · exact houtside (Relation.ReflTransGen.head s19
          (Relation.ReflTransGen.single s11))
      rcases Finset.mem_singleton.mp hiz with rfl
      exact houtside (Relation.ReflTransGen.head s27
        (Relation.ReflTransGen.head s19 (Relation.ReflTransGen.single s11)))

end CutOut

namespace CutOut

/-- C5: on a mask of a w×h image whose validation windows are aligned (their
scaled corners land on integer pixels), `validateObjectPreservation` accepts
exactly when at most 12% of the central 0.3·min window's pixels are removed
AND no 4-connected zero region CONTAINING a pixel of the core 0.25·min
window exceeds 5% of the image area.  (The claim's "entirely inside" is
corrected to "intersecting": the BFS measures the whole component.) -/
theorem validator_characterization (mask : List ℕ) (w h : ℕ)
    (hlen : mask.length = w * h)
    (hcx : 20 ∣ 10 * w - 3 * min w h) (hcy : 20 ∣ 10 * h - 3 * min w h)
    (hhx : 8 ∣ 4 * w - min w h) (hhy : 8 ∣ 4 * h - min w h) :
    validateObjectPreservation mask w h = true ↔
      (100 * ((centerWinF w h).filter
          fun p => mask[p.2 * w + p.1]? = some 0).card ≤
        12 * (centerWinF w h).card) ∧
      (∀ p ∈ holeWinF w h, mask[p.2 * w + p.1]? = some 0 →
        20 * (zcompF mask w h (p.2 * w + p.1)).card ≤ w * h) := by
  unfold validateObjectPreservation
  rw [Bool.and_eq_true]
  constructor
  · rintro ⟨h1, h2⟩
    refine ⟨(validateCenterOK_iff mask w h hcx hcy).mp h1, ?_⟩
    intro p hp hz
    by_contra hbig
    have hc : checkForProblematicHoles mask w h = true :=
      (checkHoles_iff mask w h hlen hhx hhy).mpr ⟨p, hp, hz, by omega⟩
    rw [hc] at h2
    exact absurd h2 (by decide)
  · rintro ⟨h1, h2⟩
    refine ⟨(validateCenterOK_iff mask w h hcx hcy).mpr h1, ?_⟩
    have hc : checkForProblematicHoles mask w h = false := by
      rw [← Bool.not_eq_true]
      intro hc
      obtain ⟨p, hp, hz, hbig⟩ := (checkHoles_iff mask w h hlen hhx hhy).mp hc
      have := h2 p hp hz
      omega
    rw [hc]
    decide

theorem validator_characterization_witness :
    ((List.replicate 1600 (255 : ℕ)).length = 40 * 40 ∧
      20 ∣ 10 * 40 - 3 * min 40 40 ∧ 20 ∣ 10 * 40 - 3 * min 40 40 ∧
      8 ∣ 4 * 40 - min 40 40 ∧ 8 ∣ 4 * 40 - min 40 40) ∧
    (validateObjectPreservation (List.replicate 1600 (255 : ℕ)) 40 40 = true ↔
      (100 * ((centerWinF 40 40).filter
          fun p => (List.replicate 1600 (255 : ℕ))[p.2 * 40 + p.1]? =
            some 0).card ≤ 12 * (centerWinF 40 40).card) ∧
      (∀ p ∈ holeWinF 40 40,
        (List.replicate 1600 (255 : ℕ))[p.2 * 40 + p.1]? = some 0 →
        20 * (zcompF (List.replicate 1600 (255 : ℕ)) 40 40
          (p.2 * 40 + p.1)).card ≤ 40 * 40)) :=
  ⟨⟨by rw [List.length_replicate], by decide, by decide, by decide,
      by decide⟩,
    validator_characterization (List.replicate 1600 (255 : ℕ)) 40 40
      (by rw [List.length_replicate]) (by decide) (by decide) (by decide)
      (by decide)⟩

end CutOut
namespace CutOut

/-! ## AIBackgroundRemover: createEnhancedAIMask (src part_001 lines 167-346)

The analysis layers work on raw RGB data; all reads in the source are
in-bounds for well-formed inputs (`data.length = width·height·channels`), so
buffer reads are modeled with default 0.  `Math.random()` is modeled as an
explicit stream `r : ℕ → ℚ` of draws in `[0,1)`: sample `i` of the cluster
layer consumes draws `2i` (x) and `2i+1` (y). -/

def dataAt (img : Image) (i : ℕ) : ℕ := img.data.getD i 0

/-- The RGB triple at pixel `p` (`data[p*channels .. p*channels+2]`). -/
def colorAt (img : Image) (p : ℕ) : Color :=
  ⟨dataAt img (p * img.channels), dataAt img (p * img.channels + 1),
    dataAt img (p * img.channels + 2)⟩

/-- Euclidean RGB distance (src part_001 lines 227-231 and 330-334). -/
noncomputable def colorDistR (c1 c2 : Color) : ℝ :=
  Real.sqrt (((c1.r : ℝ) - c2.r) ^ 2 + ((c1.g : ℝ) - c2.g) ^ 2 +
    ((c1.b : ℝ) - c2.b) ^ 2)

/-- Mean intensity of pixel `p` (`(data[idx]+data[idx+1]+data[idx+2])/3`). -/
noncomputable def intensity (img : Image) (p : ℕ) : ℝ :=
  ((dataAt img (p * img.channels) + dataAt img (p * img.channels + 1) +
    dataAt img (p * img.channels + 2) : ℕ) : ℝ) / 3

def sobelXl : List ℤ := [-1, 0, 1, -2, 0, 2, -1, 0, 1]

def sobelYl : List ℤ := [-1, -2, -1, 0, 0, 0, 1, 2, 1]

/-- Kernel offsets `(kx+1, ky+1)` for a 3×3 loop, y outer. -/
def offs9 : List (ℕ × ℕ) :=
  (List.range 3).flatMap fun dy => (List.range 3).map fun dx => (dx, dy)

/-- Kernel offsets for a 5×5 loop, y outer. -/
def offs25 : List (ℕ × ℕ) :=
  (List.range 5).flatMap fun dy => (List.range 5).map fun dx => (dx, dy)

/-- The 1000 sampled colors of `analyzeColorClusters` (src part_001 lines
209-215): sample `i` is the pixel at `(⌊r(2i)·w⌋, ⌊r(2i+1)·h⌋)`. -/
def samplePoints (img : Image) (r : ℕ → ℚ) : List Color :=
  (List.range 1000).map fun i =>
    colorAt img ((Int.floor (r (2 * i + 1) * img.height)).toNat * img.width +
      (Int.floor (r (2 * i) * img.width)).toNat)

/-- `minDistance` of a pixel color to the sample points.  The source starts
the running minimum at `Infinity`; since the sample list is nonempty and
every distance is at most `255·√3 < 442`, starting at `2000000` yields the
same value. -/
noncomputable def minDistTo (pts : List Color) (c : Color) : ℝ :=
  pts.foldl (fun acc s => min acc (colorDistR c s)) 2000000

/-- Layer 0, `analyzeColorClusters` (lines 204-239): min sample distance
over 255. -/
noncomputable def layer0 (img : Image) (r : ℕ → ℚ) (p : ℕ) : ℝ :=
  minDistTo (samplePoints img r) (colorAt img p) / 255

/-- Sobel `gx` at interior `(x,y)`. -/
noncomputable def gxAt (img : Image) (x y : ℕ) : ℝ :=
  (offs9.map fun o =>
    intensity img ((y - 1 + o.2) * img.width + (x - 1 + o.1)) *
      ((sobelXl.getD (o.2 * 3 + o.1) 0 : ℤ) : ℝ)).sum

/-- Sobel `gy` at interior `(x,y)`. -/
noncomputable def gyAt (img : Image) (x y : ℕ) : ℝ :=
  (offs9.map fun o =>
    intensity img ((y - 1 + o.2) * img.width + (x - 1 + o.1)) *
      ((sobelYl.getD (o.2 * 3 + o.1) 0 : ℤ) : ℝ)).sum

/-- Layer 1, `analyzeEdgeComplexity` (lines 244-275): Sobel magnitude over
255 on the interior, 0 on the border (`Float32Array` zero-init). -/
noncomputable def layer1 (img : Image) (p : ℕ) : ℝ :=
  let x := p % img.width
  let y := p / img.width
  if 1 ≤ x ∧ x + 2 ≤ img.width ∧ 1 ≤ y ∧ y + 2 ≤ img.height then
    Real.sqrt (gxAt img x y * gxAt img x y + gyAt img x y * gyAt img x y) / 255
  else 0

/-- The 8-neighborhood intensity variance of `analyzeTexturePatterns`
(lines 280-311; the `pattern` counter is computed but unused). -/
noncomputable def varianceAt (img : Image) (x y : ℕ) : ℝ :=
  ((offs9.filter fun o => o ≠ (1, 1)).map fun o =>
    (intensity img ((y - 1 + o.2) * img.width + (x - 1 + o.1)) -
      intensity img (y * img.width + x)) ^ 2).sum

/-- Layer 2, `analyzeTexturePatterns`: `min(variance/(8·255·255), 1)` on the
interior, 0 on the border. -/
noncomputable def layer2 (img : Image) (p : ℕ) : ℝ :=
  let x := p % img.width
  let y := p / img.width
  if 1 ≤ x ∧ x + 2 ≤ img.width ∧ 1 ≤ y ∧ y + 2 ≤ img.height then
    min (varianceAt img x y / (8 * 255 * 255)) 1
  else 0

/-- Total 5×5 color difference of `analyzeSpatialCoherence` (lines 316-346);
the loop visits exactly 25 neighbors, so `count = 25`. -/
noncomputable def totalDiffAt (img : Image) (x y : ℕ) : ℝ :=
  (offs25.map fun o =>
    colorDistR (colorAt img (y * img.width + x))
      (colorAt img ((y - 2 + o.2) * img.width + (x - 2 + o.1)))).sum

/-- Layer 3, `analyzeSpatialCoherence`: `(total/25)/255` two pixels inside,
0 elsewhere. -/
noncomputable def layer3 (img : Image) (p : ℕ) : ℝ :=
  let x := p % img.width
  let y := p / img.width
  if 2 ≤ x ∧ x + 3 ≤ img.width ∧ 2 ≤ y ∧ y + 3 ≤ img.height then
    totalDiffAt img x y / 25 / 255
  else 0

/-- The weighted background score of `createEnhancedAIMask` (lines 184-189):
0.3·clusters + 0.25·edges + 0.25·texture + 0.2·coherence. -/
noncomputable def backgroundScoreAI (img : Image) (r : ℕ → ℚ) (p : ℕ) : ℝ :=
  layer0 img r p * 0.3 + layer1 img p * 0.25 + layer2 img p * 0.25 +
    layer3 img p * 0.2

open Classical in
/-- The raw AI mask before morphology (lines 191-194): sigmoid of the score,
0 where the background probability is below 0.3, else 255. -/
noncomputable def aiMaskRaw (img : Image) (r : ℕ → ℚ) : ℕ → ℕ := fun p =>
  if p < img.width * img.height then
    if 1 / (1 + Real.exp (-5 * (backgroundScoreAI img r p - 0.5))) <
        (0.3 : ℝ) then 0
    else 255
  else 0

/-- `createEnhancedAIMask` (lines 167-198): the raw weighted mask cleaned by
opening then closing. -/
noncomputable def createEnhancedAIMask (img : Image) (r : ℕ → ℚ) : ℕ → ℕ :=
  applyMorphologicalOperations (aiMaskRaw img r) img.width img.height

end CutOut

namespace CutOut

/-- C9: the synthesized mask is a deterministic function of the image and
the first 2000 pseudo-random draws (sample i consumes draws 2i and 2i+1):
two runs whose streams agree there produce byte-identical masks.  The
sampling is NOT seeded in the source, so this is all that holds. -/
theorem ai_mask_deterministic_in_draws (img : Image) (r1 r2 : ℕ → ℚ)
    (hagree : ∀ i < 2000, r1 i = r2 i) (p : ℕ) :
    createEnhancedAIMask img r1 p = createEnhancedAIMask img r2 p := by
  have hsp : samplePoints img r1 = samplePoints img r2 := by
    unfold samplePoints
    refine List.map_congr_left ?_
    intro i hi
    have hi' : i < 1000 := List.mem_range.mp hi
    rw [hagree (2 * i) (by omega), hagree (2 * i + 1) (by omega)]
  have hraw : aiMaskRaw img r1 = aiMaskRaw img r2 := by
    funext q
    unfold aiMaskRaw backgroundScoreAI layer0
    rw [hsp]
  unfold createEnhancedAIMask
  rw [hraw]

/-- The example 5×5 image: white pixel at (0,0), black elsewhere. -/
def img5 : Image := ⟨5, 5, 3, [255, 255, 255] ++ List.replicate 72 0⟩

/-- A run whose draws are all 0: every cluster sample is pixel (0,0). -/
def runA : ℕ → ℚ := fun _ => 0

/-- A run whose draws are all 1/2: every cluster sample is pixel (2,2). -/
def runB : ℕ → ℚ := fun _ => 1 / 2

theorem ai_mask_deterministic_in_draws_witness :
    (∀ i < 2000, runA i = runA i) ∧
    createEnhancedAIMask img5 runA 12 = createEnhancedAIMask img5 runA 12 :=
  ⟨fun _ _ => rfl, ai_mask_deterministic_in_draws img5 runA runA
    (fun _ _ => rfl) 12⟩

end CutOut

namespace CutOut

def white : Color := ⟨255, 255, 255⟩

def black : Color := ⟨0, 0, 0⟩

lemma dataAt5 : ∀ i, dataAt img5 i = if i < 3 then 255 else 0 := by
  intro i
  by_cases hi : i < 75
  · have hd : ∀ j, j < 75 → dataAt img5 j = if j < 3 then 255 else 0 := by
      decide
    exact hd i hi
  · unfold dataAt
    rw [List.getD_eq_default _ _ (by norm_num [img5]; omega)]
    rw [if_neg (by omega)]

lemma colorAt5 : ∀ p, colorAt img5 p = if p = 0 then white else black := by
  intro p
  unfold colorAt
  have hch : img5.channels = 3 := rfl
  rw [hch, dataAt5, dataAt5, dataAt5]
  by_cases hp : p = 0
  · subst hp
    rw [if_pos rfl]
    norm_num [white]
  · rw [if_neg hp]
    rw [if_neg (by omega), if_neg (by omega), if_neg (by omega)]
    rfl

lemma intensity5 : ∀ p, intensity img5 p = if p = 0 then 255 else 0 := by
  intro p
  unfold intensity
  have hch : img5.channels = 3 := rfl
  rw [hch, dataAt5, dataAt5, dataAt5]
  by_cases hp : p = 0
  · subst hp
    rw [if_pos rfl]
    norm_num
  · rw [if_neg hp]
    rw [if_neg (by omega), if_neg (by omega), if_neg (by omega)]
    norm_num

lemma colorDistR_same (c : Color) : colorDistR c c = 0 := by
  unfold colorDistR
  simp

lemma sqrt195075 : Real.sqrt 195075 = 255 * Real.sqrt 3 := by
  rw [show (195075 : ℝ) = 255 ^ 2 * 3 by norm_num,
    Real.sqrt_mul (by positivity), Real.sqrt_sq (by norm_num)]

lemma sqrt130050 : Real.sqrt 130050 = 255 * Real.sqrt 2 := by
  rw [show (130050 : ℝ) = 255 ^ 2 * 2 by norm_num,
    Real.sqrt_mul (by positivity), Real.sqrt_sq (by norm_num)]

lemma sqrt3_lt_2 : Real.sqrt 3 < 2 := by
  nlinarith [Real.sq_sqrt (show (0:ℝ) ≤ 3 by norm_num), Real.sqrt_nonneg 3]

lemma sqrt3_gt : (5 : ℝ) / 3 < Real.sqrt 3 := by
  nlinarith [Real.sq_sqrt (show (0:ℝ) ≤ 3 by norm_num), Real.sqrt_nonneg 3]

lemma sqrt2_bounds : (1.41 : ℝ) ≤ Real.sqrt 2 ∧ Real.sqrt 2 ≤ 1.42 := by
  constructor <;>
    nlinarith [Real.sq_sqrt (show (0:ℝ) ≤ 2 by norm_num), Real.sqrt_nonneg 2]

lemma colorDistR_bw : colorDistR black white = 255 * Real.sqrt 3 := by
  unfold colorDistR black white
  rw [show (((0:ℕ):ℝ) - ((255:ℕ):ℝ)) ^ 2 + (((0:ℕ):ℝ) - ((255:ℕ):ℝ)) ^ 2 +
    (((0:ℕ):ℝ) - ((255:ℕ):ℝ)) ^ 2 = 195075 by norm_num]
  exact sqrt195075

lemma colorDistR_wb : colorDistR white black = 255 * Real.sqrt 3 := by
  unfold colorDistR black white
  rw [show (((255:ℕ):ℝ) - ((0:ℕ):ℝ)) ^ 2 + (((255:ℕ):ℝ) - ((0:ℕ):ℝ)) ^ 2 +
    (((255:ℕ):ℝ) - ((0:ℕ):ℝ)) ^ 2 = 195075 by norm_num]
  exact sqrt195075

lemma foldl_min_replicate (f : Color → ℝ) :
    ∀ (n : ℕ), n ≠ 0 → ∀ (a : ℝ) (c : Color),
      (List.replicate n c).foldl (fun acc s => min acc (f s)) a =
        min a (f c) := by
  intro n
  induction n with
  | zero => intro h; exact absurd rfl h
  | succ n ih =>
    intro _ a c
    rw [List.replicate_succ, List.foldl_cons]
    by_cases hn : n = 0
    · subst hn
      rfl
    · rw [ih hn]
      rw [min_assoc, min_self]

lemma samplePointsA : samplePoints img5 runA = List.replicate 1000 white := by
  unfold samplePoints runA
  have hfix : ∀ i ∈ List.range 1000,
      colorAt img5 ((Int.floor ((0 : ℚ) * img5.height)).toNat * img5.width +
        (Int.floor ((0 : ℚ) * img5.width)).toNat) = white := by
    intro i _
    norm_num [colorAt5]
  rw [List.map_congr_left hfix, List.map_const', List.length_range]

lemma samplePointsB : samplePoints img5 runB = List.replicate 1000 black := by
  unfold samplePoints runB
  have hfloor : (Int.floor ((1 / 2 : ℚ) * img5.height)).toNat = 2 := by
    norm_num [img5]
    rfl
  have hfloor2 : (Int.floor ((1 / 2 : ℚ) * img5.width)).toNat = 2 := by
    norm_num [img5]
    rfl
  have hfix : ∀ i ∈ List.range 1000,
      colorAt img5 ((Int.floor ((1 / 2 : ℚ) * img5.height)).toNat *
        img5.width + (Int.floor ((1 / 2 : ℚ) * img5.width)).toNat) = black := by
    intro i _
    rw [hfloor, hfloor2]
    rw [show (2 * img5.width + 2 : ℕ) = 12 from rfl]
    rw [colorAt5]
    norm_num
  rw [List.map_congr_left hfix, List.map_const', List.length_range]

end CutOut

namespace CutOut

lemma sqrt3_le_big : 255 * Real.sqrt 3 ≤ 2000000 := by
  nlinarith [sqrt3_lt_2]

lemma layer0_A_black (p : ℕ) (hp : p ≠ 0) :
    layer0 img5 runA p = Real.sqrt 3 := by
  unfold layer0 minDistTo
  rw [samplePointsA, colorAt5, if_neg hp,
    foldl_min_replicate _ 1000 (by norm_num), colorDistR_bw,
    min_eq_right sqrt3_le_big]
  field_simp

lemma layer0_A_white : layer0 img5 runA 0 = 0 := by
  unfold layer0 minDistTo
  rw [samplePointsA, colorAt5, if_pos rfl,
    foldl_min_replicate _ 1000 (by norm_num), colorDistR_same,
    min_eq_right (by norm_num)]
  norm_num

lemma layer0_B_black (p : ℕ) (hp : p ≠ 0) : layer0 img5 runB p = 0 := by
  unfold layer0 minDistTo
  rw [samplePointsB, colorAt5, if_neg hp,
    foldl_min_replicate _ 1000 (by norm_num), colorDistR_same,
    min_eq_right (by norm_num)]
  norm_num

lemma layer0_B_white : layer0 img5 runB 0 = Real.sqrt 3 := by
  unfold layer0 minDistTo
  rw [samplePointsB, colorAt5, if_pos rfl,
    foldl_min_replicate _ 1000 (by norm_num), colorDistR_wb,
    min_eq_right sqrt3_le_big]
  field_simp

lemma offs9_bound : ∀ o ∈ offs9, o.1 ≤ 2 ∧ o.2 ≤ 2 := by decide

lemma gxAt_zero (img : Image) (x y : ℕ)
    (hz : ∀ o ∈ offs9,
      intensity img ((y - 1 + o.2) * img.width + (x - 1 + o.1)) = 0) :
    gxAt img x y = 0 := by
  unfold gxAt
  refine List.sum_eq_zero ?_
  intro v hv
  obtain ⟨o, ho, rfl⟩ := List.mem_map.mp hv
  rw [hz o ho, zero_mul]

lemma gyAt_zero (img : Image) (x y : ℕ)
    (hz : ∀ o ∈ offs9,
      intensity img ((y - 1 + o.2) * img.width + (x - 1 + o.1)) = 0) :
    gyAt img x y = 0 := by
  unfold gyAt
  refine List.sum_eq_zero ?_
  intro v hv
  obtain ⟨o, ho, rfl⟩ := List.mem_map.mp hv
  rw [hz o ho, zero_mul]

lemma layer1_img5 (p : ℕ) (hp : p ≠ 6) : layer1 img5 p = 0 := by
  unfold layer1
  dsimp only
  by_cases hg : 1 ≤ p % img5.width ∧ p % img5.width + 2 ≤ img5.width ∧
      1 ≤ p / img5.width ∧ p / img5.width + 2 ≤ img5.height
  · rw [if_pos hg]
    have hw : img5.width = 5 := rfl
    have hh : img5.height = 5 := rfl
    rw [hw] at hg ⊢
    rw [hh] at hg
    have hxy : 2 ≤ p % 5 ∨ 2 ≤ p / 5 := by
      by_contra hc
      push_neg at hc
      have : p % 5 = 1 ∧ p / 5 = 1 := by omega
      have hp6 : p = 6 := by omega
      exact hp hp6
    have hz : ∀ o ∈ offs9,
        intensity img5 ((p / 5 - 1 + o.2) * 5 + (p % 5 - 1 + o.1)) = 0 := by
      intro o ho
      obtain ⟨hb1, hb2⟩ := offs9_bound o ho
      rw [intensity5, if_neg (by omega)]
    rw [gxAt_zero img5 _ _ (by rw [show img5.width = 5 from rfl]; exact hz),
      gyAt_zero img5 _ _ (by rw [show img5.width = 5 from rfl]; exact hz)]
    norm_num
  · rw [if_neg hg]

lemma layer2_img5 (p : ℕ) (hp : p ≠ 6) : layer2 img5 p = 0 := by
  unfold layer2
  dsimp only
  by_cases hg : 1 ≤ p % img5.width ∧ p % img5.width + 2 ≤ img5.width ∧
      1 ≤ p / img5.width ∧ p / img5.width + 2 ≤ img5.height
  · rw [if_pos hg]
    have hw : img5.width = 5 := rfl
    have hh : img5.height = 5 := rfl
    rw [hw] at hg ⊢
    rw [hh] at hg
    have hxy : 2 ≤ p % 5 ∨ 2 ≤ p / 5 := by
      by_contra hc
      push_neg at hc
      have hp6 : p = 6 := by omega
      exact hp hp6
    have hvar : varianceAt img5 (p % 5) (p / 5) = 0 := by
      unfold varianceAt
      refine List.sum_eq_zero ?_
      intro v hv
      obtain ⟨o, ho, rfl⟩ := List.mem_map.mp hv
      have ho' : o ∈ offs9 := List.mem_of_mem_filter ho
      obtain ⟨hb1, hb2⟩ := offs9_bound o ho'
      have hw5 : img5.width = 5 := rfl
      rw [hw5, intensity5, intensity5, if_neg (by omega),
        if_neg (by omega)]
      norm_num
    rw [hvar]
    norm_num
  · rw [if_neg hg]

lemma layer3_img5 (p : ℕ) (hp : p ≠ 12) : layer3 img5 p = 0 := by
  unfold layer3
  dsimp only
  refine if_neg ?_
  rintro ⟨h1, h2, h3, h4⟩
  have hw : img5.width = 5 := rfl
  have hh : img5.height = 5 := rfl
  rw [hw] at h1 h2 h3 h4
  rw [hh] at h4
  have : p % 5 = 2 ∧ p / 5 = 2 := by omega
  exact hp (by omega)

lemma layer1_nonneg (img : Image) (p : ℕ) : 0 ≤ layer1 img p := by
  unfold layer1
  dsimp only
  split
  · positivity
  · exact le_refl 0

lemma layer2_nonneg (img : Image) (p : ℕ) : 0 ≤ layer2 img p := by
  unfold layer2
  dsimp only
  split
  · refine le_min ?_ (by norm_num)
    refine div_nonneg ?_ (by norm_num)
    refine List.sum_nonneg ?_
    intro v hv
    obtain ⟨o, ho, rfl⟩ := List.mem_map.mp hv
    positivity
  · exact le_refl 0

lemma layer3_nonneg (img : Image) (p : ℕ) : 0 ≤ layer3 img p := by
  unfold layer3
  dsimp only
  split
  · refine div_nonneg (div_nonneg ?_ (by norm_num)) (by norm_num)
    refine List.sum_nonneg ?_
    intro v hv
    obtain ⟨o, ho, rfl⟩ := List.mem_map.mp hv
    exact Real.sqrt_nonneg _
  · exact le_refl 0

end CutOut

namespace CutOut

lemma aiBit_ge (img : Image) (r : ℕ → ℚ) (p : ℕ)
    (hp : p < img.width * img.height)
    (hs : Real.exp (-5 * (backgroundScoreAI img r p - 0.5)) ≤ 7 / 3) :
    aiMaskRaw img r p = 255 := by
  unfold aiMaskRaw
  rw [if_pos hp, if_neg]
  rw [not_lt]
  have hEpos := Real.exp_pos (-5 * (backgroundScoreAI img r p - 0.5))
  rw [le_div_iff (by linarith)]
  nlinarith

lemma aiBit_lt (img : Image) (r : ℕ → ℚ) (p : ℕ)
    (hp : p < img.width * img.height)
    (hs : 7 / 3 < Real.exp (-5 * (backgroundScoreAI img r p - 0.5))) :
    aiMaskRaw img r p = 0 := by
  unfold aiMaskRaw
  rw [if_pos hp, if_pos]
  have hEpos := Real.exp_pos (-5 * (backgroundScoreAI img r p - 0.5))
  rw [div_lt_iff (by linarith)]
  nlinarith

lemma exp_small_score (s : ℝ) (hs : s ≤ 1 / 8) :
    7 / 3 < Real.exp (-5 * (s - 0.5)) := by
  have h1 := Real.add_one_le_exp (-5 * (s - 0.5))
  nlinarith

lemma exp_sq_bound (t : ℝ) (h0 : 0 ≤ t) (h2 : t < 2) :
    Real.exp t ≤ (2 / (2 - t)) ^ 2 := by
  have hpos : (0 : ℝ) < 1 - t / 2 := by linarith
  have h1 : (1 : ℝ) - t / 2 ≤ Real.exp (-(t / 2)) := by
    have := Real.add_one_le_exp (-(t / 2))
    linarith
  rw [Real.exp_neg] at h1
  have hEpos := Real.exp_pos (t / 2)
  have hE1 : Real.exp (t / 2) * (1 - t / 2) ≤ 1 := by
    have h2' := mul_le_mul_of_nonneg_left h1 (le_of_lt hEpos)
    rwa [mul_inv_cancel₀ (ne_of_gt hEpos)] at h2'
  have hE : Real.exp (t / 2) ≤ 1 / (1 - t / 2) := by
    rw [le_div_iff hpos]
    exact hE1
  have hsq : Real.exp t = Real.exp (t / 2) * Real.exp (t / 2) := by
    rw [← Real.exp_add]
    norm_num
  have hfrac : (1 : ℝ) / (1 - t / 2) = 2 / (2 - t) := by
    rw [div_eq_div_iff (by linarith) (by linarith)]
    ring
  rw [hsq, pow_two, ← hfrac]
  exact mul_le_mul hE hE (le_of_lt hEpos) (by positivity)

lemma exp_b11 : Real.exp (75 / 32 - 5 / 4 * Real.sqrt 2) ≤ 7 / 3 := by
  obtain ⟨hl, hr⟩ := sqrt2_bounds
  have h0 : (0 : ℝ) ≤ 75 / 32 - 5 / 4 * Real.sqrt 2 := by nlinarith
  have h2 : 75 / 32 - 5 / 4 * Real.sqrt 2 < 2 := by nlinarith
  refine le_trans (exp_sq_bound _ h0 h2) ?_
  rw [div_pow, div_le_div_iff (by nlinarith) (by norm_num)]
  nlinarith

lemma hoffs9 : offs9 =
    [(0, 0), (1, 0), (2, 0), (0, 1), (1, 1), (2, 1), (0, 2), (1, 2),
      (2, 2)] := by decide

lemma hoffs8 : offs9.filter (fun o => o ≠ (1, 1)) =
    [(0, 0), (1, 0), (2, 0), (0, 1), (2, 1), (0, 2), (1, 2), (2, 2)] := by
  decide

lemma hoffs25 : offs25 =
    [(0, 0), (1, 0), (2, 0), (3, 0), (4, 0),
     (0, 1), (1, 1), (2, 1), (3, 1), (4, 1),
     (0, 2), (1, 2), (2, 2), (3, 2), (4, 2),
     (0, 3), (1, 3), (2, 3), (3, 3), (4, 3),
     (0, 4), (1, 4), (2, 4), (3, 4), (4, 4)] := by decide

lemma gxAt_11 : gxAt img5 1 1 = -255 := by
  unfold gxAt
  rw [hoffs9]
  simp only [List.map_cons, List.map_nil, List.sum_cons, List.sum_nil,
    sobelXl, List.getD_cons_zero, List.getD_cons_succ]
  norm_num [intensity5, show img5.width = 5 from rfl]

lemma gyAt_11 : gyAt img5 1 1 = -255 := by
  unfold gyAt
  rw [hoffs9]
  simp only [List.map_cons, List.map_nil, List.sum_cons, List.sum_nil,
    sobelYl, List.getD_cons_zero, List.getD_cons_succ]
  norm_num [intensity5, show img5.width = 5 from rfl]

lemma layer1_img5_6 : layer1 img5 6 = Real.sqrt 2 := by
  unfold layer1
  dsimp only
  rw [show img5.width = 5 from rfl, show img5.height = 5 from rfl]
  rw [if_pos (by norm_num)]
  rw [show (6 : ℕ) % 5 = 1 from rfl, show (6 : ℕ) / 5 = 1 from rfl]
  rw [gxAt_11, gyAt_11]
  rw [show (-255 : ℝ) * -255 + -255 * -255 = 130050 by norm_num, sqrt130050]
  field_simp

lemma layer2_img5_6 : layer2 img5 6 = 1 / 8 := by
  unfold layer2
  dsimp only
  rw [show img5.width = 5 from rfl, show img5.height = 5 from rfl]
  rw [if_pos (by norm_num)]
  rw [show (6 : ℕ) % 5 = 1 from rfl, show (6 : ℕ) / 5 = 1 from rfl]
  have hvar : varianceAt img5 1 1 = 65025 := by
    unfold varianceAt
    rw [hoffs8]
    simp only [List.map_cons, List.map_nil, List.sum_cons, List.sum_nil]
    norm_num [intensity5, show img5.width = 5 from rfl]
  rw [hvar]
  norm_num

lemma layer3_img5_12 : layer3 img5 12 = Real.sqrt 3 / 25 := by
  unfold layer3
  dsimp only
  rw [show img5.width = 5 from rfl, show img5.height = 5 from rfl]
  rw [if_pos (by norm_num)]
  rw [show (12 : ℕ) % 5 = 2 from rfl, show (12 : ℕ) / 5 = 2 from rfl]
  have htot : totalDiffAt img5 2 2 = 255 * Real.sqrt 3 := by
    unfold totalDiffAt
    rw [hoffs25]
    simp only [List.map_cons, List.map_nil, List.sum_cons, List.sum_nil,
      show img5.width = 5 from rfl]
    norm_num [colorAt5, colorDistR_same, colorDistR_bw]
  rw [htot]
  field_simp
  ring

end CutOut

namespace CutOut

/-- The raw AI mask produced by run A: only (0,0) is classified background. -/
def rawMaskA : ℕ → ℕ := fun p => if p = 0 then 0 else if p < 25 then 255 else 0

/-- The raw AI mask produced by run B: only (0,0) and (1,1) score high. -/
def rawMaskB : ℕ → ℕ := fun p => if p = 0 ∨ p = 6 then 255 else 0

lemma aiMaskRaw_A : aiMaskRaw img5 runA = rawMaskA := by
  funext p
  unfold rawMaskA
  by_cases h25 : p < 25
  · by_cases h0 : p = 0
    · subst h0
      rw [if_pos rfl]
      refine aiBit_lt img5 runA 0 (by norm_num [img5]) ?_
      have hsc : backgroundScoreAI img5 runA 0 = 0 := by
        unfold backgroundScoreAI
        rw [layer0_A_white, layer1_img5 0 (by norm_num),
          layer2_img5 0 (by norm_num), layer3_img5 0 (by norm_num)]
        ring
      rw [hsc]
      exact exp_small_score 0 (by norm_num)
    · rw [if_neg h0, if_pos h25]
      refine aiBit_ge img5 runA p (by norm_num [img5]; omega) ?_
      have hsc : 1 / 2 ≤ backgroundScoreAI img5 runA p := by
        unfold backgroundScoreAI
        rw [layer0_A_black p h0]
        have h1 := layer1_nonneg img5 p
        have h2 := layer2_nonneg img5 p
        have h3 := layer3_nonneg img5 p
        nlinarith [sqrt3_gt]
      refine le_trans (Real.exp_le_one_iff.mpr (by nlinarith)) (by norm_num)
  · rw [if_neg (by omega), if_neg h25]
    unfold aiMaskRaw
    rw [if_neg (by rw [show img5.width * img5.height = 25 from rfl]; omega)]

lemma aiMaskRaw_B : aiMaskRaw img5 runB = rawMaskB := by
  funext p
  unfold rawMaskB
  by_cases h25 : p < 25
  · by_cases h0 : p = 0
    · subst h0
      rw [if_pos (Or.inl rfl)]
      refine aiBit_ge img5 runB 0 (by norm_num [img5]) ?_
      have hsc : 1 / 2 ≤ backgroundScoreAI img5 runB 0 := by
        unfold backgroundScoreAI
        rw [layer0_B_white, layer1_img5 0 (by norm_num),
          layer2_img5 0 (by norm_num), layer3_img5 0 (by norm_num)]
        nlinarith [sqrt3_gt]
      exact Real.exp_le_one_iff.mpr (by nlinarith) |>.trans (by norm_num)
    · by_cases h6 : p = 6
      · subst h6
        rw [if_pos (Or.inr rfl)]
        refine aiBit_ge img5 runB 6 (by norm_num [img5]) ?_
        have hsc : backgroundScoreAI img5 runB 6 =
            Real.sqrt 2 / 4 + 1 / 32 := by
          unfold backgroundScoreAI
          rw [layer0_B_black 6 (by norm_num), layer1_img5_6, layer2_img5_6,
            layer3_img5 6 (by norm_num)]
          ring
        rw [hsc]
        rw [show (-5 : ℝ) * (Real.sqrt 2 / 4 + 1 / 32 - 0.5) =
          75 / 32 - 5 / 4 * Real.sqrt 2 by ring]
        exact exp_b11
      · by_cases h12 : p = 12
        · subst h12
          rw [if_neg (by norm_num)]
          refine aiBit_lt img5 runB 12 (by norm_num [img5]) ?_
          have hsc : backgroundScoreAI img5 runB 12 = Real.sqrt 3 / 125 := by
            unfold backgroundScoreAI
            rw [layer0_B_black 12 (by norm_num), layer1_img5 12 (by norm_num),
              layer2_img5 12 (by norm_num), layer3_img5_12]
            ring
          rw [hsc]
          refine exp_small_score _ ?_
          nlinarith [sqrt3_lt_2, Real.sqrt_nonneg 3]
        · rw [if_neg (by tauto)]
          refine aiBit_lt img5 runB p (by norm_num [img5]; omega) ?_
          have hsc : backgroundScoreAI img5 runB p = 0 := by
            unfold backgroundScoreAI
            rw [layer0_B_black p h0, layer1_img5 p h6, layer2_img5 p h6,
              layer3_img5 p h12]
            ring
          rw [hsc]
          exact exp_small_score 0 (by norm_num)
  · rw [if_neg (by omega)]
    unfold aiMaskRaw
    rw [if_neg (by rw [show img5.width * img5.height = 25 from rfl]; omega)]

/-- C9 (counterexample): the cluster layer samples with unseeded
`Math.random()`, so two runs on the same image need not agree.  Two valid
draw-streams (all draws 0 vs all draws 1/2) on the 5×5 image `img5` yield
masks differing at pixel (2,2): 255 vs 0. -/
theorem ai_mask_runs_differ :
    (∀ i, 0 ≤ runA i ∧ runA i < 1) ∧ (∀ i, 0 ≤ runB i ∧ runB i < 1) ∧
    createEnhancedAIMask img5 runA 12 = 255 ∧
    createEnhancedAIMask img5 runB 12 = 0 := by
  refine ⟨fun i => by norm_num [runA], fun i => by norm_num [runB], ?_, ?_⟩
  · unfold createEnhancedAIMask
    rw [aiMaskRaw_A]
    decide
  · unfold createEnhancedAIMask
    rw [aiMaskRaw_B]
    decide

end CutOut
